import Mathlib

/-!
# Verification of the bustub storage-engine core

Shallow embedding of three components of the repository, translated from
`src/buffer/lru_k_replacer.cpp`, `src/container/hash/extendible_hash_table.cpp`
and `src/buffer/buffer_pool_manager_instance.cpp`:

* `LRUK` — the LRU-K replacement policy (two intrusive lists plus a record map;
  the map is represented implicitly: a frame is tracked iff a record with its
  id occurs in one of the two lists, which is exactly the C++ `rec_map_`
  invariant).
* `EHT` — the extendible hash table.  `shared_ptr<Bucket>` aliasing is modelled
  with an arena: `store` is the list of every bucket ever allocated and `dir`
  holds indices into it, so two directory slots alias exactly when they hold
  the same index.
* `BPM` — the buffer pool manager over the two components above.  Latches are
  dropped (all public operations run under the single pool latch, so the
  sequential semantics is the one specified); disk I/O is modelled by an
  association list from page id to page payload.

C++ `assert` / `BUSTUB_ASSERT` / `UNREACHABLE` failures are modelled by
`Option`-valued operations returning `none` (a fatal abort has no successor
state), except where noted in the individual definitions.
-/

namespace LRUK

/-- One node of the intrusive lists (`LRUKReplacer::FrameRec`). -/
structure FrameRec where
  frame_id : Nat
  visit_cnt : Nat
  evictable : Bool
deriving Repr, DecidableEq

/-- State of `LRUKReplacer`: `replacer_size_`, `k_`, `history_list_`,
`buffer_list_`, `evictable_cnt_`.  `rec_map_` is implicit (membership in a
list). -/
structure Replacer where
  replacer_size : Nat
  k : Nat
  history_list : List FrameRec
  buffer_list : List FrameRec
  evictable_cnt : Nat
deriving Repr, DecidableEq

/-- `LRUKReplacer::LRUKReplacer(num_frames, k)`. -/
def mkReplacer (num_frames k : Nat) : Replacer :=
  { replacer_size := num_frames, k := k
    history_list := [], buffer_list := [], evictable_cnt := 0 }

/-- `rec_map_.find(frame_id)`: the record for a frame, looked up in the list
that holds it (unique by the `rec_map_` invariant). -/
def findRec (s : Replacer) (fid : Nat) : Option FrameRec :=
  match s.history_list.find? (fun r => r.frame_id == fid) with
  | some r => some r
  | none => s.buffer_list.find? (fun r => r.frame_id == fid)

/-- `list.erase(it)` where `it` is the node of frame `fid`: drop the first
record carrying `fid`. -/
def eraseFid (l : List FrameRec) (fid : Nat) : List FrameRec :=
  l.eraseP (fun r => r.frame_id == fid)

/-- In-place update (`*it = r`) of the node of frame `fid`. -/
def setRec : List FrameRec → Nat → FrameRec → List FrameRec
  | [], _, _ => []
  | r :: rs, fid, nr => if r.frame_id = fid then nr :: rs else r :: setRec rs fid nr

/-- `LRUKReplacer::RecordAccess`.  The C++ asserts
`frame_id < replacer_size_`; the bound plays no role in the state transition
and is stated as a hypothesis where a claim depends on it.  The dead
overflow branch (`buffer_list_.size() + history_list_.size() == replacer_size_`,
whose body is commented out in the source) is a no-op.  `erase(rec)` unlinks
the node from the list containing it. -/
def recordAccess (s : Replacer) (fid : Nat) : Replacer :=
  match findRec s fid with
  | some rec =>
    if rec.visit_cnt < s.k then
      -- in history_list_: ++visit_cnt_, move to buffer_list_ on reaching k
      let rec2 : FrameRec := { rec with visit_cnt := rec.visit_cnt + 1 }
      if rec2.visit_cnt = s.k then
        { s with history_list := eraseFid s.history_list fid
                 buffer_list := s.buffer_list ++ [rec2] }
      else
        { s with history_list := setRec s.history_list fid rec2 }
    else
      -- in buffer_list_: detach and reappend at the tail
      { s with history_list := eraseFid s.history_list fid
               buffer_list := eraseFid s.buffer_list fid ++ [rec] }
  | none =>
    -- newcomer: visit_cnt = 1, not evictable, tail of history_list_
    { s with history_list := s.history_list ++ [⟨fid, 1, false⟩] }

/-- `LRUKReplacer::SetEvictable`. -/
def setEvictable (s : Replacer) (fid : Nat) (ev : Bool) : Replacer :=
  match findRec s fid with
  | none => s
  | some rec =>
    if ev = rec.evictable then s
    else
      let rec2 : FrameRec := { rec with evictable := ev }
      { s with history_list := setRec s.history_list fid rec2
               buffer_list := setRec s.buffer_list fid rec2
               evictable_cnt := if ev then s.evictable_cnt + 1 else s.evictable_cnt - 1 }

/-- `LRUKReplacer::EvictInternal`.  Outer `none` is the `UNIMPLEMENTED("evict")`
abort; `some (none, s)` is the `*frame_id = -1; return false` path. -/
def evictInternal (s : Replacer) : Option (Option Nat × Replacer) :=
  if s.evictable_cnt = 0 then some (none, s)
  else
    match s.history_list.find? (fun r => r.evictable) with
    | some r =>
      some (some r.frame_id,
        { s with history_list := s.history_list.eraseP (fun x => x.evictable)
                 evictable_cnt := s.evictable_cnt - 1 })
    | none =>
      match s.buffer_list.find? (fun r => r.evictable) with
      | some r =>
        some (some r.frame_id,
          { s with buffer_list := s.buffer_list.eraseP (fun x => x.evictable)
                   evictable_cnt := s.evictable_cnt - 1 })
      | none => none

/-- `LRUKReplacer::Remove`.  The C++ `assert(rec->evictable_)` is stated as a
hypothesis where a claim depends on it; the state transition itself does not
read the flag. -/
def removeRec (s : Replacer) (fid : Nat) : Replacer :=
  match findRec s fid with
  | none => s
  | some rec =>
    if rec.visit_cnt < s.k then
      { s with history_list := eraseFid s.history_list fid
               evictable_cnt := s.evictable_cnt - 1 }
    else
      { s with buffer_list := eraseFid s.buffer_list fid
               evictable_cnt := s.evictable_cnt - 1 }

/-- `LRUKReplacer::Size`. -/
def size (s : Replacer) : Nat := s.evictable_cnt

/-- `evictable_cnt_` agrees with the number of evictable records — the
bookkeeping invariant the source maintains. -/
def WFcnt (s : Replacer) : Prop :=
  s.evictable_cnt = ((s.history_list ++ s.buffer_list).filter (fun r => r.evictable)).length

instance (s : Replacer) : Decidable (WFcnt s) := by
  unfold WFcnt; infer_instance

/-- The eviction order stated by the spec: first evictable record of
`history_list` scanned head to tail, else first evictable record of
`buffer_list`, else none. -/
def specVictim (s : Replacer) : Option Nat :=
  match s.history_list.find? (fun r => r.evictable) with
  | some r => some r.frame_id
  | none => (s.buffer_list.find? (fun r => r.evictable)).map (fun r => r.frame_id)

end LRUK

namespace LRUK

/-- First step of the C4 scenario: a replacer with `k = 2` after
`record_access(1); record_access(2); record_access(3)`,
`set_evictable` true on all three, then `record_access(2)`. -/
def c4state : Replacer :=
  recordAccess
    (setEvictable
      (setEvictable
        (setEvictable
          (recordAccess (recordAccess (recordAccess (mkReplacer 8 2) 1) 2) 3)
          1 true)
        2 true)
      3 true)
    2

/-- Second and third C4 scenario states: the states after the successive
`evict` calls. -/
def c4state2 : Replacer := ((evictInternal c4state).getD (none, c4state)).2

def c4state3 : Replacer := ((evictInternal c4state2).getD (none, c4state2)).2

end LRUK

/-- Under consistent `evictable_cnt` bookkeeping, `EvictInternal` never hits
its `UNIMPLEMENTED` branch and returns exactly the spec's victim. -/
theorem LRUK.evict_matches_spec (s : LRUK.Replacer) (h : LRUK.WFcnt s) :
    ∃ s2, LRUK.evictInternal s = some (LRUK.specVictim s, s2) := by
  unfold LRUK.evictInternal LRUK.specVictim
  by_cases h0 : s.evictable_cnt = 0
  · simp only [h0, if_true]
    have hnil : ((s.history_list ++ s.buffer_list).filter (fun r => r.evictable)) = [] := by
      apply List.length_eq_zero.mp
      rw [← h, h0]
    rw [List.filter_append] at hnil
    have h1 : s.history_list.filter (fun r => r.evictable) = [] :=
      (List.append_eq_nil.mp hnil).1
    have h2 : s.buffer_list.filter (fun r => r.evictable) = [] :=
      (List.append_eq_nil.mp hnil).2
    have f1 : s.history_list.find? (fun r => r.evictable) = none := by
      rw [List.find?_eq_none]
      intro x hx hpx
      have : x ∈ s.history_list.filter (fun r => r.evictable) :=
        List.mem_filter.mpr ⟨hx, hpx⟩
      rw [h1] at this; exact absurd this (List.not_mem_nil x)
    have f2 : s.buffer_list.find? (fun r => r.evictable) = none := by
      rw [List.find?_eq_none]
      intro x hx hpx
      have : x ∈ s.buffer_list.filter (fun r => r.evictable) :=
        List.mem_filter.mpr ⟨hx, hpx⟩
      rw [h2] at this; exact absurd this (List.not_mem_nil x)
    simp [f1, f2]
  · simp only [h0, if_false]
    have hne : ((s.history_list ++ s.buffer_list).filter (fun r => r.evictable)) ≠ [] := by
      intro hnil
      apply h0
      rw [h, hnil]; rfl
    cases hf : s.history_list.find? (fun r => r.evictable) with
    | some r => exact ⟨_, rfl⟩
    | none =>
      cases hb : s.buffer_list.find? (fun r => r.evictable) with
      | some r => exact ⟨_, rfl⟩
      | none =>
        exfalso
        apply hne
        rw [List.filter_append]
        have e1 : s.history_list.filter (fun r => r.evictable) = [] := by
          apply List.filter_eq_nil_iff.mpr
          intro x hx
          simpa using List.find?_eq_none.mp hf x hx
        have e2 : s.buffer_list.filter (fun r => r.evictable) = [] := by
          apply List.filter_eq_nil_iff.mpr
          intro x hx
          simpa using List.find?_eq_none.mp hb x hx
        rw [e1, e2]; rfl

/-- C4: for every replacer state whose `evictable_cnt` bookkeeping is
consistent, `evict` returns the first evictable frame of `history_list`
scanned head to tail, else the first evictable frame of `buffer_list`, and
none if no frame is evictable; and in the concrete scenario
(`record_access` 1, 2, 3; all evictable; `record_access(2)`; `k = 2`) the
three successive `evict` calls return 1, then 3, then 2. -/
theorem C4_lruk_evict_order :
    (∀ s : LRUK.Replacer, LRUK.WFcnt s →
      ∃ s2, LRUK.evictInternal s = some (LRUK.specVictim s, s2)) ∧
    ((LRUK.evictInternal LRUK.c4state).map Prod.fst = some (some 1) ∧
     (LRUK.evictInternal LRUK.c4state2).map Prod.fst = some (some 3) ∧
     (LRUK.evictInternal LRUK.c4state3).map Prod.fst = some (some 2)) :=
  ⟨fun s h => LRUK.evict_matches_spec s h, by decide, by decide, by decide⟩

/-- Witness for C4: the general eviction-order statement applied to the
concrete scenario state, whose bookkeeping hypothesis is discharged by
evaluation. -/
theorem C4_lruk_evict_order_witness :
    ∃ s2, LRUK.evictInternal LRUK.c4state = some (LRUK.specVictim LRUK.c4state, s2) :=
  C4_lruk_evict_order.1 LRUK.c4state (by decide)

namespace EHT

/-- `ExtendibleHashTable<K, V>::Bucket`: capacity `size_`, the shared low-bit
pattern `self_hash_`, local `depth_`, and the entry list `list_`. -/
structure Bucket (K V : Type) where
  size : Nat
  self_hash : Nat
  depth : Nat
  list : List (K × V)
deriving Repr, DecidableEq

/-- `ExtendibleHashTable<K, V>`: `global_depth_`, `bucket_size_`,
`num_buckets_`, and the directory.  `shared_ptr<Bucket>` values are modelled
as indices into the append-only arena `store`; two directory slots alias one
bucket exactly when they hold the same index. -/
structure Table (K V : Type) where
  global_depth : Nat
  bucket_size : Nat
  num_buckets : Nat
  dir : List Nat
  store : List (Bucket K V)
deriving Repr, DecidableEq

/-- `ExtendibleHashTable(bucket_size)`: depth 0, one empty bucket.  The
constructor asserts `bucket_size_ > 0`; the bound is carried as a hypothesis
of the reachability predicate. -/
def mkTable (K V : Type) (bucket_size : Nat) : Table K V :=
  { global_depth := 0, bucket_size := bucket_size, num_buckets := 1
    dir := [0], store := [⟨bucket_size, 0, 0, []⟩] }

variable {K V : Type} [DecidableEq K]

/-- `Bucket::Find`: first entry with the key, if any. -/
def Bucket.find (b : Bucket K V) (key : K) : Option V :=
  (b.list.find? (fun p => p.1 == key)).map (fun p => p.2)

/-- `Bucket::Remove`: erase the first entry with the key; report whether one
existed. -/
def Bucket.remove (b : Bucket K V) (key : K) : Bucket K V × Bool :=
  if b.list.any (fun p => p.1 == key) then
    ({ b with list := b.list.eraseP (fun p => p.1 == key) }, true)
  else (b, false)

/-- `Bucket::IsFull`.  Modelled from the spec: the header that declares it is
not under `src/`; the spec fixes a bucket's capacity at `bucket_size`
("Each bucket carries: a fixed capacity `bucket_size`"). -/
def Bucket.isFull (b : Bucket K V) : Bool := decide (b.size ≤ b.list.length)

/-- Update in place (`entry->second = value`) of the first entry with the key. -/
def updFirst : List (K × V) → K → V → List (K × V)
  | [], _, _ => []
  | p :: ps, key, v => if p.1 = key then (p.1, v) :: ps else p :: updFirst ps key v

/-- `Bucket::Insert`: update in place if the key exists, append if not full,
otherwise fail (`none` = `return false`). -/
def Bucket.insert (b : Bucket K V) (key : K) (v : V) : Option (Bucket K V) :=
  if b.list.any (fun p => p.1 == key) then
    some { b with list := updFirst b.list key v }
  else if b.isFull then none
  else some { b with list := b.list ++ [(key, v)] }

variable (hash : K → Nat)

/-- `IndexOf`: `std::hash<K>()(key) & ((1 << global_depth_) - 1)`, i.e. the low
`global_depth` bits of the hash, written as a remainder. -/
def indexOf (t : Table K V) (key : K) : Nat := hash key % 2 ^ t.global_depth

/-- Directory slot `i` (`dir_[i]`), as a bucket id. -/
def dirAt (t : Table K V) (i : Nat) : Nat := t.dir.getD i 0

/-- Dereference a bucket id in the arena. -/
def getBkt (t : Table K V) (bid : Nat) : Bucket K V := t.store.getD bid ⟨0, 0, 0, []⟩

/-- Overwrite the bucket a `shared_ptr` designates (a mutation seen through
every aliasing directory slot). -/
def setBkt (t : Table K V) (bid : Nat) (b : Bucket K V) : Table K V :=
  { t with store := t.store.set bid b }

/-- `ExtendibleHashTable::Find`. -/
def find (t : Table K V) (key : K) : Option V :=
  Bucket.find (getBkt t (dirAt t (indexOf hash t key))) key

/-- `ExtendibleHashTable::Remove`. -/
def remove (t : Table K V) (key : K) : Table K V × Bool :=
  let bid := dirAt t (indexOf hash t key)
  let res := Bucket.remove (getBkt t bid) key
  (setBkt t bid res.1, res.2)

/-- The rewiring loop of `SplitBucket`:
`for (i = 0; i < 1U << (global_depth_ - depth); ++i)
   dir_[(i << depth) | self_hash] = (i & 1) == 0 ? bucket0 : bucket1;`
with `(i << depth) | self_hash` written as `i * 2 ^ depth + self_hash`
(equal whenever `self_hash < 2 ^ depth`, which holds in well-formed tables). -/
def rewire (dir : List Nat) (d sh cnt b0id b1id : Nat) : List Nat :=
  (List.range cnt).foldl
    (fun acc i => acc.set (i * 2 ^ d + sh) (if i % 2 = 0 then b0id else b1id)) dir

/-- The redistribution loop of `SplitBucket`: re-`Insert` every item of the
split bucket through the directory.  The Bool records whether every
`assert(dir_[idx]->Insert(...))` held; a failed assert aborts the loop. -/
def redistribute : Table K V → List (K × V) → Table K V × Bool
  | t, [] => (t, true)
  | t, item :: rest =>
    match Bucket.insert (getBkt t (dirAt t (indexOf hash t item.1))) item.1 item.2 with
    | some b2 => redistribute (setBkt t (dirAt t (indexOf hash t item.1)) b2) rest
    | none => (t, false)

/-- `ExtendibleHashTable::SplitBucket` on the bucket with arena id `bid`:
`none` = `return false` (local depth equals global depth); otherwise allocate
`bucket0`/`bucket1` of incremented depth (`bucket1`'s self hash is
`(1 << depth) | self_hash`, written as an addition), rewire the matching
directory slots, bump `num_buckets_`, and redistribute the old entries. -/
def splitBucket (t : Table K V) (bid : Nat) : Option (Table K V × Bool) :=
  let b := getBkt t bid
  if b.depth = t.global_depth then none
  else
    let t1 : Table K V :=
      { t with
        store := t.store ++ [⟨t.bucket_size, b.self_hash, b.depth + 1, []⟩,
                             ⟨t.bucket_size, 2 ^ b.depth + b.self_hash, b.depth + 1, []⟩]
        dir := rewire t.dir b.depth b.self_hash (2 ^ (t.global_depth - b.depth))
                 t.store.length (t.store.length + 1)
        num_buckets := t.num_buckets + 1 }
    some (redistribute hash t1 b.list)

/-- `ExtendibleHashTable::ExpandDirs`: `none` = `return false` at
`global_depth_ == sizeof(size_t) * 8`; otherwise double the directory
(`new_dir[i] = dir_[i & ((1 << global_depth_) - 1)]`, the mask written as a
remainder) and increment the global depth. -/
def expandDirs (t : Table K V) : Option (Table K V) :=
  if t.global_depth = 64 then none
  else
    some { t with
      dir := (List.range (2 * 2 ^ t.global_depth)).map
               (fun i => t.dir.getD (i % 2 ^ t.global_depth) 0)
      global_depth := t.global_depth + 1 }

/-- The `while (true)` loop of `ExtendibleHashTable::Insert`, with explicit
fuel.  `none` = the loop has not finished within `fuel` iterations, or a
fatal path was taken (`UNREACHABLE("ExpandDirs failed")`, or a failed
redistribution assert inside `SplitBucket`). -/
def insertLoop : Nat → Table K V → K → V → Option (Table K V)
  | 0, _, _, _ => none
  | fuel + 1, t, key, v =>
    match Bucket.insert (getBkt t (dirAt t (indexOf hash t key))) key v with
    | some b2 => some (setBkt t (dirAt t (indexOf hash t key)) b2)
    | none =>
      match splitBucket hash t (dirAt t (indexOf hash t key)) with
      | some (t2, ok) => if ok then insertLoop fuel t2 key v else none
      | none =>
        match expandDirs t with
        | some t2 => insertLoop fuel t2 key v
        | none => none

/-- A key occurs in some bucket of the directory. -/
def InTable (t : Table K V) (key : K) : Prop :=
  ∃ i < t.dir.length, ∃ p ∈ (getBkt t (dirAt t i)).list, p.1 = key

/-- Well-formedness of a table, the conjunction of the spec's directory
invariants: positive capacity, global depth at most 64, directory length
`2 ^ global_depth`, valid arena ids, per-bucket facts for every slot
(capacity field, depth bound, `self_hash` = the low `depth` bits of the slot,
entry count within capacity, entries routed by their hash pattern, no
duplicate keys), and the aliasing law: two slots share a bucket exactly when
they agree modulo `2 ^ depth` of that bucket. -/
def WF (t : Table K V) : Prop :=
  0 < t.bucket_size ∧
  t.global_depth ≤ 64 ∧
  t.dir.length = 2 ^ t.global_depth ∧
  (∀ i < t.dir.length, dirAt t i < t.store.length) ∧
  (∀ i < t.dir.length,
    (getBkt t (dirAt t i)).size = t.bucket_size ∧
    (getBkt t (dirAt t i)).depth ≤ t.global_depth ∧
    (getBkt t (dirAt t i)).self_hash = i % 2 ^ (getBkt t (dirAt t i)).depth ∧
    (getBkt t (dirAt t i)).list.length ≤ t.bucket_size ∧
    (∀ p ∈ (getBkt t (dirAt t i)).list,
      hash p.1 % 2 ^ (getBkt t (dirAt t i)).depth = (getBkt t (dirAt t i)).self_hash) ∧
    ((getBkt t (dirAt t i)).list.map Prod.fst).Nodup) ∧
  (∀ i < t.dir.length, ∀ j < t.dir.length,
    (dirAt t i = dirAt t j ↔
      i % 2 ^ (getBkt t (dirAt t i)).depth = j % 2 ^ (getBkt t (dirAt t i)).depth))

instance (t : Table K V) : Decidable (WF hash t) := by
  unfold WF; infer_instance

end EHT

namespace Util

variable {α : Type}

theorem getD_set_self (v d : α) :
    ∀ (l : List α) (i : Nat), i < l.length → (l.set i v).getD i d = v := by
  intro l
  induction l with
  | nil => intro i h; simp at h
  | cons a l ih =>
    intro i h
    cases i with
    | zero => rfl
    | succ i =>
      have : i < l.length := by simpa using h
      simpa [List.getD_cons_succ] using ih i this

theorem getD_set_ne (v d : α) :
    ∀ (l : List α) (i j : Nat), i ≠ j → (l.set i v).getD j d = l.getD j d := by
  intro l
  induction l with
  | nil => intro i j _; rfl
  | cons a l ih =>
    intro i j h
    cases i with
    | zero =>
      cases j with
      | zero => exact absurd rfl h
      | succ j => rfl
    | succ i =>
      cases j with
      | zero => rfl
      | succ j => simpa [List.getD_cons_succ] using ih i j (by omega)

theorem set_getD_eq_self (d : α) : ∀ (l : List α) (i : Nat), l.set i (l.getD i d) = l := by
  intro l
  induction l with
  | nil => intro i; rfl
  | cons a l ih =>
    intro i
    cases i with
    | zero => rfl
    | succ i => simpa [List.getD_cons_succ] using congrArg (a :: ·) (ih i)

theorem length_set_eq (v : α) (l : List α) (i : Nat) : (l.set i v).length = l.length := by
  simp

theorem getD_append_left (d : α) :
    ∀ (l l2 : List α) (i : Nat), i < l.length → (l ++ l2).getD i d = l.getD i d := by
  intro l
  induction l with
  | nil => intro l2 i h; simp at h
  | cons a l ih =>
    intro l2 i h
    cases i with
    | zero => rfl
    | succ i =>
      have : i < l.length := by simpa using h
      simpa [List.getD_cons_succ] using ih l2 i this

theorem getD_append_right (d : α) :
    ∀ (l l2 : List α) (i : Nat), l.length ≤ i → (l ++ l2).getD i d = l2.getD (i - l.length) d := by
  intro l
  induction l with
  | nil => intro l2 i _; simp
  | cons a l ih =>
    intro l2 i h
    cases i with
    | zero => simp at h
    | succ i =>
      have : l.length ≤ i := by simpa using h
      simpa [List.getD_cons_succ, Nat.succ_sub_succ] using ih l2 i this

end Util

namespace EHT

theorem rewire_succ (dir : List Nat) (d sh cnt b0 b1 : Nat) :
    rewire dir d sh (cnt + 1) b0 b1 =
      (rewire dir d sh cnt b0 b1).set (cnt * 2 ^ d + sh) (if cnt % 2 = 0 then b0 else b1) := by
  unfold rewire
  rw [List.range_succ, List.foldl_append]
  rfl

theorem rewire_length (dir : List Nat) (d sh b0 b1 : Nat) :
    ∀ cnt, (rewire dir d sh cnt b0 b1).length = dir.length := by
  intro cnt
  induction cnt with
  | zero => rfl
  | succ n ih => rw [rewire_succ]; simpa using ih

theorem rewire_getD (dir : List Nat) (d sh b0 b1 : Nat) (hsh : sh < 2 ^ d) :
    ∀ (cnt : Nat), cnt * 2 ^ d ≤ dir.length → ∀ j,
      (rewire dir d sh cnt b0 b1).getD j 0 =
        if j % 2 ^ d = sh ∧ j / 2 ^ d < cnt then (if (j / 2 ^ d) % 2 = 0 then b0 else b1)
        else dir.getD j 0 := by
  intro cnt
  induction cnt with
  | zero =>
    intro _ j
    rw [if_neg (fun h => Nat.not_lt_zero _ h.2)]
    rfl
  | succ n ih =>
    intro hlen j
    have hn : n * 2 ^ d ≤ dir.length :=
      le_trans (Nat.mul_le_mul_right _ (Nat.le_succ n)) hlen
    rw [rewire_succ]
    by_cases hj : j = n * 2 ^ d + sh
    · subst hj
      have hlt : n * 2 ^ d + sh < dir.length := by
        have h1 : n * 2 ^ d + sh < (n + 1) * 2 ^ d := by
          rw [Nat.succ_mul]; omega
        omega
      rw [Util.getD_set_self _ _ _ _ (by rw [rewire_length]; exact hlt)]
      have hmod : (n * 2 ^ d + sh) % 2 ^ d = sh := by
        rw [Nat.mul_comm, Nat.mul_add_mod, Nat.mod_eq_of_lt hsh]
      have hdiv : (n * 2 ^ d + sh) / 2 ^ d = n := by
        rw [Nat.mul_comm, Nat.mul_add_div (Nat.pos_pow_of_pos d (by norm_num)),
          Nat.div_eq_of_lt hsh]
        omega
      rw [hmod, hdiv, if_pos (And.intro rfl (Nat.lt_succ_self n))]
    · rw [Util.getD_set_ne _ _ _ _ _ (fun h => hj h.symm)]
      rw [ih hn j]
      by_cases hc : j % 2 ^ d = sh ∧ j / 2 ^ d < n
      · have h2 : j / 2 ^ d < n + 1 := Nat.lt_succ_of_lt hc.2
        rw [if_pos hc, if_pos (And.intro hc.1 h2)]
      · by_cases hc2 : j % 2 ^ d = sh ∧ j / 2 ^ d < n + 1
        · exfalso
          have hdn : j / 2 ^ d = n := by
            rcases hc2 with ⟨he, hlt2⟩
            rcases Nat.lt_succ_iff_lt_or_eq.mp hlt2 with h | h
            · exact absurd (And.intro he h) hc
            · exact h
          have hjm := Nat.div_add_mod j (2 ^ d)
          rw [hdn, hc2.1] at hjm
          exact hj (by rw [← hjm, Nat.mul_comm])
        · rw [if_neg hc, if_neg hc2]

theorem countP_range_mod_mul (n r : Nat) (hr : r < n) :
    ∀ a, (List.range (a * n)).countP (fun j => j % n == r) = a := by
  intro a
  induction a with
  | zero => simp
  | succ m ih =>
    rw [Nat.succ_mul, List.range_add, List.countP_append, ih, List.countP_map]
    have hone : ((List.range n).countP ((fun j => j % n == r) ∘ (fun x => m * n + x))) = 1 := by
      have hc : ∀ x ∈ List.range n,
          (((fun j => j % n == r) ∘ (fun x => m * n + x)) x = true) ↔ ((x == r) = true) := by
        intro x hx
        have hxn : x < n := List.mem_range.mp hx
        have hm : (m * n + x) % n = x := by
          rw [Nat.mul_comm, Nat.mul_add_mod, Nat.mod_eq_of_lt hxn]
        simp only [Function.comp, hm]
      rw [List.countP_congr hc]
      exact List.count_eq_one_of_mem (List.nodup_range n) (List.mem_range.mpr hr)
    omega

end EHT

namespace EHT

variable {K V : Type} [DecidableEq K]

theorem find?_fst_cons_ne (k2 : K) (q : K × V) (l : List (K × V)) (h : q.1 ≠ k2) :
    List.find? (fun p => p.1 == k2) (q :: l) = List.find? (fun p => p.1 == k2) l := by
  rw [List.find?_cons]
  have hb : (q.1 == k2) = false := by simp only [beq_eq_false_iff_ne, ne_eq]; exact h
  rw [hb]

theorem find?_fst_cons_self (k2 : K) (q : K × V) (l : List (K × V)) (h : q.1 = k2) :
    List.find? (fun p => p.1 == k2) (q :: l) = some q := by
  rw [List.find?_cons]
  have hb : (q.1 == k2) = true := by simp only [beq_iff_eq]; exact h
  rw [hb]

theorem updFirst_map_fst (key : K) (v : V) :
    ∀ l : List (K × V), (updFirst l key v).map Prod.fst = l.map Prod.fst := by
  intro l
  induction l with
  | nil => rfl
  | cons p ps ih =>
    unfold updFirst
    by_cases hp : p.1 = key
    · simp [hp]
    · simp only [if_neg hp, List.map_cons, ih]

theorem updFirst_length (key : K) (v : V) (l : List (K × V)) :
    (updFirst l key v).length = l.length := by
  have h := congrArg List.length (updFirst_map_fst key v l)
  simpa using h

theorem mem_updFirst (key : K) (v : V) :
    ∀ (l : List (K × V)) (q : K × V), q ∈ updFirst l key v → q ∈ l ∨ q = (key, v) := by
  intro l
  induction l with
  | nil => intro q hq; exact absurd hq (List.not_mem_nil q)
  | cons p ps ih =>
    intro q hq
    unfold updFirst at hq
    by_cases hp : p.1 = key
    · rw [if_pos hp] at hq
      rcases List.mem_cons.mp hq with h | h
      · right; rw [h, hp]
      · left; exact List.mem_cons_of_mem p h
    · rw [if_neg hp] at hq
      rcases List.mem_cons.mp hq with h | h
      · left; rw [h]; exact List.mem_cons_self p ps
      · rcases ih q h with h2 | h2
        · left; exact List.mem_cons_of_mem p h2
        · right; exact h2

theorem find?_updFirst_self (key : K) (v : V) :
    ∀ l : List (K × V), l.any (fun p => p.1 == key) = true →
      (updFirst l key v).find? (fun p => p.1 == key) = some (key, v) := by
  intro l
  induction l with
  | nil => intro h; simp at h
  | cons p ps ih =>
    intro h
    unfold updFirst
    by_cases hp : p.1 = key
    · rw [if_pos hp]
      rw [find?_fst_cons_self key (p.1, v) ps hp]
      rw [hp]
    · rw [if_neg hp]
      rw [find?_fst_cons_ne key p (updFirst ps key v) hp]
      apply ih
      rcases List.any_eq_true.mp h with ⟨x, hx, hpx⟩
      rcases List.mem_cons.mp hx with h2 | h2
      · exfalso; apply hp; rw [h2] at hpx; exact eq_of_beq hpx
      · exact List.any_eq_true.mpr ⟨x, h2, hpx⟩

theorem find?_updFirst_ne (key k2 : K) (v : V) (hne : k2 ≠ key) :
    ∀ l : List (K × V),
      (updFirst l key v).find? (fun p => p.1 == k2) = l.find? (fun p => p.1 == k2) := by
  intro l
  induction l with
  | nil => rfl
  | cons p ps ih =>
    unfold updFirst
    by_cases hp : p.1 = key
    · rw [if_pos hp]
      have hne2 : p.1 ≠ k2 := by rw [hp]; exact fun h => hne h.symm
      rw [find?_fst_cons_ne k2 (p.1, v) ps hne2, find?_fst_cons_ne k2 p ps hne2]
    · rw [if_neg hp]
      by_cases hp2 : p.1 = k2
      · rw [find?_fst_cons_self k2 p (updFirst ps key v) hp2, find?_fst_cons_self k2 p ps hp2]
      · rw [find?_fst_cons_ne k2 p (updFirst ps key v) hp2, find?_fst_cons_ne k2 p ps hp2, ih]

theorem find?_append_single_ne (key k2 : K) (v : V) (hne : k2 ≠ key) (l : List (K × V)) :
    (l ++ [(key, v)]).find? (fun p => p.1 == k2) = l.find? (fun p => p.1 == k2) := by
  rw [List.find?_append]
  have h2 : ([((key, v))].find? (fun p => p.1 == k2)) = none := by
    rw [find?_fst_cons_ne k2 (key, v) [] (fun h => hne h.symm)]
    rfl
  rw [h2]
  cases l.find? (fun p => p.1 == k2) <;> rfl

theorem find?_append_single_self (key : K) (v : V) (l : List (K × V))
    (h : l.any (fun p => p.1 == key) = false) :
    (l ++ [(key, v)]).find? (fun p => p.1 == key) = some (key, v) := by
  rw [List.find?_append]
  have h1 : l.find? (fun p => p.1 == key) = none := by
    rw [List.find?_eq_none]
    intro x hx
    exact fun hpx => (List.any_eq_false.mp h x hx) hpx
  rw [h1]
  rw [find?_fst_cons_self key (key, v) [] rfl]
  rfl

/-- Case analysis of `Bucket::Insert` when it succeeds. -/
theorem Bucket.insert_cases (b : Bucket K V) (key : K) (v : V) (b2 : Bucket K V)
    (h : Bucket.insert b key v = some b2) :
    (b.list.any (fun p => p.1 == key) = true ∧
      b2 = { b with list := updFirst b.list key v }) ∨
    (b.list.any (fun p => p.1 == key) = false ∧ b.isFull = false ∧
      b2 = { b with list := b.list ++ [(key, v)] }) := by
  unfold Bucket.insert at h
  by_cases ha : b.list.any (fun p => p.1 == key) = true
  · rw [if_pos ha] at h
    left
    exact ⟨ha, (Option.some_injective _ h).symm⟩
  · rw [if_neg ha] at h
    have ha2 : b.list.any (fun p => p.1 == key) = false := by
      cases hv : b.list.any (fun p => p.1 == key)
      · rfl
      · exact absurd hv ha
    by_cases hf : b.isFull = true
    · rw [if_pos hf] at h; exact absurd h (by simp)
    · rw [if_neg hf] at h
      right
      have hf2 : b.isFull = false := by
        cases hv : b.isFull
        · rfl
        · exact absurd hv hf
      exact ⟨ha2, hf2, (Option.some_injective _ h).symm⟩

/-- `Bucket::Insert` fails exactly on a full bucket missing the key. -/
theorem Bucket.insert_eq_none (b : Bucket K V) (key : K) (v : V)
    (h : Bucket.insert b key v = none) :
    b.list.any (fun p => p.1 == key) = false ∧ b.isFull = true := by
  unfold Bucket.insert at h
  by_cases ha : b.list.any (fun p => p.1 == key) = true
  · rw [if_pos ha] at h; exact absurd h (by simp)
  · have ha2 : b.list.any (fun p => p.1 == key) = false := by
      cases hv : b.list.any (fun p => p.1 == key)
      · rfl
      · exact absurd hv ha
    rw [if_neg ha] at h
    by_cases hf : b.isFull = true
    · exact ⟨ha2, hf⟩
    · rw [if_neg hf] at h; exact absurd h (by simp)

end EHT

namespace EHT

variable {K V : Type} [DecidableEq K]

theorem Bucket.insert_fields (b : Bucket K V) (key : K) (v : V) (b2 : Bucket K V)
    (h : Bucket.insert b key v = some b2) :
    b2.size = b.size ∧ b2.self_hash = b.self_hash ∧ b2.depth = b.depth := by
  rcases Bucket.insert_cases b key v b2 h with ⟨_, h2⟩ | ⟨_, _, h2⟩ <;> rw [h2] <;> exact ⟨rfl, rfl, rfl⟩

theorem Bucket.find_insert_self (b : Bucket K V) (key : K) (v : V) (b2 : Bucket K V)
    (h : Bucket.insert b key v = some b2) :
    Bucket.find b2 key = some v := by
  rcases Bucket.insert_cases b key v b2 h with ⟨ha, h2⟩ | ⟨ha, _, h2⟩
  · rw [h2]
    unfold Bucket.find
    rw [find?_updFirst_self key v b.list ha]
    rfl
  · rw [h2]
    unfold Bucket.find
    rw [find?_append_single_self key v b.list ha]
    rfl

theorem Bucket.find_insert_ne (b : Bucket K V) (key k2 : K) (v : V) (b2 : Bucket K V)
    (hne : k2 ≠ key) (h : Bucket.insert b key v = some b2) :
    Bucket.find b2 k2 = Bucket.find b k2 := by
  rcases Bucket.insert_cases b key v b2 h with ⟨_, h2⟩ | ⟨_, _, h2⟩
  · rw [h2]
    unfold Bucket.find
    rw [find?_updFirst_ne key k2 v hne b.list]
  · rw [h2]
    unfold Bucket.find
    rw [find?_append_single_ne key k2 v hne b.list]

theorem Bucket.mem_insert (b : Bucket K V) (key : K) (v : V) (b2 : Bucket K V)
    (h : Bucket.insert b key v = some b2) :
    ∀ q ∈ b2.list, q ∈ b.list ∨ q = (key, v) := by
  rcases Bucket.insert_cases b key v b2 h with ⟨_, h2⟩ | ⟨_, _, h2⟩
  · rw [h2]
    exact fun q hq => mem_updFirst key v b.list q hq
  · rw [h2]
    intro q hq
    rcases List.mem_append.mp hq with h3 | h3
    · left; exact h3
    · right; simpa using h3

theorem getBkt_setBkt_self (t : Table K V) (bid : Nat) (b : Bucket K V)
    (h : bid < t.store.length) : getBkt (setBkt t bid b) bid = b :=
  Util.getD_set_self b _ t.store bid h

theorem getBkt_setBkt_ne (t : Table K V) (bid bid2 : Nat) (b : Bucket K V)
    (h : bid ≠ bid2) : getBkt (setBkt t bid b) bid2 = getBkt t bid2 :=
  Util.getD_set_ne b _ t.store bid bid2 h

theorem indexOf_lt_dirLen (hash : K → Nat) (t : Table K V)
    (hlen : t.dir.length = 2 ^ t.global_depth) :
    indexOf hash t key < t.dir.length := by
  rw [hlen]
  exact Nat.mod_lt _ (Nat.pos_pow_of_pos _ (by norm_num))

theorem find_insertAt (hash : K → Nat) (t : Table K V) (key : K) (v : V) (b2 : Bucket K V)
    (hbid : dirAt t (indexOf hash t key) < t.store.length)
    (hins : Bucket.insert (getBkt t (dirAt t (indexOf hash t key))) key v = some b2) :
    find hash (setBkt t (dirAt t (indexOf hash t key)) b2) key = some v ∧
    (∀ k2, k2 ≠ key →
      find hash (setBkt t (dirAt t (indexOf hash t key)) b2) k2 = find hash t k2) := by
  constructor
  · show Bucket.find (getBkt _ (dirAt _ (indexOf hash _ key))) key = some v
    have hdir : dirAt (setBkt t (dirAt t (indexOf hash t key)) b2) (indexOf hash (setBkt t (dirAt t (indexOf hash t key)) b2) key) = dirAt t (indexOf hash t key) := rfl
    rw [hdir, getBkt_setBkt_self t _ b2 hbid]
    exact Bucket.find_insert_self _ key v b2 hins
  · intro k2 hk2
    show Bucket.find (getBkt _ (dirAt _ (indexOf hash _ k2))) k2 = find hash t k2
    have hdir : dirAt (setBkt t (dirAt t (indexOf hash t key)) b2) (indexOf hash (setBkt t (dirAt t (indexOf hash t key)) b2) k2) = dirAt t (indexOf hash t k2) := rfl
    rw [hdir]
    by_cases hb : dirAt t (indexOf hash t key) = dirAt t (indexOf hash t k2)
    · rw [← hb, getBkt_setBkt_self t _ b2 hbid]
      unfold find
      rw [← hb]
      exact Bucket.find_insert_ne _ key k2 v b2 hk2 hins
    · rw [getBkt_setBkt_ne t _ _ b2 hb]
      rfl

end EHT

namespace EHT

variable {K V : Type} [DecidableEq K]

theorem key_pattern_at_slot (hash : K → Nat) (t : Table K V) (key : K)
    (hd : (getBkt t (dirAt t (indexOf hash t key))).depth ≤ t.global_depth)
    (hsh : (getBkt t (dirAt t (indexOf hash t key))).self_hash =
      indexOf hash t key % 2 ^ (getBkt t (dirAt t (indexOf hash t key))).depth) :
    hash key % 2 ^ (getBkt t (dirAt t (indexOf hash t key))).depth =
      (getBkt t (dirAt t (indexOf hash t key))).self_hash := by
  rw [hsh]
  show hash key % 2 ^ _ = hash key % 2 ^ t.global_depth % 2 ^ _
  rw [Nat.mod_mod_of_dvd _ (pow_dvd_pow 2 hd)]

theorem wf_insertAt (hash : K → Nat) (t : Table K V) (key : K) (v : V) (b2 : Bucket K V)
    (hwf : WF hash t)
    (hins : Bucket.insert (getBkt t (dirAt t (indexOf hash t key))) key v = some b2) :
    WF hash (setBkt t (dirAt t (indexOf hash t key)) b2) := by
  obtain ⟨hbs, hg, hlen, hids, hslots, halias⟩ := hwf
  have hi0 : indexOf hash t key < t.dir.length := indexOf_lt_dirLen hash t hlen
  have hbid : dirAt t (indexOf hash t key) < t.store.length := hids _ hi0
  have hfields := Bucket.insert_fields _ key v b2 hins
  have hkeypat : hash key % 2 ^ (getBkt t (dirAt t (indexOf hash t key))).depth =
      (getBkt t (dirAt t (indexOf hash t key))).self_hash :=
    key_pattern_at_slot hash t key (hslots _ hi0).2.1 (hslots _ hi0).2.2.1
  have hget : ∀ x : Nat, getBkt (setBkt t (dirAt t (indexOf hash t key)) b2) x =
      if x = dirAt t (indexOf hash t key) then b2 else getBkt t x := by
    intro x
    by_cases hx : x = dirAt t (indexOf hash t key)
    · rw [if_pos hx, hx]; exact getBkt_setBkt_self t _ b2 hbid
    · rw [if_neg hx]; exact getBkt_setBkt_ne t _ x b2 (fun h => hx h.symm)
  have hdirAt : ∀ j, dirAt (setBkt t (dirAt t (indexOf hash t key)) b2) j = dirAt t j :=
    fun _ => rfl
  have hdlen : t.dir.length = (setBkt t (dirAt t (indexOf hash t key)) b2).dir.length := rfl
  have hslen : (setBkt t (dirAt t (indexOf hash t key)) b2).store.length = t.store.length := by
    show (t.store.set _ b2).length = t.store.length
    rw [List.length_set]
  refine ⟨hbs, hg, hlen, ?_, ?_, ?_⟩
  · intro i hi
    rw [hdirAt, hslen]
    exact hids i hi
  · intro i hi
    rw [hdirAt, hget]
    by_cases hc : dirAt t i = dirAt t (indexOf hash t key)
    · rw [if_pos hc]
      have hold := hslots i hi
      rw [hc] at hold
      have hold0 := hslots _ hi0
      rcases Bucket.insert_cases _ key v b2 hins with ⟨ha, hb2⟩ | ⟨ha, hful, hb2⟩
      · refine ⟨by rw [hb2]; exact hold.1, by rw [hb2]; exact hold.2.1, ?_, ?_, ?_, ?_⟩
        · rw [hb2]
          show (getBkt t (dirAt t (indexOf hash t key))).self_hash =
            i % 2 ^ (getBkt t (dirAt t (indexOf hash t key))).depth
          rw [← hc]
          exact (hslots i hi).2.2.1
        · rw [hb2]
          show (updFirst _ key v).length ≤ t.bucket_size
          rw [updFirst_length]
          exact hold.2.2.2.1
        · rw [hb2]
          intro p hp
          rcases mem_updFirst key v _ p hp with hmem | hpe
          · exact hold.2.2.2.2.1 p hmem
          · rw [hpe]
            exact hkeypat
        · rw [hb2]
          show ((updFirst _ key v).map Prod.fst).Nodup
          rw [updFirst_map_fst]
          exact hold.2.2.2.2.2
      · refine ⟨by rw [hb2]; exact hold.1, by rw [hb2]; exact hold.2.1, ?_, ?_, ?_, ?_⟩
        · rw [hb2]
          show (getBkt t (dirAt t (indexOf hash t key))).self_hash =
            i % 2 ^ (getBkt t (dirAt t (indexOf hash t key))).depth
          rw [← hc]
          exact (hslots i hi).2.2.1
        · rw [hb2]
          show ((getBkt t (dirAt t (indexOf hash t key))).list ++ [(key, v)]).length ≤ t.bucket_size
          rw [List.length_append]
          have hnf : ¬ ((getBkt t (dirAt t (indexOf hash t key))).size ≤
              (getBkt t (dirAt t (indexOf hash t key))).list.length) := by
            intro hle
            have : (getBkt t (dirAt t (indexOf hash t key))).isFull = true := by
              unfold Bucket.isFull
              exact decide_eq_true hle
            rw [this] at hful
            exact absurd hful (by simp)
          have hsz : (getBkt t (dirAt t (indexOf hash t key))).size = t.bucket_size := hold0.1
          simp only [List.length_cons, List.length_nil]
          omega
        · rw [hb2]
          intro p hp
          rcases List.mem_append.mp hp with hmem | hpe
          · exact hold.2.2.2.2.1 p hmem
          · have : p = (key, v) := by simpa using hpe
            rw [this]
            exact hkeypat
        · rw [hb2]
          show (((getBkt t (dirAt t (indexOf hash t key))).list ++ [(key, v)]).map Prod.fst).Nodup
          rw [List.map_append]
          rw [List.nodup_append]
          refine ⟨hold.2.2.2.2.2, by simp, ?_⟩
          intro x hx hx2
          have hxk : x = key := by simpa using hx2
          rcases List.mem_map.mp hx with ⟨p, hp, hpx⟩
          have := List.any_eq_false.mp ha p hp
          apply this
          rw [beq_iff_eq, hpx, hxk]
    · rw [if_neg hc]
      exact hslots i hi
  · intro i hi j hj
    rw [hdirAt, hdirAt]
    have hdep : (getBkt (setBkt t (dirAt t (indexOf hash t key)) b2) (dirAt t i)).depth =
        (getBkt t (dirAt t i)).depth := by
      rw [hget]
      by_cases hc : dirAt t i = dirAt t (indexOf hash t key)
      · rw [if_pos hc, hc]
        exact hfields.2.2
      · rw [if_neg hc]
    rw [hdep]
    exact halias i hi j hj

end EHT

namespace EHT

variable {K V : Type} [DecidableEq K]

theorem getD_map_range (f : Nat → Nat) (n i : Nat) (h : i < n) :
    ((List.range n).map f).getD i 0 = f i := by
  rw [List.getD_eq_getElem _ _ (by simpa using h)]
  simp

theorem expand_spec (hash : K → Nat) (t : Table K V) (hwf : WF hash t)
    (h64 : t.global_depth ≠ 64) :
    ∃ t2, expandDirs t = some t2 ∧ WF hash t2 ∧
      t2.global_depth = t.global_depth + 1 ∧
      t2.store = t.store ∧ t2.bucket_size = t.bucket_size ∧
      (∀ key : K, dirAt t2 (indexOf hash t2 key) = dirAt t (indexOf hash t key)) ∧
      (∀ k2 : K, find hash t2 k2 = find hash t k2) := by
  obtain ⟨hbs, hg, hlen, hids, hslots, halias⟩ := hwf
  have hpow : 0 < 2 ^ t.global_depth := Nat.pos_pow_of_pos _ (by norm_num)
  refine ⟨{ t with
      dir := (List.range (2 * 2 ^ t.global_depth)).map
        (fun i => t.dir.getD (i % 2 ^ t.global_depth) 0)
      global_depth := t.global_depth + 1 },
    by unfold expandDirs; rw [if_neg h64], ?_, rfl, rfl, rfl, ?_, ?_⟩
  case _ =>
    -- well-formedness of the doubled table
    have hlen2 : ((List.range (2 * 2 ^ t.global_depth)).map
        (fun i => t.dir.getD (i % 2 ^ t.global_depth) 0)).length = 2 ^ (t.global_depth + 1) := by
      rw [List.length_map, List.length_range, Nat.pow_succ, Nat.mul_comm]
    have hdir2 : ∀ i < 2 ^ (t.global_depth + 1),
        ((List.range (2 * 2 ^ t.global_depth)).map
          (fun i => t.dir.getD (i % 2 ^ t.global_depth) 0)).getD i 0 =
        dirAt t (i % 2 ^ t.global_depth) := by
      intro i hi
      apply getD_map_range
      rw [Nat.pow_succ, Nat.mul_comm] at hi
      exact hi
    have hmlt : ∀ i : Nat, i % 2 ^ t.global_depth < t.dir.length := by
      intro i
      rw [hlen]
      exact Nat.mod_lt _ hpow
    refine ⟨hbs, by show t.global_depth + 1 ≤ 64; omega, hlen2, ?_, ?_, ?_⟩
    · intro i hi
      rw [hlen2] at hi
      show ((List.range (2 * 2 ^ t.global_depth)).map
        (fun i => t.dir.getD (i % 2 ^ t.global_depth) 0)).getD i 0 < t.store.length
      rw [hdir2 i hi]
      exact hids _ (hmlt i)
    · intro i hi
      rw [hlen2] at hi
      show _ ∧ _ ∧ _ ∧ _ ∧ _ ∧ _
      rw [show dirAt { t with
            dir := (List.range (2 * 2 ^ t.global_depth)).map
              (fun i => t.dir.getD (i % 2 ^ t.global_depth) 0)
            global_depth := t.global_depth + 1 } i =
          dirAt t (i % 2 ^ t.global_depth) from hdir2 i hi]
      have hold := hslots _ (hmlt i)
      have hdd : (getBkt t (dirAt t (i % 2 ^ t.global_depth))).depth ≤ t.global_depth :=
        hold.2.1
      refine ⟨hold.1, le_trans hdd (Nat.le_succ _), ?_, hold.2.2.2.1, hold.2.2.2.2.1, hold.2.2.2.2.2⟩
      show (getBkt t (dirAt t (i % 2 ^ t.global_depth))).self_hash =
        i % 2 ^ (getBkt t (dirAt t (i % 2 ^ t.global_depth))).depth
      rw [hold.2.2.1]
      rw [Nat.mod_mod_of_dvd _ (pow_dvd_pow 2 hdd)]
    · intro i hi j hj
      rw [hlen2] at hi hj
      rw [show dirAt { t with
            dir := (List.range (2 * 2 ^ t.global_depth)).map
              (fun i => t.dir.getD (i % 2 ^ t.global_depth) 0)
            global_depth := t.global_depth + 1 } i =
          dirAt t (i % 2 ^ t.global_depth) from hdir2 i hi]
      rw [show dirAt { t with
            dir := (List.range (2 * 2 ^ t.global_depth)).map
              (fun i => t.dir.getD (i % 2 ^ t.global_depth) 0)
            global_depth := t.global_depth + 1 } j =
          dirAt t (j % 2 ^ t.global_depth) from hdir2 j hj]
      have hdd : (getBkt t (dirAt t (i % 2 ^ t.global_depth))).depth ≤ t.global_depth :=
        (hslots _ (hmlt i)).2.1
      show dirAt t (i % 2 ^ t.global_depth) = dirAt t (j % 2 ^ t.global_depth) ↔
        i % 2 ^ (getBkt t (dirAt t (i % 2 ^ t.global_depth))).depth =
        j % 2 ^ (getBkt t (dirAt t (i % 2 ^ t.global_depth))).depth
      have := halias _ (hmlt i) _ (hmlt j)
      rw [this]
      rw [Nat.mod_mod_of_dvd _ (pow_dvd_pow 2 hdd), Nat.mod_mod_of_dvd _ (pow_dvd_pow 2 hdd)]
  case _ =>
    -- the bucket a key routes to is unchanged
    intro key
    show ((List.range (2 * 2 ^ t.global_depth)).map
      (fun i => t.dir.getD (i % 2 ^ t.global_depth) 0)).getD
        (hash key % 2 ^ (t.global_depth + 1)) 0 = dirAt t (indexOf hash t key)
    rw [getD_map_range _ _ _ (by
      have h2 : (2 : Nat) * 2 ^ t.global_depth = 2 ^ (t.global_depth + 1) := by
        rw [Nat.pow_succ, Nat.mul_comm]
      rw [h2]
      exact Nat.mod_lt _ (Nat.pos_pow_of_pos (t.global_depth + 1) (by norm_num)))]
    rw [Nat.mod_mod_of_dvd _ (pow_dvd_pow 2 (Nat.le_succ t.global_depth))]
    rfl
  case _ =>
    intro k2
    have hroute : ((List.range (2 * 2 ^ t.global_depth)).map
        (fun i => t.dir.getD (i % 2 ^ t.global_depth) 0)).getD
          (hash k2 % 2 ^ (t.global_depth + 1)) 0 = dirAt t (indexOf hash t k2) := by
      rw [getD_map_range _ _ _ (by
        have h2 : (2 : Nat) * 2 ^ t.global_depth = 2 ^ (t.global_depth + 1) := by
          rw [Nat.pow_succ, Nat.mul_comm]
        rw [h2]
        exact Nat.mod_lt _ (Nat.pos_pow_of_pos (t.global_depth + 1) (by norm_num)))]
      rw [Nat.mod_mod_of_dvd _ (pow_dvd_pow 2 (Nat.le_succ t.global_depth))]
      rfl
    show Bucket.find (getBkt t (((List.range (2 * 2 ^ t.global_depth)).map
      (fun i => t.dir.getD (i % 2 ^ t.global_depth) 0)).getD
        (hash k2 % 2 ^ (t.global_depth + 1)) 0)) k2 = find hash t k2
    rw [hroute]
    rfl

end EHT

namespace EHT

variable {K V : Type} [DecidableEq K]

theorem mod_pow_succ (j d : Nat) :
    j % 2 ^ (d + 1) = 2 ^ d * ((j / 2 ^ d) % 2) + j % 2 ^ d := by
  have hq := Nat.div_add_mod j (2 ^ d)
  have hq2 := Nat.div_add_mod (j / 2 ^ d) 2
  have hlt : 2 ^ d * ((j / 2 ^ d) % 2) + j % 2 ^ d < 2 ^ (d + 1) := by
    have h1 : (j / 2 ^ d) % 2 ≤ 1 := by omega
    have h2 : j % 2 ^ d < 2 ^ d := Nat.mod_lt _ (Nat.pos_pow_of_pos d (by norm_num))
    have h3 : 2 ^ d * ((j / 2 ^ d) % 2) ≤ 2 ^ d * 1 := Nat.mul_le_mul_left _ h1
    rw [Nat.pow_succ]
    omega
  conv_lhs => rw [← hq]
  have hsplit : 2 ^ d * (j / 2 ^ d) + j % 2 ^ d =
      2 ^ (d + 1) * (j / 2 ^ d / 2) + (2 ^ d * ((j / 2 ^ d) % 2) + j % 2 ^ d) := by
    have : 2 ^ d * (j / 2 ^ d) = 2 ^ d * (2 * (j / 2 ^ d / 2) + (j / 2 ^ d) % 2) := by
      congr 1
      omega
    rw [this, Nat.mul_add, Nat.pow_succ]
    ring_nf
  rw [hsplit, Nat.mul_add_mod, Nat.mod_eq_of_lt hlt]

theorem find?_filter_of_keyed (k2 : K) (pred : K × V → Bool)
    (l : List (K × V)) (h : ∀ q ∈ l, q.1 = k2 → pred q = true) :
    (l.filter pred).find? (fun p => p.1 == k2) = l.find? (fun p => p.1 == k2) := by
  induction l with
  | nil => rfl
  | cons q rest ih =>
    by_cases hq : q.1 = k2
    · rw [List.filter_cons, h q (List.mem_cons_self q rest) hq]
      simp only [if_true]
      rw [find?_fst_cons_self k2 q _ hq, find?_fst_cons_self k2 q rest hq]
    · rw [List.filter_cons]
      by_cases hp : pred q = true
      · rw [hp]
        simp only [if_true]
        rw [find?_fst_cons_ne k2 q _ hq, find?_fst_cons_ne k2 q rest hq]
        exact ih (fun x hx => h x (List.mem_cons_of_mem q hx))
      · simp only [hp, if_false]
        rw [find?_fst_cons_ne k2 q rest hq]
        exact ih (fun x hx => h x (List.mem_cons_of_mem q hx))

theorem redistribute_go (hash : K → Nat) (d b0id b1id : Nat) (hneq : b0id ≠ b1id) (bsz : Nat) :
    ∀ (items : List (K × V)) (t1 : Table K V),
      b0id < t1.store.length → b1id < t1.store.length →
      (∀ p ∈ items, dirAt t1 (indexOf hash t1 p.1) =
        if (hash p.1 / 2 ^ d) % 2 = 0 then b0id else b1id) →
      (getBkt t1 b0id).size = bsz → (getBkt t1 b1id).size = bsz →
      (getBkt t1 b0id).list.length + (getBkt t1 b1id).list.length + items.length ≤ bsz →
      (∀ p ∈ items, ∀ q ∈ (getBkt t1 b0id).list, q.1 ≠ p.1) →
      (∀ p ∈ items, ∀ q ∈ (getBkt t1 b1id).list, q.1 ≠ p.1) →
      ((items.map Prod.fst).Nodup) →
      ∃ t2, redistribute hash t1 items = (t2, true) ∧
        t2.dir = t1.dir ∧ t2.global_depth = t1.global_depth ∧
        t2.bucket_size = t1.bucket_size ∧ t2.num_buckets = t1.num_buckets ∧
        t2.store.length = t1.store.length ∧
        getBkt t2 b0id = { getBkt t1 b0id with
          list := (getBkt t1 b0id).list ++
            items.filter (fun p => (hash p.1 / 2 ^ d) % 2 == 0) } ∧
        getBkt t2 b1id = { getBkt t1 b1id with
          list := (getBkt t1 b1id).list ++
            items.filter (fun p => ! ((hash p.1 / 2 ^ d) % 2 == 0)) } ∧
        (∀ x, x ≠ b0id → x ≠ b1id → getBkt t2 x = getBkt t1 x) := by
  intro items
  induction items with
  | nil =>
    intro t1 hb0 hb1 _ _ _ _ _ _ _
    refine ⟨t1, rfl, rfl, rfl, rfl, rfl, rfl, ?_, ?_, fun x _ _ => rfl⟩
    · simp
    · simp
  | cons p rest ih =>
    intro t1 hb0 hb1 hroute hsz0 hsz1 hcap hfr0 hfr1 hnd
    have hp0 : p ∈ p :: rest := List.mem_cons_self p rest
    have hnd2 : p.1 ∉ rest.map Prod.fst ∧ (rest.map Prod.fst).Nodup := by
      rw [List.map_cons] at hnd
      exact ⟨(List.nodup_cons.mp hnd).1, (List.nodup_cons.mp hnd).2⟩
    have hbidp := hroute p hp0
    -- the target bucket and the successful insert
    by_cases hparity : (hash p.1 / 2 ^ d) % 2 = 0
    · -- p goes to bucket0
      rw [if_pos hparity] at hbidp
      have hany : (getBkt t1 b0id).list.any (fun q => q.1 == p.1) = false := by
        rw [List.any_eq_false]
        intro q hq
        simp only [beq_iff_eq]
        exact hfr0 p hp0 q hq
      have hnotfull : (getBkt t1 b0id).isFull = false := by
        unfold Bucket.isFull
        apply decide_eq_false
        have hl : (getBkt t1 b0id).list.length < bsz := by
          have := List.length_cons p rest ▸ hcap
          omega
        omega
      have hins : Bucket.insert (getBkt t1 b0id) p.1 p.2 =
          some { getBkt t1 b0id with list := (getBkt t1 b0id).list ++ [(p.1, p.2)] } := by
        unfold Bucket.insert
        rw [hany]
        simp only [Bool.false_eq_true, if_false]
        rw [hnotfull]
        simp only [Bool.false_eq_true, if_false]
      have hstep : redistribute hash t1 (p :: rest) =
          redistribute hash (setBkt t1 b0id
            { getBkt t1 b0id with list := (getBkt t1 b0id).list ++ [(p.1, p.2)] }) rest := by
        rw [redistribute.eq_2, hbidp, hins]
      set t1b := setBkt t1 b0id
        { getBkt t1 b0id with list := (getBkt t1 b0id).list ++ [(p.1, p.2)] } with ht1b
      have hg0 : getBkt t1b b0id =
          { getBkt t1 b0id with list := (getBkt t1 b0id).list ++ [(p.1, p.2)] } :=
        getBkt_setBkt_self t1 b0id _ hb0
      have hg1 : getBkt t1b b1id = getBkt t1 b1id :=
        getBkt_setBkt_ne t1 b0id b1id _ hneq
      have hgx : ∀ x, x ≠ b0id → getBkt t1b x = getBkt t1 x := by
        intro x hx
        exact getBkt_setBkt_ne t1 b0id x _ (fun h => hx h.symm)
      have hstlen : t1b.store.length = t1.store.length := by
        show (t1.store.set _ _).length = t1.store.length
        rw [List.length_set]
      obtain ⟨t2, hred, hdir, hgd, hbsz, hnb, hst, h0, h1, hother⟩ :=
        ih t1b (by rw [hstlen]; exact hb0) (by rw [hstlen]; exact hb1)
          (fun q hq => hroute q (List.mem_cons_of_mem p hq))
          (by rw [hg0]; exact hsz0) (by rw [hg1]; exact hsz1)
          (by
            rw [hg0, hg1]
            show ((getBkt t1 b0id).list ++ [(p.1, p.2)]).length + _ + _ ≤ bsz
            rw [List.length_append]
            have := List.length_cons p rest ▸ hcap
            simp only [List.length_cons, List.length_nil] at this ⊢
            omega)
          (by
            intro q hq w hw
            rw [hg0] at hw
            rcases List.mem_append.mp hw with hw2 | hw2
            · exact hfr0 q (List.mem_cons_of_mem p hq) w hw2
            · have : w = (p.1, p.2) := by simpa using hw2
              rw [this]
              have hq1 : q.1 ∈ rest.map Prod.fst := List.mem_map_of_mem Prod.fst hq
              intro he
              exact hnd2.1 (he ▸ hq1)
          )
          (by
            intro q hq w hw
            rw [hg1] at hw
            exact hfr1 q (List.mem_cons_of_mem p hq) w hw)
          hnd2.2
      refine ⟨t2, by rw [hstep]; exact hred, by rw [hdir, ht1b]; rfl, by rw [hgd, ht1b]; rfl,
        by rw [hbsz, ht1b]; rfl, by rw [hnb, ht1b]; rfl, by rw [hst, hstlen], ?_, ?_, ?_⟩
      · rw [h0, hg0]
        have hfil : (p :: rest).filter (fun q => (hash q.1 / 2 ^ d) % 2 == 0) =
            p :: rest.filter (fun q => (hash q.1 / 2 ^ d) % 2 == 0) := by
          rw [List.filter_cons]
          simp only [hparity]
          simp
        rw [hfil]
        show _ = { getBkt t1 b0id with
          list := (getBkt t1 b0id).list ++ (p :: rest.filter (fun q => (hash q.1 / 2 ^ d) % 2 == 0)) }
        have : (getBkt t1 b0id).list ++ [(p.1, p.2)] ++
            rest.filter (fun q => (hash q.1 / 2 ^ d) % 2 == 0) =
            (getBkt t1 b0id).list ++ (p :: rest.filter (fun q => (hash q.1 / 2 ^ d) % 2 == 0)) := by
          rw [List.append_assoc]
          rfl
        rw [← this]
      · rw [h1, hg1]
        have hfil : (p :: rest).filter (fun q => ! ((hash q.1 / 2 ^ d) % 2 == 0)) =
            rest.filter (fun q => ! ((hash q.1 / 2 ^ d) % 2 == 0)) := by
          rw [List.filter_cons]
          simp only [hparity]
          simp
        rw [hfil]
      · intro x hx0 hx1
        rw [hother x hx0 hx1, hgx x hx0]
    · -- p goes to bucket1
      rw [if_neg hparity] at hbidp
      have hany : (getBkt t1 b1id).list.any (fun q => q.1 == p.1) = false := by
        rw [List.any_eq_false]
        intro q hq
        simp only [beq_iff_eq]
        exact hfr1 p hp0 q hq
      have hnotfull : (getBkt t1 b1id).isFull = false := by
        unfold Bucket.isFull
        apply decide_eq_false
        have hl : (getBkt t1 b1id).list.length < bsz := by
          have := List.length_cons p rest ▸ hcap
          omega
        omega
      have hins : Bucket.insert (getBkt t1 b1id) p.1 p.2 =
          some { getBkt t1 b1id with list := (getBkt t1 b1id).list ++ [(p.1, p.2)] } := by
        unfold Bucket.insert
        rw [hany]
        simp only [Bool.false_eq_true, if_false]
        rw [hnotfull]
        simp only [Bool.false_eq_true, if_false]
      have hstep : redistribute hash t1 (p :: rest) =
          redistribute hash (setBkt t1 b1id
            { getBkt t1 b1id with list := (getBkt t1 b1id).list ++ [(p.1, p.2)] }) rest := by
        rw [redistribute.eq_2, hbidp, hins]
      set t1b := setBkt t1 b1id
        { getBkt t1 b1id with list := (getBkt t1 b1id).list ++ [(p.1, p.2)] } with ht1b
      have hg1 : getBkt t1b b1id =
          { getBkt t1 b1id with list := (getBkt t1 b1id).list ++ [(p.1, p.2)] } :=
        getBkt_setBkt_self t1 b1id _ hb1
      have hg0 : getBkt t1b b0id = getBkt t1 b0id :=
        getBkt_setBkt_ne t1 b1id b0id _ (fun h => hneq h.symm)
      have hgx : ∀ x, x ≠ b1id → getBkt t1b x = getBkt t1 x := by
        intro x hx
        exact getBkt_setBkt_ne t1 b1id x _ (fun h => hx h.symm)
      have hstlen : t1b.store.length = t1.store.length := by
        show (t1.store.set _ _).length = t1.store.length
        rw [List.length_set]
      obtain ⟨t2, hred, hdir, hgd, hbsz, hnb, hst, h0, h1, hother⟩ :=
        ih t1b (by rw [hstlen]; exact hb0) (by rw [hstlen]; exact hb1)
          (fun q hq => hroute q (List.mem_cons_of_mem p hq))
          (by rw [hg0]; exact hsz0) (by rw [hg1]; exact hsz1)
          (by
            rw [hg0, hg1]
            show _ + ((getBkt t1 b1id).list ++ [(p.1, p.2)]).length + _ ≤ bsz
            rw [List.length_append]
            have := List.length_cons p rest ▸ hcap
            simp only [List.length_cons, List.length_nil] at this ⊢
            omega)
          (by
            intro q hq w hw
            rw [hg0] at hw
            exact hfr0 q (List.mem_cons_of_mem p hq) w hw)
          (by
            intro q hq w hw
            rw [hg1] at hw
            rcases List.mem_append.mp hw with hw2 | hw2
            · exact hfr1 q (List.mem_cons_of_mem p hq) w hw2
            · have : w = (p.1, p.2) := by simpa using hw2
              rw [this]
              have hq1 : q.1 ∈ rest.map Prod.fst := List.mem_map_of_mem Prod.fst hq
              intro he
              exact hnd2.1 (he ▸ hq1)
          )
          hnd2.2
      refine ⟨t2, by rw [hstep]; exact hred, by rw [hdir, ht1b]; rfl, by rw [hgd, ht1b]; rfl,
        by rw [hbsz, ht1b]; rfl, by rw [hnb, ht1b]; rfl, by rw [hst, hstlen], ?_, ?_, ?_⟩
      · rw [h0, hg0]
        have hfil : (p :: rest).filter (fun q => (hash q.1 / 2 ^ d) % 2 == 0) =
            rest.filter (fun q => (hash q.1 / 2 ^ d) % 2 == 0) := by
          rw [List.filter_cons]
          have hpb : ((hash p.1 / 2 ^ d) % 2 == 0) = false := by
            simpa using hparity
          simp [hpb]
        rw [hfil]
      · rw [h1, hg1]
        have hfil : (p :: rest).filter (fun q => ! ((hash q.1 / 2 ^ d) % 2 == 0)) =
            p :: rest.filter (fun q => ! ((hash q.1 / 2 ^ d) % 2 == 0)) := by
          rw [List.filter_cons]
          have hpb : ((hash p.1 / 2 ^ d) % 2 == 0) = false := by
            simpa using hparity
          simp [hpb]
        rw [hfil]
        show _ = { getBkt t1 b1id with
          list := (getBkt t1 b1id).list ++
            (p :: rest.filter (fun q => ! ((hash q.1 / 2 ^ d) % 2 == 0))) }
        have : (getBkt t1 b1id).list ++ [(p.1, p.2)] ++
            rest.filter (fun q => ! ((hash q.1 / 2 ^ d) % 2 == 0)) =
            (getBkt t1 b1id).list ++
              (p :: rest.filter (fun q => ! ((hash q.1 / 2 ^ d) % 2 == 0))) := by
          rw [List.append_assoc]
          rfl
        rw [← this]
      · intro x hx0 hx1
        rw [hother x hx0 hx1, hgx x hx1]

end EHT

namespace EHT

variable {K V : Type} [DecidableEq K]

theorem parity_mod (a g d : Nat) (h : d + 1 ≤ g) :
    ((a % 2 ^ g) / 2 ^ d) % 2 = (a / 2 ^ d) % 2 := by
  rw [← Nat.mod_mul_right_div_self a (2 ^ d) 2, ← Nat.mod_mul_right_div_self (a % 2 ^ g) (2 ^ d) 2]
  congr 1
  rw [Nat.mod_mod_of_dvd]
  rw [← Nat.pow_succ]
  exact pow_dvd_pow 2 h

end EHT

namespace EHT

variable {K V : Type} [DecidableEq K]

theorem split_spec (hash : K → Nat) (t : Table K V) (i0 : Nat)
    (hwf : WF hash t) (hi0 : i0 < t.dir.length)
    (hne : ¬ (getBkt t (dirAt t i0)).depth = t.global_depth) :
    ∃ t2, splitBucket hash t (dirAt t i0) = some (t2, true) ∧
      WF hash t2 ∧
      t2.global_depth = t.global_depth ∧
      t2.bucket_size = t.bucket_size ∧
      t2.dir.length = t.dir.length ∧
      (∀ j, j < t.dir.length → dirAt t j = dirAt t i0 →
        (getBkt t2 (dirAt t2 j)).depth = (getBkt t (dirAt t i0)).depth + 1) ∧
      (∀ k2 : K, find hash t2 k2 = find hash t k2) := by
  obtain ⟨hbs, hg64, hlen, hids, hslots, halias⟩ := hwf
  have hbid : dirAt t i0 < t.store.length := hids i0 hi0
  have hslot0 := hslots i0 hi0
  have hd_le : (getBkt t (dirAt t i0)).depth ≤ t.global_depth := hslot0.2.1
  have hdlt : (getBkt t (dirAt t i0)).depth < t.global_depth := lt_of_le_of_ne hd_le hne
  have hsh : (getBkt t (dirAt t i0)).self_hash = i0 % 2 ^ (getBkt t (dirAt t i0)).depth :=
    hslot0.2.2.1
  have hpowd : 0 < 2 ^ (getBkt t (dirAt t i0)).depth := Nat.pos_pow_of_pos _ (by norm_num)
  have hshlt : (getBkt t (dirAt t i0)).self_hash < 2 ^ (getBkt t (dirAt t i0)).depth := by
    rw [hsh]; exact Nat.mod_lt _ hpowd
  have hgd : 2 ^ (t.global_depth - (getBkt t (dirAt t i0)).depth) *
      2 ^ (getBkt t (dirAt t i0)).depth = 2 ^ t.global_depth := by
    rw [← pow_add]
    congr 1
    omega
  set d := (getBkt t (dirAt t i0)).depth with hddef
  set sh := (getBkt t (dirAt t i0)).self_hash with hshdef
  set g := t.global_depth with hgdef
  set L := t.store.length with hLdef
  -- the table after allocating bucket0/bucket1 and rewiring
  set t1 : Table K V :=
    { t with
      store := t.store ++ [⟨t.bucket_size, sh, d + 1, []⟩,
                           ⟨t.bucket_size, 2 ^ d + sh, d + 1, []⟩]
      dir := rewire t.dir d sh (2 ^ (g - d)) L (L + 1)
      num_buckets := t.num_buckets + 1 } with ht1def
  have hlen1 : t1.dir.length = t.dir.length := rewire_length t.dir d sh L (L + 1) _
  have hstore1 : t1.store.length = L + 2 := by
    show (t.store ++ [_, _]).length = L + 2
    rw [List.length_append]
    rfl
  have hget1old : ∀ x, x < L → getBkt t1 x = getBkt t x := by
    intro x hx
    show (t.store ++ _).getD x _ = _
    rw [Util.getD_append_left _ t.store _ x hx]
    rfl
  have hget1b0 : getBkt t1 L = ⟨t.bucket_size, sh, d + 1, []⟩ := by
    show (t.store ++ _).getD L _ = _
    rw [Util.getD_append_right _ t.store _ L (le_refl L), Nat.sub_self]
    rfl
  have hget1b1 : getBkt t1 (L + 1) = ⟨t.bucket_size, 2 ^ d + sh, d + 1, []⟩ := by
    show (t.store ++ _).getD (L + 1) _ = _
    rw [Util.getD_append_right _ t.store _ (L + 1) (Nat.le_succ L)]
    have : L + 1 - L = 1 := by omega
    rw [this]
    rfl
  have hdir1 : ∀ j, j < t.dir.length →
      dirAt t1 j = if j % 2 ^ d = sh then (if (j / 2 ^ d) % 2 = 0 then L else L + 1)
        else dirAt t j := by
    intro j hj
    have hcnt : 2 ^ (g - d) * 2 ^ d ≤ t.dir.length := by rw [hgd, hlen]
    have hrw := rewire_getD t.dir d sh L (L + 1) hshlt (2 ^ (g - d)) hcnt j
    have hjdiv : j / 2 ^ d < 2 ^ (g - d) := by
      rw [Nat.div_lt_iff_lt_mul hpowd, hgd, ← hlen]
      exact hj
    show (rewire t.dir d sh (2 ^ (g - d)) L (L + 1)).getD j 0 = _
    rw [hrw]
    by_cases hp : j % 2 ^ d = sh
    · rw [if_pos (And.intro hp hjdiv), if_pos hp]
    · rw [if_neg (fun hc => hp hc.1), if_neg hp]
      rfl
  have hmatch : ∀ j, j < t.dir.length → (dirAt t j = dirAt t i0 ↔ j % 2 ^ d = sh) := by
    intro j hj
    have h1 := halias i0 hi0 j hj
    constructor
    · intro he
      have := h1.mp he.symm
      rw [hsh]
      exact this.symm
    · intro he
      apply (h1.mpr _).symm
      rw [← hsh, he]
  -- redistribution
  have hroute : ∀ p ∈ (getBkt t (dirAt t i0)).list,
      dirAt t1 (indexOf hash t1 p.1) =
        if (hash p.1 / 2 ^ d) % 2 = 0 then L else L + 1 := by
    intro p hp
    have hidx : indexOf hash t1 p.1 = hash p.1 % 2 ^ g := rfl
    have hjlt : hash p.1 % 2 ^ g < t.dir.length := by
      rw [hlen]
      exact Nat.mod_lt _ (Nat.pos_pow_of_pos _ (by norm_num))
    rw [hidx, hdir1 _ hjlt]
    have hpat : hash p.1 % 2 ^ g % 2 ^ d = sh := by
      rw [Nat.mod_mod_of_dvd _ (pow_dvd_pow 2 hd_le)]
      exact hslot0.2.2.2.2.1 p hp
    rw [if_pos hpat]
    have hpar : (hash p.1 % 2 ^ g / 2 ^ d) % 2 = (hash p.1 / 2 ^ d) % 2 :=
      parity_mod (hash p.1) g d (by omega)
    rw [hpar]
  obtain ⟨t2, hred, hdir2, hgd2, hbsz2, hnb2, hst2, h0, h1, hother⟩ :=
    redistribute_go hash d L (L + 1) (by omega) t.bucket_size
      (getBkt t (dirAt t i0)).list t1
      (by rw [hstore1]; omega) (by rw [hstore1]; omega)
      hroute
      (by rw [hget1b0]) (by rw [hget1b1])
      (by rw [hget1b0, hget1b1]; simpa using hslot0.2.2.2.1)
      (by intro p _ q hq; rw [hget1b0] at hq; exact absurd hq (List.not_mem_nil q))
      (by intro p _ q hq; rw [hget1b1] at hq; exact absurd hq (List.not_mem_nil q))
      hslot0.2.2.2.2.2
  have hF0 : getBkt t2 L = ⟨t.bucket_size, sh, d + 1,
      (getBkt t (dirAt t i0)).list.filter (fun p => (hash p.1 / 2 ^ d) % 2 == 0)⟩ := by
    rw [h0, hget1b0]
    simp
  have hF1 : getBkt t2 (L + 1) = ⟨t.bucket_size, 2 ^ d + sh, d + 1,
      (getBkt t (dirAt t i0)).list.filter (fun p => ! ((hash p.1 / 2 ^ d) % 2 == 0))⟩ := by
    rw [h1, hget1b1]
    simp
  have hother2 : ∀ x, x < L → getBkt t2 x = getBkt t x := by
    intro x hx
    rw [hother x (by omega) (by omega), hget1old x hx]
  have hdirAt2 : ∀ j, dirAt t2 j = dirAt t1 j := by
    intro j
    show t2.dir.getD j 0 = t1.dir.getD j 0
    rw [hdir2]
  have hlen2 : t2.dir.length = t.dir.length := by
    show t2.dir.length = t.dir.length
    rw [hdir2]
    exact hlen1
  have hg2 : t2.global_depth = g := by rw [hgd2]
  have hbsz2t : t2.bucket_size = t.bucket_size := by rw [hbsz2]
  have hst2t : t2.store.length = L + 2 := by rw [hst2, hstore1]
  -- the bucket id any index routes to, after the split
  have hdirAt2c : ∀ j, j < t.dir.length →
      dirAt t2 j = if j % 2 ^ d = sh then (if (j / 2 ^ d) % 2 = 0 then L else L + 1)
        else dirAt t j := by
    intro j hj
    rw [hdirAt2, hdir1 j hj]
  refine ⟨t2, ?_, ?_, hg2, hbsz2t, hlen2, ?_, ?_⟩
  · -- splitBucket returns (t2, true)
    unfold splitBucket
    rw [if_neg hne]
    exact congrArg some hred
  · -- well-formedness
    refine ⟨by rw [hbsz2t]; exact hbs, by rw [hg2]; exact hg64, by rw [hlen2, hlen, hg2], ?_, ?_, ?_⟩
    · intro j hj
      rw [hlen2] at hj
      rw [hdirAt2c j hj, hst2t]
      by_cases hp : j % 2 ^ d = sh
      · rw [if_pos hp]
        by_cases hpar : (j / 2 ^ d) % 2 = 0
        · rw [if_pos hpar]; omega
        · rw [if_neg hpar]; omega
      · rw [if_neg hp]
        have := hids j hj
        omega
    · intro j hj
      rw [hlen2] at hj
      rw [hdirAt2c j hj]
      by_cases hp : j % 2 ^ d = sh
      · rw [if_pos hp]
        have hmodsucc : j % 2 ^ (d + 1) = 2 ^ d * ((j / 2 ^ d) % 2) + sh := by
          rw [mod_pow_succ, hp]
        by_cases hpar : (j / 2 ^ d) % 2 = 0
        · rw [if_pos hpar, hF0]
          refine ⟨by rw [hbsz2t], by show d + 1 ≤ t2.global_depth; rw [hg2]; omega, ?_, ?_, ?_, ?_⟩
          · show sh = j % 2 ^ (d + 1)
            rw [hmodsucc, hpar]
            omega
          · show ((getBkt t (dirAt t i0)).list.filter _).length ≤ t2.bucket_size
            rw [hbsz2t]
            exact le_trans (List.length_filter_le _ _) hslot0.2.2.2.1
          · intro p hp2
            have hmem := List.mem_filter.mp hp2
            have hpat := hslot0.2.2.2.2.1 p hmem.1
            have hpar2 : (hash p.1 / 2 ^ d) % 2 = 0 := by
              have := hmem.2
              simpa using this
            show hash p.1 % 2 ^ (d + 1) = sh
            rw [mod_pow_succ, hpar2, hpat]
            omega
          · show (((getBkt t (dirAt t i0)).list.filter _).map Prod.fst).Nodup
            exact List.Nodup.sublist
              (List.Sublist.map Prod.fst (List.filter_sublist _)) hslot0.2.2.2.2.2
        · rw [if_neg hpar, hF1]
          have hpar1 : (j / 2 ^ d) % 2 = 1 := by
            rcases Nat.mod_two_eq_zero_or_one (j / 2 ^ d) with h | h
            · exact absurd h hpar
            · exact h
          refine ⟨by rw [hbsz2t], by show d + 1 ≤ t2.global_depth; rw [hg2]; omega, ?_, ?_, ?_, ?_⟩
          · show 2 ^ d + sh = j % 2 ^ (d + 1)
            rw [hmodsucc, hpar1]
            omega
          · show ((getBkt t (dirAt t i0)).list.filter _).length ≤ t2.bucket_size
            rw [hbsz2t]
            exact le_trans (List.length_filter_le _ _) hslot0.2.2.2.1
          · intro p hp2
            have hmem := List.mem_filter.mp hp2
            have hpat := hslot0.2.2.2.2.1 p hmem.1
            have hpar2 : (hash p.1 / 2 ^ d) % 2 = 1 := by
              have := hmem.2
              rcases Nat.mod_two_eq_zero_or_one (hash p.1 / 2 ^ d) with h | h
              · rw [h] at this; simp at this
              · exact h
            show hash p.1 % 2 ^ (d + 1) = 2 ^ d + sh
            rw [mod_pow_succ, hpar2, hpat]
            omega
          · show (((getBkt t (dirAt t i0)).list.filter _).map Prod.fst).Nodup
            exact List.Nodup.sublist
              (List.Sublist.map Prod.fst (List.filter_sublist _)) hslot0.2.2.2.2.2
      · rw [if_neg hp]
        have hx : dirAt t j < L := hids j hj
        rw [hother2 _ hx]
        have hold := hslots j hj
        exact ⟨by rw [hbsz2t]; exact hold.1, by rw [hg2]; exact hold.2.1, hold.2.2.1,
          by rw [hbsz2t]; exact hold.2.2.2.1, hold.2.2.2.2.1, hold.2.2.2.2.2⟩
    · intro i hi j hj
      rw [hlen2] at hi hj
      rw [hdirAt2c i hi, hdirAt2c j hj]
      by_cases pi : i % 2 ^ d = sh
      · rw [if_pos pi]
        have hdep : (getBkt t2 (if (i / 2 ^ d) % 2 = 0 then L else L + 1)).depth = d + 1 := by
          by_cases hpar : (i / 2 ^ d) % 2 = 0
          · rw [if_pos hpar, hF0]
          · rw [if_neg hpar, hF1]
        rw [hdep]
        have hmi : i % 2 ^ (d + 1) = 2 ^ d * ((i / 2 ^ d) % 2) + sh := by
          rw [mod_pow_succ, pi]
        by_cases pj : j % 2 ^ d = sh
        · rw [if_pos pj]
          have hmj : j % 2 ^ (d + 1) = 2 ^ d * ((j / 2 ^ d) % 2) + sh := by
            rw [mod_pow_succ, pj]
          rcases Nat.mod_two_eq_zero_or_one (i / 2 ^ d) with hei | hei <;>
            rcases Nat.mod_two_eq_zero_or_one (j / 2 ^ d) with hej | hej
          · rw [if_pos hei, if_pos hej]
            constructor
            · intro _; rw [hmi, hmj, hei, hej]
            · intro _; rfl
          · rw [if_pos hei, if_neg (by omega)]
            constructor
            · intro hc; exact absurd hc (by omega)
            · intro hc
              rw [hmi, hmj, hei, hej] at hc
              omega
          · rw [if_neg (by omega), if_pos hej]
            constructor
            · intro hc; exact absurd hc (by omega)
            · intro hc
              rw [hmi, hmj, hei, hej] at hc
              omega
          · rw [if_neg (by omega), if_neg (by omega)]
            constructor
            · intro _; rw [hmi, hmj, hei, hej]
            · intro _; rfl
        · rw [if_neg pj]
          have hxj : dirAt t j < L := hids j hj
          constructor
          · intro hc
            exfalso
            by_cases hpar : (i / 2 ^ d) % 2 = 0
            · rw [if_pos hpar] at hc; omega
            · rw [if_neg hpar] at hc; omega
          · intro hc
            exfalso
            apply pj
            have : j % 2 ^ (d + 1) % 2 ^ d = i % 2 ^ (d + 1) % 2 ^ d := by rw [hc]
            rw [Nat.mod_mod_of_dvd _ (pow_dvd_pow 2 (Nat.le_succ d)),
              Nat.mod_mod_of_dvd _ (pow_dvd_pow 2 (Nat.le_succ d))] at this
            rw [this, pi]
      · rw [if_neg pi]
        have hxi : dirAt t i < L := hids i hi
        rw [hother2 _ hxi]
        by_cases pj : j % 2 ^ d = sh
        · rw [if_pos pj]
          constructor
          · intro hc
            exfalso
            by_cases hpar : (j / 2 ^ d) % 2 = 0
            · rw [if_pos hpar] at hc; omega
            · rw [if_neg hpar] at hc; omega
          · intro hc
            exfalso
            apply pi
            have hdij : dirAt t i = dirAt t j := (halias i hi j hj).mpr hc
            have : dirAt t j = dirAt t i0 := (hmatch j hj).mpr pj
            have hdi0 : dirAt t i = dirAt t i0 := by rw [hdij, this]
            exact (hmatch i hi).mp hdi0
        · rw [if_neg pj]
          exact halias i hi j hj
  · -- local depth of the split bucket's slots
    intro j hj hjb
    have hp : j % 2 ^ d = sh := (hmatch j hj).mp hjb
    rw [hdirAt2c j hj, if_pos hp]
    by_cases hpar : (j / 2 ^ d) % 2 = 0
    · rw [if_pos hpar, hF0]
    · rw [if_neg hpar, hF1]
  · -- lookups of every key are preserved
    intro k2
    have hi2 : hash k2 % 2 ^ g < t.dir.length := by
      rw [hlen]
      exact Nat.mod_lt _ (Nat.pos_pow_of_pos _ (by norm_num))
    have hidx2 : indexOf hash t2 k2 = hash k2 % 2 ^ g := by
      show hash k2 % 2 ^ t2.global_depth = hash k2 % 2 ^ g
      rw [hg2]
    have hfind2 : find hash t2 k2 = Bucket.find (getBkt t2 (dirAt t2 (hash k2 % 2 ^ g))) k2 := by
      unfold find
      rw [hidx2]
    have hfindt : find hash t k2 = Bucket.find (getBkt t (dirAt t (hash k2 % 2 ^ g))) k2 := rfl
    rw [hfind2, hfindt, hdirAt2c _ hi2]
    by_cases hp : hash k2 % 2 ^ g % 2 ^ d = sh
    · rw [if_pos hp]
      have hbkt : dirAt t (hash k2 % 2 ^ g) = dirAt t i0 := (hmatch _ hi2).mpr hp
      rw [hbkt]
      have hpar2 : (hash k2 % 2 ^ g / 2 ^ d) % 2 = (hash k2 / 2 ^ d) % 2 :=
        parity_mod (hash k2) g d (by omega)
      by_cases hpar : (hash k2 % 2 ^ g / 2 ^ d) % 2 = 0
      · rw [if_pos hpar, hF0]
        unfold Bucket.find
        rw [find?_filter_of_keyed k2 _ _ (by
          intro q hq hqk
          have : hash q.1 = hash k2 := by rw [hqk]
          simp only [beq_iff_eq]
          rw [this]
          rw [← hpar2]
          exact hpar)]
      · rw [if_neg hpar, hF1]
        unfold Bucket.find
        rw [find?_filter_of_keyed k2 _ _ (by
          intro q hq hqk
          have : hash q.1 = hash k2 := by rw [hqk]
          simp only [Bool.not_eq_true', beq_eq_false_iff_ne, ne_eq]
          rw [this, ← hpar2]
          exact hpar)]
    · rw [if_neg hp]
      rw [hother2 _ (hids _ hi2)]

end EHT

namespace EHT

variable {K V : Type} [DecidableEq K]

theorem isSome_opt_map {A B : Type} (f : A → B) (x : Option A) :
    (x.map f).isSome = x.isSome := by
  cases x <;> rfl

theorem inTable_iff (hash : K → Nat) (t : Table K V) (hwf : WF hash t) (k2 : K) :
    InTable t k2 ↔ (find hash t k2).isSome = true := by
  obtain ⟨hbs, hg64, hlen, hids, hslots, halias⟩ := hwf
  have hi2 : indexOf hash t k2 < t.dir.length := indexOf_lt_dirLen hash t hlen
  constructor
  · rintro ⟨i, hi, p, hp, hpk⟩
    have hdep : (getBkt t (dirAt t i)).depth ≤ t.global_depth := (hslots i hi).2.1
    have hpat := (hslots i hi).2.2.2.2.1 p hp
    have hshi := (hslots i hi).2.2.1
    have hsame : dirAt t i = dirAt t (indexOf hash t k2) := by
      apply (halias i hi _ hi2).mpr
      show i % 2 ^ _ = (hash k2 % 2 ^ t.global_depth) % 2 ^ _
      rw [Nat.mod_mod_of_dvd _ (pow_dvd_pow 2 hdep)]
      rw [← hshi, ← hpk, ← hpat]
    unfold find Bucket.find
    rw [← hsame]
    rw [isSome_opt_map]
    rw [List.find?_isSome]
    exact ⟨p, hp, by simp [hpk]⟩
  · intro h
    unfold find Bucket.find at h
    rw [isSome_opt_map, List.find?_isSome] at h
    obtain ⟨p, hp, hpk⟩ := h
    exact ⟨indexOf hash t k2, hi2, p, hp, by simpa using hpk⟩

end EHT

namespace EHT

variable {K V : Type} [DecidableEq K]

/-- Progress and correctness of the `Insert` retry loop: from a well-formed
table, with hashes below `2 ^ 64` and no foreign key colliding with the full
64-bit hash of the inserted key, the loop finishes within the stated fuel,
maps the key to the value, and changes no other key's mapping.  In
particular neither fatal path (`UNREACHABLE` on directory growth past 64
bits, or a failed redistribution assert) is ever taken. -/
theorem insertLoop_spec (hash : K → Nat) :
    ∀ (fuel : Nat) (t : Table K V) (key : K) (v : V),
      WF hash t →
      (∀ x : K, hash x < 2 ^ 64) →
      (∀ k2 : K, InTable t k2 → hash k2 = hash key → k2 = key) →
      129 - (t.global_depth + (getBkt t (dirAt t (indexOf hash t key))).depth) ≤ fuel →
      ∃ t2, insertLoop hash fuel t key v = some t2 ∧ WF hash t2 ∧
        find hash t2 key = some v ∧
        (∀ k2, k2 ≠ key → find hash t2 k2 = find hash t k2) := by
  intro fuel
  induction fuel with
  | zero =>
    intro t key v hwf hb hcol hfuel
    exfalso
    have hg64 : t.global_depth ≤ 64 := hwf.2.1
    have hi0 : indexOf hash t key < t.dir.length := indexOf_lt_dirLen hash t hwf.2.2.1
    have hd : (getBkt t (dirAt t (indexOf hash t key))).depth ≤ t.global_depth :=
      (hwf.2.2.2.2.1 _ hi0).2.1
    omega
  | succ n ih =>
    intro t key v hwf hb hcol hfuel
    have hi0 : indexOf hash t key < t.dir.length := indexOf_lt_dirLen hash t hwf.2.2.1
    have hbid : dirAt t (indexOf hash t key) < t.store.length := hwf.2.2.2.1 _ hi0
    cases hins : Bucket.insert (getBkt t (dirAt t (indexOf hash t key))) key v with
    | some b2 =>
      refine ⟨setBkt t (dirAt t (indexOf hash t key)) b2, ?_, ?_, ?_, ?_⟩
      · rw [insertLoop.eq_2, hins]
      · exact wf_insertAt hash t key v b2 hwf hins
      · exact (find_insertAt hash t key v b2 hbid hins).1
      · exact (find_insertAt hash t key v b2 hbid hins).2
    | none =>
      have hsplitnone := Bucket.insert_eq_none _ key v hins
      by_cases hdg : (getBkt t (dirAt t (indexOf hash t key))).depth = t.global_depth
      · -- the split is refused; the directory must double
        have hsplit : splitBucket hash t (dirAt t (indexOf hash t key)) = none := by
          unfold splitBucket
          rw [if_pos hdg]
        by_cases h64 : t.global_depth = 64
        · -- would be fatal; impossible under the collision hypothesis
          exfalso
          have hful := hsplitnone.2
          have hany := hsplitnone.1
          have hlenpos : 0 < (getBkt t (dirAt t (indexOf hash t key))).list.length := by
            unfold Bucket.isFull at hful
            have hle := of_decide_eq_true hful
            have hsz : (getBkt t (dirAt t (indexOf hash t key))).size = t.bucket_size :=
              (hwf.2.2.2.2.1 _ hi0).1
            have := hwf.1
            omega
          obtain ⟨p, hp⟩ := List.exists_mem_of_length_pos hlenpos
          have hpat := (hwf.2.2.2.2.1 _ hi0).2.2.2.2.1 p hp
          have hshi := (hwf.2.2.2.2.1 _ hi0).2.2.1
          have hpk : p.1 = key := by
            apply hcol
            · exact ⟨_, hi0, p, hp, rfl⟩
            · rw [hdg, h64] at hpat
              rw [hdg, h64] at hshi
              have h1 : hash p.1 % 2 ^ 64 = hash key % 2 ^ 64 := by
                rw [hpat, hshi]
                show indexOf hash t key % 2 ^ 64 = _
                unfold indexOf
                rw [h64, Nat.mod_mod_of_dvd _ (dvd_refl (2 ^ 64))]
              rw [Nat.mod_eq_of_lt (hb p.1), Nat.mod_eq_of_lt (hb key)] at h1
              exact h1
          rw [List.any_eq_false] at hany
          exact hany p hp (by simp [hpk])
        · obtain ⟨tE, hE, hwfE, hgE, hstE, hbszE, hrouteE, hfindE⟩ :=
            expand_spec hash t hwf h64
          have hgetE : ∀ x, getBkt tE x = getBkt t x := by
            intro x
            show tE.store.getD x _ = t.store.getD x _
            rw [hstE]
          have hcolE : ∀ k2 : K, InTable tE k2 → hash k2 = hash key → k2 = key := by
            intro k2 hin hh
            apply hcol k2 _ hh
            rw [inTable_iff hash tE hwfE, hfindE, ← inTable_iff hash t hwf] at hin
            exact hin
          have hdepE : (getBkt tE (dirAt tE (indexOf hash tE key))).depth =
              (getBkt t (dirAt t (indexOf hash t key))).depth := by
            rw [hrouteE, hgetE]
          obtain ⟨t2, hloop, hwf2, hfind2, hpres2⟩ :=
            ih tE key v hwfE hb hcolE (by rw [hdepE, hgE]; omega)
          refine ⟨t2, ?_, hwf2, hfind2, ?_⟩
          · rw [insertLoop.eq_2, hins, hsplit, hE]
            exact hloop
          · intro k2 hk2
            rw [hpres2 k2 hk2, hfindE]
      · -- the bucket splits
        obtain ⟨tS, hS, hwfS, hgS, hbszS, hlenS, hdepthS, hfindS⟩ :=
          split_spec hash t (indexOf hash t key) hwf hi0 hdg
        have hcolS : ∀ k2 : K, InTable tS k2 → hash k2 = hash key → k2 = key := by
          intro k2 hin hh
          apply hcol k2 _ hh
          rw [inTable_iff hash tS hwfS, hfindS, ← inTable_iff hash t hwf] at hin
          exact hin
        have hidxS : indexOf hash tS key = indexOf hash t key := by
          unfold indexOf
          rw [hgS]
        have hdepS : (getBkt tS (dirAt tS (indexOf hash tS key))).depth =
            (getBkt t (dirAt t (indexOf hash t key))).depth + 1 := by
          rw [hidxS]
          exact hdepthS _ hi0 rfl
        obtain ⟨t2, hloop, hwf2, hfind2, hpres2⟩ :=
          ih tS key v hwfS hb hcolS (by rw [hdepS, hgS]; omega)
        refine ⟨t2, ?_, hwf2, hfind2, ?_⟩
        · rw [insertLoop.eq_2, hins, hS]
          exact hloop
        · intro k2 hk2
          rw [hpres2 k2 hk2, hfindS]

end EHT

namespace EHT

variable {K V : Type} [DecidableEq K]

theorem find?_eraseP_self (key : K) :
    ∀ l : List (K × V), (l.map Prod.fst).Nodup →
      (l.eraseP (fun p => p.1 == key)).find? (fun p => p.1 == key) = none := by
  intro l
  induction l with
  | nil => intro _; rfl
  | cons p ps ih =>
    intro hnd
    have hnd2 : p.1 ∉ ps.map Prod.fst ∧ (ps.map Prod.fst).Nodup := by
      rw [List.map_cons] at hnd
      exact ⟨(List.nodup_cons.mp hnd).1, (List.nodup_cons.mp hnd).2⟩
    by_cases hp : p.1 = key
    · rw [List.eraseP_cons_of_pos (by simp [hp])]
      rw [List.find?_eq_none]
      intro q hq
      simp only [beq_iff_eq]
      intro hqk
      apply hnd2.1
      rw [hp, ← hqk]
      exact List.mem_map_of_mem Prod.fst hq
    · rw [List.eraseP_cons_of_neg (by simp [hp])]
      rw [find?_fst_cons_ne key p _ hp]
      exact ih hnd2.2

theorem find?_eraseP_ne (key k2 : K) (hne : k2 ≠ key) :
    ∀ l : List (K × V),
      (l.eraseP (fun p => p.1 == key)).find? (fun p => p.1 == k2) =
        l.find? (fun p => p.1 == k2) := by
  intro l
  induction l with
  | nil => rfl
  | cons p ps ih =>
    by_cases hp : p.1 = key
    · rw [List.eraseP_cons_of_pos (by simp [hp])]
      rw [find?_fst_cons_ne k2 p ps (by rw [hp]; exact fun h => hne h.symm)]
    · rw [List.eraseP_cons_of_neg (by simp [hp])]
      by_cases hp2 : p.1 = k2
      · rw [find?_fst_cons_self k2 p _ hp2, find?_fst_cons_self k2 p ps hp2]
      · rw [find?_fst_cons_ne k2 p _ hp2, find?_fst_cons_ne k2 p ps hp2, ih]

/-- `Remove` preserves well-formedness, erases the key's mapping, and leaves
every other key's mapping unchanged. -/
theorem remove_spec (hash : K → Nat) (t : Table K V) (key : K) (hwf : WF hash t) :
    WF hash (remove hash t key).1 ∧
    find hash (remove hash t key).1 key = none ∧
    (∀ k2, k2 ≠ key → find hash (remove hash t key).1 k2 = find hash t k2) := by
  have hwf0 := hwf
  obtain ⟨hbs, hg64, hlen, hids, hslots, halias⟩ := hwf0
  have hi0 : indexOf hash t key < t.dir.length := indexOf_lt_dirLen hash t hlen
  have hbid : dirAt t (indexOf hash t key) < t.store.length := hids _ hi0
  have hres : remove hash t key =
      (setBkt t (dirAt t (indexOf hash t key))
        (Bucket.remove (getBkt t (dirAt t (indexOf hash t key))) key).1,
       (Bucket.remove (getBkt t (dirAt t (indexOf hash t key))) key).2) := rfl
  have hget : ∀ x : Nat, getBkt (remove hash t key).1 x =
      if x = dirAt t (indexOf hash t key)
      then (Bucket.remove (getBkt t (dirAt t (indexOf hash t key))) key).1
      else getBkt t x := by
    intro x
    rw [hres]
    by_cases hx : x = dirAt t (indexOf hash t key)
    · rw [if_pos hx, hx]
      exact getBkt_setBkt_self t _ _ hbid
    · rw [if_neg hx]
      exact getBkt_setBkt_ne t _ x _ (fun h => hx h.symm)
  have hbfields : (Bucket.remove (getBkt t (dirAt t (indexOf hash t key))) key).1.size =
        (getBkt t (dirAt t (indexOf hash t key))).size ∧
      (Bucket.remove (getBkt t (dirAt t (indexOf hash t key))) key).1.self_hash =
        (getBkt t (dirAt t (indexOf hash t key))).self_hash ∧
      (Bucket.remove (getBkt t (dirAt t (indexOf hash t key))) key).1.depth =
        (getBkt t (dirAt t (indexOf hash t key))).depth := by
    unfold Bucket.remove
    by_cases ha : (getBkt t (dirAt t (indexOf hash t key))).list.any (fun p => p.1 == key) = true
    · rw [if_pos ha]
      exact ⟨rfl, rfl, rfl⟩
    · rw [if_neg ha]
      exact ⟨rfl, rfl, rfl⟩
  have hblist : (Bucket.remove (getBkt t (dirAt t (indexOf hash t key))) key).1.list.Sublist
      (getBkt t (dirAt t (indexOf hash t key))).list := by
    unfold Bucket.remove
    by_cases ha : (getBkt t (dirAt t (indexOf hash t key))).list.any (fun p => p.1 == key) = true
    · rw [if_pos ha]
      exact List.eraseP_sublist _
    · rw [if_neg ha]
  refine ⟨?_, ?_, ?_⟩
  · refine ⟨hbs, hg64, hlen, ?_, ?_, ?_⟩
    · intro i hi
      have h1 : dirAt (remove hash t key).1 i = dirAt t i := by rw [hres]; rfl
      have h2 : (remove hash t key).1.store.length = t.store.length := by
        rw [hres]
        show (t.store.set _ _).length = t.store.length
        rw [List.length_set]
      rw [h1, h2]
      exact hids i hi
    · intro i hi
      have h1 : dirAt (remove hash t key).1 i = dirAt t i := by rw [hres]; rfl
      rw [h1, hget]
      by_cases hc : dirAt t i = dirAt t (indexOf hash t key)
      · rw [if_pos hc]
        have hold := hslots i hi
        rw [hc] at hold
        refine ⟨by rw [hbfields.1]; exact hold.1, by rw [hbfields.2.2]; exact hold.2.1, ?_, ?_, ?_, ?_⟩
        · rw [hbfields.2.1, hbfields.2.2]
          rw [← hc]
          exact (hslots i hi).2.2.1
        · exact le_trans (List.Sublist.length_le hblist) hold.2.2.2.1
        · intro p hp
          rw [hbfields.2.2, hbfields.2.1]
          exact hold.2.2.2.2.1 p (List.Sublist.mem hp hblist)
        · exact List.Nodup.sublist (List.Sublist.map Prod.fst hblist) hold.2.2.2.2.2
      · rw [if_neg hc]
        exact hslots i hi
    · intro i hi j hj
      have h1 : ∀ x, dirAt (remove hash t key).1 x = dirAt t x := by
        intro x; rw [hres]; rfl
      rw [h1, h1]
      have hdep : (getBkt (remove hash t key).1 (dirAt t i)).depth =
          (getBkt t (dirAt t i)).depth := by
        rw [hget]
        by_cases hc : dirAt t i = dirAt t (indexOf hash t key)
        · rw [if_pos hc, hc]
          exact hbfields.2.2
        · rw [if_neg hc]
      rw [hdep]
      exact halias i hi j hj
  · have h1 : dirAt (remove hash t key).1 (indexOf hash (remove hash t key).1 key) =
        dirAt t (indexOf hash t key) := by rw [hres]; rfl
    unfold find
    rw [h1, hget, if_pos rfl]
    unfold Bucket.remove
    by_cases ha : (getBkt t (dirAt t (indexOf hash t key))).list.any (fun p => p.1 == key) = true
    · rw [if_pos ha]
      unfold Bucket.find
      rw [find?_eraseP_self key _ ((hslots _ hi0).2.2.2.2.2)]
      rfl
    · rw [if_neg ha]
      unfold Bucket.find
      have : (getBkt t (dirAt t (indexOf hash t key))).list.find? (fun p => p.1 == key) = none := by
        rw [List.find?_eq_none]
        intro q hq
        have hv : (getBkt t (dirAt t (indexOf hash t key))).list.any (fun p => p.1 == key) = false := by
          cases hx : (getBkt t (dirAt t (indexOf hash t key))).list.any (fun p => p.1 == key)
          · rfl
          · exact absurd hx ha
        exact fun hk => (List.any_eq_false.mp hv q hq) hk
      rw [this]
      rfl
  · intro k2 hk2
    have h1 : dirAt (remove hash t key).1 (indexOf hash (remove hash t key).1 k2) =
        dirAt t (indexOf hash t k2) := by rw [hres]; rfl
    unfold find
    rw [h1, hget]
    by_cases hc : dirAt t (indexOf hash t k2) = dirAt t (indexOf hash t key)
    · rw [if_pos hc]
      unfold Bucket.remove
      by_cases ha : (getBkt t (dirAt t (indexOf hash t key))).list.any (fun p => p.1 == key) = true
      · rw [if_pos ha]
        unfold Bucket.find
        rw [find?_eraseP_ne key k2 hk2]
        rw [hc]
      · rw [if_neg ha]
        rw [hc]
    · rw [if_neg hc]

/-- `ExtendibleHashTable(bucket_size)` with a positive capacity is
well-formed. -/
theorem wf_mkTable (hash : K → Nat) (bsz : Nat) (h : 0 < bsz) :
    WF hash (mkTable K V bsz) := by
  refine ⟨h, by show (0 : Nat) ≤ 64; norm_num, rfl, ?_, ?_, ?_⟩
  · intro i hi
    have hi1 : i < 1 := hi
    have : i = 0 := by omega
    subst this
    show (0 : Nat) < 1
    norm_num
  · intro i hi
    have hi1 : i < 1 := hi
    have : i = 0 := by omega
    subst this
    refine ⟨rfl, by show (0 : Nat) ≤ 0; norm_num, rfl, by show (0 : Nat) ≤ bsz; omega, ?_, ?_⟩
    · intro p hp
      exact absurd hp (List.not_mem_nil p)
    · exact List.nodup_nil
  · intro i hi j hj
    have hi1 : i < 1 := hi
    have hj1 : j < 1 := hj
    have h1 : i = 0 := by omega
    have h2 : j = 0 := by omega
    subst h1; subst h2
    exact ⟨fun _ => rfl, fun _ => rfl⟩

/-- Whenever the insert loop finishes, it preserves well-formedness and
every other key's mapping (no hypotheses on the inserted key's hash). -/
theorem insertLoop_wf (hash : K → Nat) :
    ∀ (fuel : Nat) (t t2 : Table K V) (key : K) (v : V),
      WF hash t → insertLoop hash fuel t key v = some t2 →
      WF hash t2 ∧ (∀ k2, k2 ≠ key → find hash t2 k2 = find hash t k2) := by
  intro fuel
  induction fuel with
  | zero =>
    intro t t2 key v _ h
    exact absurd h (by rw [insertLoop]; simp)
  | succ n ih =>
    intro t t2 key v hwf hloop
    have hi0 : indexOf hash t key < t.dir.length := indexOf_lt_dirLen hash t hwf.2.2.1
    have hbid : dirAt t (indexOf hash t key) < t.store.length := hwf.2.2.2.1 _ hi0
    rw [insertLoop.eq_2] at hloop
    cases hins : Bucket.insert (getBkt t (dirAt t (indexOf hash t key))) key v with
    | some b2 =>
      rw [hins] at hloop
      have ht2 : t2 = setBkt t (dirAt t (indexOf hash t key)) b2 :=
        (Option.some_injective _ hloop).symm
      subst ht2
      exact ⟨wf_insertAt hash t key v b2 hwf hins, (find_insertAt hash t key v b2 hbid hins).2⟩
    | none =>
      rw [hins] at hloop
      by_cases hdg : (getBkt t (dirAt t (indexOf hash t key))).depth = t.global_depth
      · have hsplit : splitBucket hash t (dirAt t (indexOf hash t key)) = none := by
          unfold splitBucket
          rw [if_pos hdg]
        rw [hsplit] at hloop
        cases hE : expandDirs t with
        | none =>
          rw [hE] at hloop
          exact absurd hloop (by simp)
        | some tE =>
          have h64 : ¬ t.global_depth = 64 := by
            intro hc
            rw [expandDirs, if_pos hc] at hE
            exact absurd hE (by simp)
          obtain ⟨tE2, hE2, hwfE, _, _, _, _, hfindE⟩ := expand_spec hash t hwf h64
          have hEeq : tE = tE2 := by
            rw [hE] at hE2
            exact Option.some_injective _ hE2
          subst hEeq
          rw [hE] at hloop
          obtain ⟨hwf2, hpres⟩ := ih tE t2 key v hwfE hloop
          exact ⟨hwf2, fun k2 hk2 => by rw [hpres k2 hk2, hfindE]⟩
      · obtain ⟨tS, hS, hwfS, _, _, _, _, hfindS⟩ :=
          split_spec hash t (indexOf hash t key) hwf hi0 hdg
        rw [hS] at hloop
        simp only [if_true] at hloop
        obtain ⟨hwf2, hpres⟩ := ih tS t2 key v hwfS hloop
        exact ⟨hwf2, fun k2 hk2 => by rw [hpres k2 hk2, hfindS]⟩

/-- States of the extendible hash table reachable by any sequence of
`Insert` and `Remove` calls from a freshly constructed table (`Find` does
not change the state). -/
inductive ReachE (hash : K → Nat) : Table K V → Prop
  | init (bsz : Nat) (h : 0 < bsz) : ReachE hash (mkTable K V bsz)
  | insertStep {t t2 : Table K V} (fuel : Nat) (key : K) (v : V) :
      ReachE hash t → insertLoop hash fuel t key v = some t2 → ReachE hash t2
  | removeStep {t : Table K V} (key : K) :
      ReachE hash t → ReachE hash (remove hash t key).1

/-- Every reachable table is well-formed. -/
theorem reach_wf (hash : K → Nat) (t : Table K V) (h : ReachE hash t) : WF hash t := by
  induction h with
  | init bsz hb => exact wf_mkTable hash bsz hb
  | insertStep fuel key v _ hloop ihw => exact (insertLoop_wf hash fuel _ _ key v ihw hloop).1
  | removeStep key _ ihw => exact (remove_spec hash _ key ihw).1

end EHT

/-- The hash of the repository's `int` instantiations: `std::hash<int>` is the
identity, truncated to the 64-bit `size_t`. -/
def h64 : Nat → Nat := fun n => n % 2 ^ 64

/-- Concrete reachable tables for witnesses: a table of bucket size 1 after
inserting keys 0 and 2 (two expansions and two splits happen on the way). -/
def ehtT0 : EHT.Table Nat Nat := EHT.mkTable Nat Nat 1

def ehtT1 : EHT.Table Nat Nat := (EHT.insertLoop h64 6 ehtT0 0 10).getD ehtT0

def ehtT2 : EHT.Table Nat Nat := (EHT.insertLoop h64 6 ehtT1 2 20).getD ehtT1

theorem ehtT2_reach : EHT.ReachE h64 ehtT2 :=
  @EHT.ReachE.insertStep Nat Nat _ h64 ehtT1 ehtT2 6 2 20
    (@EHT.ReachE.insertStep Nat Nat _ h64 ehtT0 ehtT1 6 0 10
      (EHT.ReachE.init 1 (by norm_num)) (by decide))
    (by decide)

/-- C5: on every reachable table state, `insert(key, value)` terminates and
succeeds — the split-and-retry / double-and-retry loop finishes within 129
iterations, never reaching the fatal `UNREACHABLE` on directory doubling
beyond global depth 64 and never failing a redistribution assert — and
afterwards `find(key)` returns the value while no other key's mapping
changes.  The hash is assumed 64-bit-valued with no foreign key sharing the
inserted key's full 64-bit hash, as holds for the repository's `std::hash`
instantiations on `int` keys. -/
theorem C5_eht_insert_total {K V : Type} [DecidableEq K] (hash : K → Nat)
    (t : EHT.Table K V) (key : K) (v : V)
    (hreach : EHT.ReachE hash t)
    (hb : ∀ x : K, hash x < 2 ^ 64)
    (hcol : ∀ k2 : K, EHT.InTable t k2 → hash k2 = hash key → k2 = key) :
    ∃ t2, EHT.insertLoop hash 129 t key v = some t2 ∧
      EHT.find hash t2 key = some v ∧
      (∀ k2, k2 ≠ key → EHT.find hash t2 k2 = EHT.find hash t k2) := by
  obtain ⟨t2, hloop, _, hfind, hpres⟩ :=
    EHT.insertLoop_spec hash 129 t key v (EHT.reach_wf hash t hreach) hb hcol
      (by omega)
  exact ⟨t2, hloop, hfind, hpres⟩

/-- Witness for C5: inserting key 5 into a freshly constructed table of
bucket size 4. -/
theorem C5_eht_insert_total_witness :
    ∃ t2, EHT.insertLoop h64 129 (EHT.mkTable Nat Nat 4) 5 77 = some t2 ∧
      EHT.find h64 t2 5 = some 77 ∧
      (∀ k2, k2 ≠ 5 → EHT.find h64 t2 k2 = EHT.find h64 (EHT.mkTable Nat Nat 4) k2) :=
  C5_eht_insert_total h64 (EHT.mkTable Nat Nat 4) 5 77
    (EHT.ReachE.init 4 (by norm_num))
    (fun x => Nat.mod_lt x (by norm_num))
    (by
      intro k2 hin _
      exfalso
      obtain ⟨i, hi, p, hp, _⟩ := hin
      have h1 : (EHT.mkTable Nat Nat 4).dir.length = 1 := rfl
      rw [h1] at hi
      have h0 : i = 0 := by omega
      subst h0
      have h2 : (EHT.getBkt (EHT.mkTable Nat Nat 4)
        (EHT.dirAt (EHT.mkTable Nat Nat 4) 0)).list = [] := rfl
      rw [h2] at hp
      exact List.not_mem_nil p hp)

/-- C6: in every reachable state of the extendible hash table, every bucket
of local depth `d` referenced by a directory slot is pointed to by exactly
`2 ^ (global_depth - d)` slots, and every slot `i` points to the bucket
whose `self_hash` equals the low `depth` bits of `i`. -/
theorem C6_eht_directory_invariant {K V : Type} [DecidableEq K] (hash : K → Nat)
    (t : EHT.Table K V) (hreach : EHT.ReachE hash t) :
    ∀ i, i < t.dir.length →
      ((List.range t.dir.length).countP (fun j => EHT.dirAt t j == EHT.dirAt t i)) =
        2 ^ (t.global_depth - (EHT.getBkt t (EHT.dirAt t i)).depth) ∧
      (EHT.getBkt t (EHT.dirAt t i)).self_hash =
        i % 2 ^ (EHT.getBkt t (EHT.dirAt t i)).depth := by
  intro i hi
  have hwf := EHT.reach_wf hash t hreach
  obtain ⟨hbs, hg64, hlen, hids, hslots, halias⟩ := hwf
  refine ⟨?_, (hslots i hi).2.2.1⟩
  have hd : (EHT.getBkt t (EHT.dirAt t i)).depth ≤ t.global_depth := (hslots i hi).2.1
  have hcong : ∀ j ∈ List.range t.dir.length,
      ((EHT.dirAt t j == EHT.dirAt t i) = true) ↔
      ((j % 2 ^ (EHT.getBkt t (EHT.dirAt t i)).depth ==
        i % 2 ^ (EHT.getBkt t (EHT.dirAt t i)).depth) = true) := by
    intro j hjr
    have hj := List.mem_range.mp hjr
    simp only [beq_iff_eq]
    constructor
    · intro he
      exact ((halias i hi j hj).mp he.symm).symm
    · intro he
      exact ((halias i hi j hj).mpr he.symm).symm
  rw [List.countP_congr hcong, hlen]
  have hgd : 2 ^ (t.global_depth - (EHT.getBkt t (EHT.dirAt t i)).depth) *
      2 ^ (EHT.getBkt t (EHT.dirAt t i)).depth = 2 ^ t.global_depth := by
    rw [← pow_add]
    congr 1
    omega
  rw [← hgd]
  exact EHT.countP_range_mod_mul _ _
    (Nat.mod_lt _ (Nat.pos_pow_of_pos _ (by norm_num))) _

/-- Witness for C6: the concrete reachable table `ehtT2` (global depth 2); the
bucket at directory slot 1 has local depth 1 and is referenced by exactly
`2 ^ (2 - 1) = 2` slots. -/
theorem C6_eht_directory_invariant_witness :
    ((List.range ehtT2.dir.length).countP
      (fun j => EHT.dirAt ehtT2 j == EHT.dirAt ehtT2 1)) =
      2 ^ (ehtT2.global_depth - (EHT.getBkt ehtT2 (EHT.dirAt ehtT2 1)).depth) ∧
    (EHT.getBkt ehtT2 (EHT.dirAt ehtT2 1)).self_hash =
      1 % 2 ^ (EHT.getBkt ehtT2 (EHT.dirAt ehtT2 1)).depth :=
  C6_eht_directory_invariant h64 ehtT2 ehtT2_reach 1 (by decide)

/-- C8: splitting a directory-referenced bucket of a reachable table (such a
bucket holds at most `bucket_size` entries) always succeeds: every
`assert(dir_[idx]->Insert(...))` of the redistribution loop holds, reported
here by the `true` flag. -/
theorem C8_eht_split_redistribute {K V : Type} [DecidableEq K] (hash : K → Nat)
    (t : EHT.Table K V) (i0 : Nat)
    (hreach : EHT.ReachE hash t) (hi0 : i0 < t.dir.length)
    (hne : ¬ (EHT.getBkt t (EHT.dirAt t i0)).depth = t.global_depth) :
    ∃ t2, EHT.splitBucket hash t (EHT.dirAt t i0) = some (t2, true) := by
  obtain ⟨t2, h, _⟩ :=
    EHT.split_spec hash t i0 (EHT.reach_wf hash t hreach) hi0 hne
  exact ⟨t2, h⟩

/-- Witness for C8: splitting the depth-1 bucket at slot 1 of the reachable
depth-2 table `ehtT2`. -/
theorem C8_eht_split_redistribute_witness :
    ∃ t2, EHT.splitBucket h64 ehtT2 (EHT.dirAt ehtT2 1) = some (t2, true) :=
  C8_eht_split_redistribute h64 ehtT2 1 ehtT2_reach (by decide) (by decide)

namespace BPM

/-- `INVALID_PAGE_ID = -1`. -/
def INVALID_PAGE_ID : Int := -1

/-- One page frame: `page_id_`, `pin_count_`, `is_dirty_`, and the 4 KiB
payload, abstracted to an opaque token (`Nat`) since the pool never
interprets page contents.  The per-frame reader/writer latch is dropped:
every operation below runs under the pool latch, so the sequential
semantics is the specified one.  The default values are the `Page`
constructor's (`Modelled from the spec:` the `Page` class lives in a header
not under `src/`; the spec says a free frame holds `INVALID_PAGE_ID`, pin
count 0, clean). -/
structure Frame where
  page_id : Int := INVALID_PAGE_ID
  pin_count : Nat := 0
  is_dirty : Bool := false
  data : Nat := 0
deriving Repr, DecidableEq

/-- The disk manager's durable state: an association list from page id to the
payload last written there (`write_page` overwrites in place).  `read_page`
of a never-written page returns the disk manager's default content. -/
def diskWrite (disk : List (Int × Nat)) (p : Int) (d : Nat) : List (Int × Nat) :=
  if disk.any (fun e => e.1 == p) then
    disk.map (fun e => if e.1 = p then (p, d) else e)
  else disk ++ [(p, d)]

def diskRead (disk : List (Int × Nat)) (p : Int) : Nat :=
  ((disk.find? (fun e => e.1 == p)).map (fun e => e.2)).getD 0

/-- `std::hash<page_id_t>` on the 32-bit `page_id_t`, i.e. the identity cast
to the 64-bit `size_t` (sign-extended, then reduced mod `2 ^ 64`). -/
def pidHash (p : Int) : Nat := (p % (2 : Int) ^ 64).toNat

/-- State of `BufferPoolManagerInstance`: the frame array `pages_`, the page
table, the replacer, the free list, `next_page_id_`, plus the external disk
manager state it drives. -/
structure Pool where
  pool_size : Nat
  pages : List Frame
  page_table : EHT.Table Int Nat
  replacer : LRUK.Replacer
  free_list : List Nat
  next_page_id : Int
  disk : List (Int × Nat)
deriving Repr, DecidableEq

/-- The constructor: all frames free, page table of the header-fixed bucket
size, an LRU-K replacer over `pool_size` frames.  (`bucket_size_` is a
header constant not under `src/`; it is a parameter here, any positive
value.) -/
def mkPool (pool_size bucket_size replacer_k : Nat) : Pool :=
  { pool_size := pool_size
    pages := List.replicate pool_size {}
    page_table := EHT.mkTable Int Nat bucket_size
    replacer := LRUK.mkReplacer pool_size replacer_k
    free_list := (List.range pool_size).map id
    next_page_id := 0
    disk := [] }

def getFrame (s : Pool) (i : Nat) : Frame := s.pages.getD i {}

def ptFind (t : EHT.Table Int Nat) (p : Int) : Option Nat := EHT.find pidHash t p

def ptInsert (t : EHT.Table Int Nat) (p : Int) (fid : Nat) : Option (EHT.Table Int Nat) :=
  EHT.insertLoop pidHash 129 t p fid

def ptRemove (t : EHT.Table Int Nat) (p : Int) : EHT.Table Int Nat × Bool :=
  EHT.remove pidHash t p

/-- `AllocFrameIdInternal`.  Outer `none` models a failed `BUSTUB_ASSERT`
(replacer eviction failing, a dirty victim with `INVALID_PAGE_ID`, or the
victim missing from the page table); `some (none, s)` is the `return -1`
path.  On the eviction path the source writes back `pages_[fid]` where
`fid` came from `page_table_->Find(evict_pid, fid)` whose result is
unchecked; when that lookup misses, `fid` is an uninitialized stack
variable, modelled by the default 0 (the assertion that the lookup
succeeds is stated as a hypothesis where claims depend on it). -/
def allocFrameId (s : Pool) : Option (Option Nat × Pool) :=
  if s.free_list.isEmpty ∧ s.replacer.evictable_cnt = 0 then some (none, s)
  else if s.free_list.isEmpty then
    match LRUK.evictInternal s.replacer with
    | none => none
    | some (none, _) => none
    | some (some vfid, repl2) =>
      let evict_pid := (getFrame s vfid).page_id
      let s1 :=
        if (getFrame s vfid).is_dirty then
          let fid2 := (ptFind s.page_table evict_pid).getD 0
          { s with replacer := repl2
                   disk := diskWrite s.disk evict_pid (getFrame s fid2).data
                   pages := s.pages.set fid2 { getFrame s fid2 with is_dirty := false } }
        else { s with replacer := repl2 }
      if (getFrame s vfid).is_dirty ∧ evict_pid = INVALID_PAGE_ID then none
      else
        let r := ptRemove s1.page_table evict_pid
        if r.2 then some (some vfid, { s1 with page_table := r.1 }) else none
  else
    some (some (s.free_list.getLastD 0), { s with free_list := s.free_list.dropLast })

/-- `NewPgImpInternal` (under the pool latch): returns the frame handed to
the caller, the value written through the out-parameter `page_id`, and the
new state.  `none` models a fatal path (an internal assert, or a fatal page
table insertion — never taken in well-formed runs). -/
def newPage (s : Pool) : Option (Option Nat × Int × Pool) :=
  match allocFrameId s with
  | none => none
  | some (none, s1) => some (none, INVALID_PAGE_ID, s1)
  | some (some fid, s1) =>
    let s2 := { s1 with replacer := LRUK.setEvictable (LRUK.recordAccess s1.replacer fid) fid false }
    let new_pid := s2.next_page_id
    let s3 := { s2 with next_page_id := new_pid + 1 }
    match ptInsert s3.page_table new_pid fid with
    | none => none
    | some t2 =>
      let s4 := { s3 with page_table := t2 }
      some (some fid, new_pid,
        { s4 with pages := s4.pages.set fid { getFrame s4 fid with page_id := new_pid, pin_count := 1, is_dirty := false } })

/-- `FetchPgImp`. -/
def fetchPage (s : Pool) (page_id : Int) : Option (Option Nat × Pool) :=
  match ptFind s.page_table page_id with
  | some fid =>
    let s1 := { s with replacer := LRUK.setEvictable (LRUK.recordAccess s.replacer fid) fid false }
    some (some fid,
      { s1 with pages := s1.pages.set fid { getFrame s1 fid with pin_count := (getFrame s1 fid).pin_count + 1 } })
  | none =>
    match allocFrameId s with
    | none => none
    | some (none, s1) => some (none, s1)
    | some (some fid, s1) =>
      let s2 := { s1 with replacer := LRUK.setEvictable (LRUK.recordAccess s1.replacer fid) fid false }
      match ptInsert s2.page_table page_id fid with
      | none => none
      | some t2 =>
        let s3 := { s2 with page_table := t2 }
        some (some fid,
          { s3 with pages := s3.pages.set fid { getFrame s3 fid with page_id := page_id, pin_count := 1, is_dirty := false, data := diskRead s3.disk page_id } })

/-- `UnpinPgImp`.  (The source also write-latches `pages_[fid]` before
checking the lookup result, reading `fid` uninitialized when the lookup
missed; the latch acquisition itself does not change the modelled state —
see `unpinLatchIndex` for the accessed index.) -/
def unpinPage (s : Pool) (page_id : Int) (is_dirty : Bool) : Bool × Pool :=
  match ptFind s.page_table page_id with
  | none => (false, s)
  | some fid =>
    if (getFrame s fid).pin_count = 0 then (false, s)
    else
      let pc := (getFrame s fid).pin_count - 1
      let repl := if pc = 0 then LRUK.setEvictable s.replacer fid true else s.replacer
      (true,
        { s with replacer := repl
                 pages := s.pages.set fid { getFrame s fid with pin_count := pc, is_dirty := (getFrame s fid).is_dirty || is_dirty } })

/-- The index into `pages_[]` that `UnpinPgImp` write-latches before testing
`find_res` (`src/buffer/buffer_pool_manager_instance.cpp:99-101`).  When the
lookup misses, the source reads the uninitialized `fid`; the indeterminate
value is the explicit parameter `junk`. -/
def unpinLatchIndex (s : Pool) (page_id : Int) (junk : Nat) : Nat :=
  (ptFind s.page_table page_id).getD junk

/-- `FlushPgImpInternal`.  `none` is the `BUSTUB_ASSERT(page_id !=
INVALID_PAGE_ID, ...)` abort. -/
def flushPage (s : Pool) (page_id : Int) : Option (Bool × Pool) :=
  if page_id = INVALID_PAGE_ID then none
  else
    match ptFind s.page_table page_id with
    | none => some (false, s)
    | some fid =>
      some (true,
        { s with disk := diskWrite s.disk page_id (getFrame s fid).data
                 pages := s.pages.set fid { getFrame s fid with is_dirty := false } })

/-- `FlushAllPgsImp`. -/
def flushAll (s : Pool) : Pool :=
  (List.range s.pool_size).foldl
    (fun acc i =>
      if (getFrame acc i).page_id ≠ INVALID_PAGE_ID ∧ (getFrame acc i).is_dirty then
        { acc with disk := diskWrite acc.disk (getFrame acc i).page_id (getFrame acc i).data
                   pages := acc.pages.set i { getFrame acc i with is_dirty := false } }
      else acc)
    s

/-- `DeletePgImp`.  `DeallocatePage` is a no-op (`Modelled from the spec:`
the deallocator lives in a header not under `src/`; the spec says
"Deallocation is a no-op on the manager side").  The replacer `Remove`'s
`assert(rec->evictable_)` is stated as a hypothesis where a claim depends
on it. -/
def deletePage (s : Pool) (page_id : Int) : Bool × Pool :=
  match ptFind s.page_table page_id with
  | none => (true, s)
  | some fid =>
    if (getFrame s fid).pin_count > 0 then (false, s)
    else
      let repl := LRUK.removeRec s.replacer fid
      let disk2 := if (getFrame s fid).is_dirty
        then diskWrite s.disk page_id (getFrame s fid).data else s.disk
      let r := ptRemove s.page_table page_id
      (true,
        { s with replacer := repl
                 disk := disk2
                 page_table := r.1
                 pages := s.pages.set fid { getFrame s fid with page_id := INVALID_PAGE_ID, pin_count := 0, is_dirty := false }
                 free_list := s.free_list ++ [fid] })

end BPM

namespace LRUK

/-- Each frame id occurs at most once across the two lists (the `rec_map_`
invariant). -/
def UniqIds (s : Replacer) : Prop :=
  ((s.history_list ++ s.buffer_list).map (fun r => r.frame_id)).Nodup

/-- Buffer residents have reached `k` visits. -/
def BufWF (s : Replacer) : Prop := ∀ r ∈ s.buffer_list, s.k ≤ r.visit_cnt

/-- Full list placement: unique ids, history residents below `k` visits,
buffer residents at `k` or more. -/
def ListWF (s : Replacer) : Prop :=
  UniqIds s ∧ (∀ r ∈ s.history_list, r.visit_cnt < s.k) ∧ BufWF s

/-- Frame `fid` is evictable in the replacer: some record carries it with the
flag set. -/
def evictableIn (s : Replacer) (fid : Nat) : Prop :=
  ∃ r ∈ s.history_list ++ s.buffer_list, r.frame_id = fid ∧ r.evictable = true

instance (s : Replacer) : Decidable (UniqIds s) := by unfold UniqIds; infer_instance

instance (s : Replacer) : Decidable (BufWF s) := by unfold BufWF; infer_instance

instance (s : Replacer) : Decidable (ListWF s) := by unfold ListWF; infer_instance

instance (s : Replacer) (fid : Nat) : Decidable (evictableIn s fid) := by
  unfold evictableIn; infer_instance

theorem setRec_eq_of_no_match :
    ∀ (l : List FrameRec) (fid : Nat) (nr : FrameRec),
      (∀ r ∈ l, r.frame_id ≠ fid) → setRec l fid nr = l := by
  intro l
  induction l with
  | nil => intro _ _ _; rfl
  | cons r rs ih =>
    intro fid nr h
    unfold setRec
    rw [if_neg (h r (List.mem_cons_self r rs))]
    rw [ih fid nr (fun q hq => h q (List.mem_cons_of_mem r hq))]

theorem mem_setRec :
    ∀ (l : List FrameRec) (fid : Nat) (nr q : FrameRec),
      q ∈ setRec l fid nr → q ∈ l ∨ q = nr := by
  intro l
  induction l with
  | nil => intro _ _ q h; exact absurd h (List.not_mem_nil q)
  | cons r rs ih =>
    intro fid nr q h
    unfold setRec at h
    by_cases hr : r.frame_id = fid
    · rw [if_pos hr] at h
      rcases List.mem_cons.mp h with h2 | h2
      · right; exact h2
      · left; exact List.mem_cons_of_mem r h2
    · rw [if_neg hr] at h
      rcases List.mem_cons.mp h with h2 | h2
      · left; rw [h2]; exact List.mem_cons_self r rs
      · rcases ih fid nr q h2 with h3 | h3
        · left; exact List.mem_cons_of_mem r h3
        · right; exact h3

theorem mem_setRec_of_mem_ne :
    ∀ (l : List FrameRec) (fid : Nat) (nr q : FrameRec),
      q ∈ l → q.frame_id ≠ fid → q ∈ setRec l fid nr := by
  intro l
  induction l with
  | nil => intro _ _ q h _; exact absurd h (List.not_mem_nil q)
  | cons r rs ih =>
    intro fid nr q h hq
    unfold setRec
    by_cases hr : r.frame_id = fid
    · rw [if_pos hr]
      rcases List.mem_cons.mp h with h2 | h2
      · exfalso; rw [h2] at hq; exact hq hr
      · exact List.mem_cons_of_mem nr h2
    · rw [if_neg hr]
      rcases List.mem_cons.mp h with h2 | h2
      · rw [h2]; exact List.mem_cons_self r _
      · exact List.mem_cons_of_mem r (ih fid nr q h2 hq)

theorem map_setRec (l : List FrameRec) (fid : Nat) (nr : FrameRec) (h : nr.frame_id = fid) :
    (setRec l fid nr).map (fun r => r.frame_id) = l.map (fun r => r.frame_id) := by
  induction l with
  | nil => rfl
  | cons r rs ih =>
    unfold setRec
    by_cases hr : r.frame_id = fid
    · rw [if_pos hr]
      simp only [List.map_cons]
      rw [h, hr]
    · rw [if_neg hr]
      simp only [List.map_cons]
      rw [ih]

theorem mem_eraseFid_of_mem_ne (l : List FrameRec) (fid : Nat) (q : FrameRec)
    (h : q ∈ l) (hq : q.frame_id ≠ fid) : q ∈ eraseFid l fid := by
  unfold eraseFid
  induction l with
  | nil => exact absurd h (List.not_mem_nil q)
  | cons r rs ih =>
    by_cases hr : r.frame_id = fid
    · rw [List.eraseP_cons_of_pos (by simp [hr])]
      rcases List.mem_cons.mp h with h2 | h2
      · exfalso; rw [h2] at hq; exact hq hr
      · exact h2
    · rw [List.eraseP_cons_of_neg (by simp [hr])]
      rcases List.mem_cons.mp h with h2 | h2
      · rw [h2]; exact List.mem_cons_self r _
      · exact List.mem_cons_of_mem r (ih h2)

theorem eraseFid_eq_of_no_match (l : List FrameRec) (fid : Nat)
    (h : ∀ r ∈ l, r.frame_id ≠ fid) : eraseFid l fid = l := by
  unfold eraseFid
  induction l with
  | nil => rfl
  | cons r rs ih =>
    rw [List.eraseP_cons_of_neg (by simp [h r (List.mem_cons_self r rs)])]
    rw [ih (fun q hq => h q (List.mem_cons_of_mem r hq))]

theorem findRec_none (s : Replacer) (fid : Nat) (h : findRec s fid = none) :
    ∀ r ∈ s.history_list ++ s.buffer_list, r.frame_id ≠ fid := by
  unfold findRec at h
  intro r hr
  cases hh : s.history_list.find? (fun r => r.frame_id == fid) with
  | some x => rw [hh] at h; exact absurd h (by simp)
  | none =>
    rw [hh] at h
    rcases List.mem_append.mp hr with h2 | h2
    · have := List.find?_eq_none.mp hh r h2
      simpa using this
    · have := List.find?_eq_none.mp h r h2
      simpa using this

theorem findRec_some (s : Replacer) (fid : Nat) (rec : FrameRec)
    (h : findRec s fid = some rec) :
    rec ∈ s.history_list ++ s.buffer_list ∧ rec.frame_id = fid := by
  unfold findRec at h
  cases hh : s.history_list.find? (fun r => r.frame_id == fid) with
  | some x =>
    rw [hh] at h
    have hx : x = rec := by simpa using h
    subst hx
    have := List.find?_some hh
    exact ⟨List.mem_append.mpr (Or.inl (List.mem_of_find?_eq_some hh)), by simpa using this⟩
  | none =>
    rw [hh] at h
    have := List.find?_some h
    exact ⟨List.mem_append.mpr (Or.inr (List.mem_of_find?_eq_some h)), by simpa using this⟩

theorem findRec_some_hist (s : Replacer) (fid : Nat) (rec : FrameRec)
    (h : findRec s fid = some rec) :
    rec ∈ s.history_list ∨
      (rec ∈ s.buffer_list ∧ ∀ r ∈ s.history_list, r.frame_id ≠ fid) := by
  unfold findRec at h
  cases hh : s.history_list.find? (fun r => r.frame_id == fid) with
  | some x =>
    rw [hh] at h
    have hx : x = rec := by simpa using h
    subst hx
    exact Or.inl (List.mem_of_find?_eq_some hh)
  | none =>
    rw [hh] at h
    refine Or.inr ⟨List.mem_of_find?_eq_some h, ?_⟩
    intro r hr
    have := List.find?_eq_none.mp hh r hr
    simpa using this

theorem uniq_unique (s : Replacer) (h : UniqIds s) (r1 r2 : FrameRec)
    (h1 : r1 ∈ s.history_list ++ s.buffer_list)
    (h2 : r2 ∈ s.history_list ++ s.buffer_list)
    (he : r1.frame_id = r2.frame_id) : r1 = r2 :=
  List.inj_on_of_nodup_map h h1 h2 he

end LRUK

namespace LRUK

theorem no_fid_eraseFid :
    ∀ (l : List FrameRec) (fid : Nat), ((l.map (fun r => r.frame_id)).Nodup) →
      ∀ q ∈ eraseFid l fid, q.frame_id ≠ fid := by
  intro l
  induction l with
  | nil => intro fid _ q hq; exact absurd hq (List.not_mem_nil q)
  | cons r rs ih =>
    intro fid hnd q hq
    have hnd2 : r.frame_id ∉ rs.map (fun x => x.frame_id) ∧
        ((rs.map (fun x => x.frame_id)).Nodup) := by
      rw [List.map_cons] at hnd
      exact ⟨(List.nodup_cons.mp hnd).1, (List.nodup_cons.mp hnd).2⟩
    unfold eraseFid at hq
    by_cases hr : r.frame_id = fid
    · rw [List.eraseP_cons_of_pos (by simp [hr])] at hq
      intro hc
      apply hnd2.1
      rw [hr, ← hc]
      exact List.mem_map_of_mem _ hq
    · rw [List.eraseP_cons_of_neg (by simp [hr])] at hq
      rcases List.mem_cons.mp hq with h2 | h2
      · rw [h2]; exact hr
      · exact ih fid hnd2.2 q h2

theorem mem_setRec_self :
    ∀ (l : List FrameRec) (fid : Nat) (nr r0 : FrameRec),
      r0 ∈ l → r0.frame_id = fid → nr ∈ setRec l fid nr := by
  intro l
  induction l with
  | nil => intro _ _ r0 h _; exact absurd h (List.not_mem_nil r0)
  | cons r rs ih =>
    intro fid nr r0 h h0
    unfold setRec
    by_cases hr : r.frame_id = fid
    · rw [if_pos hr]; exact List.mem_cons_self nr _
    · rw [if_neg hr]
      rcases List.mem_cons.mp h with h2 | h2
      · exfalso; rw [h2] at h0; exact hr h0
      · exact List.mem_cons_of_mem r (ih fid nr r0 h2 h0)

theorem uniq_disjoint (s : Replacer) (h : UniqIds s) (r1 r2 : FrameRec)
    (h1 : r1 ∈ s.history_list) (h2 : r2 ∈ s.buffer_list) :
    r1.frame_id ≠ r2.frame_id := by
  unfold UniqIds at h
  rw [List.map_append, List.nodup_append] at h
  intro hc
  exact h.2.2 (List.mem_map_of_mem _ h1) (hc ▸ List.mem_map_of_mem _ h2)

theorem nodup_map_hist (s : Replacer) (h : UniqIds s) :
    ((s.history_list.map (fun r => r.frame_id)).Nodup) := by
  unfold UniqIds at h
  rw [List.map_append, List.nodup_append] at h
  exact h.1

theorem nodup_map_buf (s : Replacer) (h : UniqIds s) :
    ((s.buffer_list.map (fun r => r.frame_id)).Nodup) := by
  unfold UniqIds at h
  rw [List.map_append, List.nodup_append] at h
  exact h.2.1

theorem notin_map_of_forall_ne (l : List FrameRec) (fid : Nat)
    (h : ∀ r ∈ l, r.frame_id ≠ fid) : fid ∉ l.map (fun r => r.frame_id) := by
  intro hc
  rcases List.mem_map.mp hc with ⟨r, hr, he⟩
  exact h r hr he

theorem recordAccess_notfound (s : Replacer) (f : Nat) (hfr : findRec s f = none) :
    recordAccess s f = { s with history_list := s.history_list ++ [(⟨f, 1, false⟩ : FrameRec)] } := by
  unfold recordAccess
  rw [hfr]

theorem recordAccess_promote (s : Replacer) (f : Nat) (rec : FrameRec)
    (hfr : findRec s f = some rec) (hv : rec.visit_cnt < s.k) (hk : rec.visit_cnt + 1 = s.k) :
    recordAccess s f = { s with history_list := eraseFid s.history_list f, buffer_list := s.buffer_list ++ [{ rec with visit_cnt := rec.visit_cnt + 1 }] } := by
  unfold recordAccess
  rw [hfr]
  dsimp only
  rw [if_pos hv, if_pos hk]

theorem recordAccess_inplace (s : Replacer) (f : Nat) (rec : FrameRec)
    (hfr : findRec s f = some rec) (hv : rec.visit_cnt < s.k) (hk : ¬ rec.visit_cnt + 1 = s.k) :
    recordAccess s f = { s with history_list := setRec s.history_list f { rec with visit_cnt := rec.visit_cnt + 1 } } := by
  unfold recordAccess
  rw [hfr]
  dsimp only
  rw [if_pos hv, if_neg hk]

theorem recordAccess_bufmove (s : Replacer) (f : Nat) (rec : FrameRec)
    (hfr : findRec s f = some rec) (hv : ¬ rec.visit_cnt < s.k) :
    recordAccess s f = { s with history_list := eraseFid s.history_list f, buffer_list := eraseFid s.buffer_list f ++ [rec] } := by
  unfold recordAccess
  rw [hfr]
  dsimp only
  rw [if_neg hv]

/-- `RecordAccess` preserves the record-map invariants and does not change
which frames are evictable. -/
theorem recordAccess_inv (s : Replacer) (f : Nat) (hu : UniqIds s) (hb : BufWF s) :
    UniqIds (recordAccess s f) ∧ BufWF (recordAccess s f) ∧
      (∀ j, evictableIn (recordAccess s f) j ↔ evictableIn s j) := by
  cases hfr : findRec s f with
  | none =>
    rw [recordAccess_notfound s f hfr]
    have hno := findRec_none s f hfr
    refine ⟨?_, ?_, ?_⟩
    · unfold UniqIds
      show ((s.history_list ++ [(⟨f, 1, false⟩ : FrameRec)] ++ s.buffer_list).map
        (fun r => r.frame_id)).Nodup
      have hperm : (s.history_list ++ [(⟨f, 1, false⟩ : FrameRec)] ++ s.buffer_list).Perm
          ((⟨f, 1, false⟩ : FrameRec) :: (s.history_list ++ s.buffer_list)) := by
        rw [List.append_assoc]
        exact List.perm_middle
      rw [List.Perm.nodup_iff (List.Perm.map _ hperm)]
      rw [List.map_cons, List.nodup_cons]
      exact ⟨notin_map_of_forall_ne _ f hno, hu⟩
    · intro r hr
      exact hb r hr
    · intro j
      constructor
      · rintro ⟨r, hr, hj, he⟩
        rcases List.mem_append.mp hr with h2 | h2
        · rcases List.mem_append.mp h2 with h3 | h3
          · exact ⟨r, List.mem_append.mpr (Or.inl h3), hj, he⟩
          · exfalso
            have : r = (⟨f, 1, false⟩ : FrameRec) := by simpa using h3
            rw [this] at he
            exact absurd he (by simp)
        · exact ⟨r, List.mem_append.mpr (Or.inr h2), hj, he⟩
      · rintro ⟨r, hr, hj, he⟩
        rcases List.mem_append.mp hr with h2 | h2
        · exact ⟨r, List.mem_append.mpr (Or.inl (List.mem_append.mpr (Or.inl h2))), hj, he⟩
        · exact ⟨r, List.mem_append.mpr (Or.inr h2), hj, he⟩
  | some rec =>
    have hmem := (findRec_some s f rec hfr).1
    have hfid := (findRec_some s f rec hfr).2
    by_cases hv : rec.visit_cnt < s.k
    · have hrh : rec ∈ s.history_list := by
        rcases List.mem_append.mp hmem with h2 | h2
        · exact h2
        · exact absurd (hb rec h2) (by omega)
      by_cases hk : rec.visit_cnt + 1 = s.k
      · -- promotion to the buffer list
        rw [recordAccess_promote s f rec hfr hv hk]
        have hnoerase := no_fid_eraseFid s.history_list f (nodup_map_hist s hu)
        refine ⟨?_, ?_, ?_⟩
        · unfold UniqIds
          show ((eraseFid s.history_list f ++
            (s.buffer_list ++ [({ rec with visit_cnt := rec.visit_cnt + 1 } : FrameRec)])).map
              (fun r => r.frame_id)).Nodup
          have hperm : (eraseFid s.history_list f ++
              (s.buffer_list ++ [({ rec with visit_cnt := rec.visit_cnt + 1 } : FrameRec)])).Perm
              (({ rec with visit_cnt := rec.visit_cnt + 1 } : FrameRec) ::
                (eraseFid s.history_list f ++ s.buffer_list)) := by
            rw [← List.append_assoc]
            exact List.perm_append_comm
          rw [List.Perm.nodup_iff (List.Perm.map _ hperm)]
          rw [List.map_cons, List.nodup_cons]
          constructor
          · show rec.frame_id ∉ _
            rw [hfid]
            apply notin_map_of_forall_ne
            intro r hr
            rcases List.mem_append.mp hr with h2 | h2
            · exact hnoerase r h2
            · exact fun hc => uniq_disjoint s hu rec r hrh h2 (hfid.trans hc.symm)
          · have hsub : (eraseFid s.history_list f ++ s.buffer_list).Sublist
                (s.history_list ++ s.buffer_list) :=
              List.Sublist.append (List.eraseP_sublist _) (List.Sublist.refl _)
            exact List.Nodup.sublist (List.Sublist.map _ hsub) hu
        · intro r hr
          rcases List.mem_append.mp hr with h2 | h2
          · exact hb r h2
          · have : r = ({ rec with visit_cnt := rec.visit_cnt + 1 } : FrameRec) := by
              simpa using h2
            rw [this]
            show s.k ≤ rec.visit_cnt + 1
            omega
        · intro j
          constructor
          · rintro ⟨r, hr, hj, he⟩
            rcases List.mem_append.mp hr with h2 | h2
            · exact ⟨r, List.mem_append.mpr (Or.inl (List.mem_of_mem_eraseP h2)), hj, he⟩
            · rcases List.mem_append.mp h2 with h3 | h3
              · exact ⟨r, List.mem_append.mpr (Or.inr h3), hj, he⟩
              · have : r = ({ rec with visit_cnt := rec.visit_cnt + 1 } : FrameRec) := by
                  simpa using h3
                refine ⟨rec, hmem, ?_, ?_⟩
                · rw [← hj, this]
                · rw [this] at he
                  exact he
          · rintro ⟨r, hr, hj, he⟩
            by_cases hrf : r.frame_id = f
            · have : r = rec := uniq_unique s hu r rec hr hmem (hrf.trans hfid.symm)
              subst this
              refine ⟨{ r with visit_cnt := r.visit_cnt + 1 }, ?_, hj, he⟩
              apply List.mem_append.mpr
              right
              exact List.mem_append.mpr (Or.inr (by simp))
            · rcases List.mem_append.mp hr with h2 | h2
              · exact ⟨r, List.mem_append.mpr
                  (Or.inl (mem_eraseFid_of_mem_ne _ f r h2 hrf)), hj, he⟩
              · exact ⟨r, List.mem_append.mpr
                  (Or.inr (List.mem_append.mpr (Or.inl h2))), hj, he⟩
      · -- in-place visit increment in the history list
        rw [recordAccess_inplace s f rec hfr hv hk]
        refine ⟨?_, ?_, ?_⟩
        · unfold UniqIds
          show ((setRec s.history_list f ({ rec with visit_cnt := rec.visit_cnt + 1 } : FrameRec) ++
            s.buffer_list).map (fun r => r.frame_id)).Nodup
          rw [List.map_append,
            map_setRec s.history_list f ({ rec with visit_cnt := rec.visit_cnt + 1 } : FrameRec) hfid,
            ← List.map_append]
          exact hu
        · intro r hr
          exact hb r hr
        · intro j
          constructor
          · rintro ⟨r, hr, hj, he⟩
            rcases List.mem_append.mp hr with h2 | h2
            · rcases mem_setRec _ f _ r h2 with h3 | h3
              · exact ⟨r, List.mem_append.mpr (Or.inl h3), hj, he⟩
              · refine ⟨rec, hmem, ?_, ?_⟩
                · rw [← hj, h3]
                · rw [h3] at he
                  exact he
            · exact ⟨r, List.mem_append.mpr (Or.inr h2), hj, he⟩
          · rintro ⟨r, hr, hj, he⟩
            by_cases hrf : r.frame_id = f
            · have : r = rec := uniq_unique s hu r rec hr hmem (hrf.trans hfid.symm)
              subst this
              refine ⟨{ r with visit_cnt := r.visit_cnt + 1 }, ?_, hj, he⟩
              exact List.mem_append.mpr (Or.inl (mem_setRec_self _ f _ r hrh hrf))
            · rcases List.mem_append.mp hr with h2 | h2
              · exact ⟨r, List.mem_append.mpr
                  (Or.inl (mem_setRec_of_mem_ne _ f _ r h2 hrf)), hj, he⟩
              · exact ⟨r, List.mem_append.mpr (Or.inr h2), hj, he⟩
    · -- move to the tail of the buffer list
      rw [recordAccess_bufmove s f rec hfr hv]
      have hnoh := no_fid_eraseFid s.history_list f (nodup_map_hist s hu)
      have hnob := no_fid_eraseFid s.buffer_list f (nodup_map_buf s hu)
      refine ⟨?_, ?_, ?_⟩
      · unfold UniqIds
        show ((eraseFid s.history_list f ++ (eraseFid s.buffer_list f ++ [rec])).map
          (fun r => r.frame_id)).Nodup
        have hperm : (eraseFid s.history_list f ++ (eraseFid s.buffer_list f ++ [rec])).Perm
            (rec :: (eraseFid s.history_list f ++ eraseFid s.buffer_list f)) := by
          rw [← List.append_assoc]
          exact List.perm_append_comm
        rw [List.Perm.nodup_iff (List.Perm.map _ hperm)]
        rw [List.map_cons, List.nodup_cons]
        constructor
        · rw [hfid]
          apply notin_map_of_forall_ne
          intro r hr
          rcases List.mem_append.mp hr with h2 | h2
          · exact hnoh r h2
          · exact hnob r h2
        · have hsub : (eraseFid s.history_list f ++ eraseFid s.buffer_list f).Sublist
              (s.history_list ++ s.buffer_list) :=
            List.Sublist.append (List.eraseP_sublist _) (List.eraseP_sublist _)
          exact List.Nodup.sublist (List.Sublist.map _ hsub) hu
      · intro r hr
        rcases List.mem_append.mp hr with h2 | h2
        · exact hb r (List.mem_of_mem_eraseP h2)
        · have : r = rec := by simpa using h2
          rw [this]
          show s.k ≤ rec.visit_cnt
          omega
      · intro j
        constructor
        · rintro ⟨r, hr, hj, he⟩
          rcases List.mem_append.mp hr with h2 | h2
          · exact ⟨r, List.mem_append.mpr (Or.inl (List.mem_of_mem_eraseP h2)), hj, he⟩
          · rcases List.mem_append.mp h2 with h3 | h3
            · exact ⟨r, List.mem_append.mpr (Or.inr (List.mem_of_mem_eraseP h3)), hj, he⟩
            · have : r = rec := by simpa using h3
              exact ⟨rec, hmem, by rw [← hj, this], by rw [this] at he; exact he⟩
        · rintro ⟨r, hr, hj, he⟩
          by_cases hrf : r.frame_id = f
          · have : r = rec := uniq_unique s hu r rec hr hmem (hrf.trans hfid.symm)
            subst this
            exact ⟨r, List.mem_append.mpr (Or.inr (List.mem_append.mpr (Or.inr (by simp)))),
              hj, he⟩
          · rcases List.mem_append.mp hr with h2 | h2
            · exact ⟨r, List.mem_append.mpr
                (Or.inl (mem_eraseFid_of_mem_ne _ f r h2 hrf)), hj, he⟩
            · exact ⟨r, List.mem_append.mpr
                (Or.inr (List.mem_append.mpr (Or.inl (mem_eraseFid_of_mem_ne _ f r h2 hrf)))),
                hj, he⟩


end LRUK

namespace LRUK

theorem fid_mem_setRec :
    ∀ (l : List FrameRec) (fid : Nat) (nr q : FrameRec),
      ((l.map (fun r => r.frame_id)).Nodup) → q ∈ setRec l fid nr →
      q.frame_id = fid → q = nr := by
  intro l
  induction l with
  | nil => intro _ _ q _ h _; exact absurd h (List.not_mem_nil q)
  | cons r rs ih =>
    intro fid nr q hnd hq hqf
    have hnd2 : r.frame_id ∉ rs.map (fun x => x.frame_id) ∧
        ((rs.map (fun x => x.frame_id)).Nodup) := by
      rw [List.map_cons] at hnd
      exact ⟨(List.nodup_cons.mp hnd).1, (List.nodup_cons.mp hnd).2⟩
    unfold setRec at hq
    by_cases hr : r.frame_id = fid
    · rw [if_pos hr] at hq
      rcases List.mem_cons.mp hq with h2 | h2
      · exact h2
      · exfalso
        apply hnd2.1
        rw [hr, ← hqf]
        exact List.mem_map_of_mem _ h2
    · rw [if_neg hr] at hq
      rcases List.mem_cons.mp hq with h2 | h2
      · exfalso; rw [h2] at hqf; exact hr hqf
      · exact ih fid nr q hnd2.2 h2 hqf

theorem setEvictable_notfound (s : Replacer) (f : Nat) (bv : Bool)
    (hfr : findRec s f = none) : setEvictable s f bv = s := by
  unfold setEvictable
  rw [hfr]

theorem setEvictable_nochange (s : Replacer) (f : Nat) (bv : Bool) (rec : FrameRec)
    (hfr : findRec s f = some rec) (hbe : bv = rec.evictable) :
    setEvictable s f bv = s := by
  unfold setEvictable
  rw [hfr]
  dsimp only
  rw [if_pos hbe]

theorem setEvictable_change (s : Replacer) (f : Nat) (bv : Bool) (rec : FrameRec)
    (hfr : findRec s f = some rec) (hbe : ¬ bv = rec.evictable) :
    setEvictable s f bv = { s with
      history_list := setRec s.history_list f { rec with evictable := bv },
      buffer_list := setRec s.buffer_list f { rec with evictable := bv },
      evictable_cnt := if bv then s.evictable_cnt + 1 else s.evictable_cnt - 1 } := by
  unfold setEvictable
  rw [hfr]
  dsimp only
  rw [if_neg hbe]

theorem removeRec_notfound (s : Replacer) (f : Nat) (hfr : findRec s f = none) :
    removeRec s f = s := by
  unfold removeRec
  rw [hfr]

theorem removeRec_hist (s : Replacer) (f : Nat) (rec : FrameRec)
    (hfr : findRec s f = some rec) (hv : rec.visit_cnt < s.k) :
    removeRec s f = { s with history_list := eraseFid s.history_list f, evictable_cnt := s.evictable_cnt - 1 } := by
  unfold removeRec
  rw [hfr]
  dsimp only
  rw [if_pos hv]

theorem removeRec_buf (s : Replacer) (f : Nat) (rec : FrameRec)
    (hfr : findRec s f = some rec) (hv : ¬ rec.visit_cnt < s.k) :
    removeRec s f = { s with buffer_list := eraseFid s.buffer_list f, evictable_cnt := s.evictable_cnt - 1 } := by
  unfold removeRec
  rw [hfr]
  dsimp only
  rw [if_neg hv]

theorem not_evictableIn_of_findRec_none (s : Replacer) (f : Nat)
    (hfr : findRec s f = none) : ¬ evictableIn s f := by
  rintro ⟨r, hr, hj, _⟩
  exact findRec_none s f hfr r hr hj

/-- After `SetEvictable(f, false)`, frame `f` is not evictable. -/
theorem not_evictableIn_setEvictable_false (s : Replacer) (f : Nat) (hu : UniqIds s) :
    ¬ evictableIn (setEvictable s f false) f := by
  cases hfr : findRec s f with
  | none =>
    rw [setEvictable_notfound s f false hfr]
    exact not_evictableIn_of_findRec_none s f hfr
  | some rec =>
    have hmem := (findRec_some s f rec hfr).1
    have hfid := (findRec_some s f rec hfr).2
    by_cases hbe : (false : Bool) = rec.evictable
    · rw [setEvictable_nochange s f false rec hfr hbe]
      rintro ⟨r, hr, hj, he⟩
      have : r = rec := uniq_unique s hu r rec hr hmem (hj.trans hfid.symm)
      rw [this, ← hbe] at he
      exact absurd he (by simp)
    · rw [setEvictable_change s f false rec hfr hbe]
      rintro ⟨r, hr, hj, he⟩
      have hrrec : r = { rec with evictable := false } := by
        rcases List.mem_append.mp hr with h2 | h2
        · exact fid_mem_setRec _ f _ r (nodup_map_hist s hu) h2 hj
        · exact fid_mem_setRec _ f _ r (nodup_map_buf s hu) h2 hj
      rw [hrrec] at he
      exact absurd he (by simp)

/-- `SetEvictable` on frame `f` does not change any other frame's
evictability. -/
theorem evictableIn_setEvictable_ne (s : Replacer) (f : Nat) (bv : Bool) (j : Nat)
    (hj : j ≠ f) : evictableIn (setEvictable s f bv) j ↔ evictableIn s j := by
  cases hfr : findRec s f with
  | none => rw [setEvictable_notfound s f bv hfr]
  | some rec =>
    by_cases hbe : bv = rec.evictable
    · rw [setEvictable_nochange s f bv rec hfr hbe]
    · rw [setEvictable_change s f bv rec hfr hbe]
      constructor
      · rintro ⟨r, hr, hjr, he⟩
        rcases List.mem_append.mp hr with h2 | h2
        · rcases mem_setRec _ f _ r h2 with h3 | h3
          · exact ⟨r, List.mem_append.mpr (Or.inl h3), hjr, he⟩
          · exfalso
            apply hj
            rw [← hjr, h3]
            show rec.frame_id = f
            exact (findRec_some s f rec hfr).2
        · rcases mem_setRec _ f _ r h2 with h3 | h3
          · exact ⟨r, List.mem_append.mpr (Or.inr h3), hjr, he⟩
          · exfalso
            apply hj
            rw [← hjr, h3]
            show rec.frame_id = f
            exact (findRec_some s f rec hfr).2
      · rintro ⟨r, hr, hjr, he⟩
        have hrf : r.frame_id ≠ f := by rw [hjr]; exact hj
        rcases List.mem_append.mp hr with h2 | h2
        · exact ⟨r, List.mem_append.mpr (Or.inl (mem_setRec_of_mem_ne _ f _ r h2 hrf)), hjr, he⟩
        · exact ⟨r, List.mem_append.mpr (Or.inr (mem_setRec_of_mem_ne _ f _ r h2 hrf)), hjr, he⟩

/-- `SetEvictable` preserves the record-map invariants. -/
theorem setEvictable_inv (s : Replacer) (f : Nat) (bv : Bool)
    (hu : UniqIds s) (hb : BufWF s) :
    UniqIds (setEvictable s f bv) ∧ BufWF (setEvictable s f bv) := by
  cases hfr : findRec s f with
  | none => rw [setEvictable_notfound s f bv hfr]; exact ⟨hu, hb⟩
  | some rec =>
    have hmem := (findRec_some s f rec hfr).1
    have hfid := (findRec_some s f rec hfr).2
    by_cases hbe : bv = rec.evictable
    · rw [setEvictable_nochange s f bv rec hfr hbe]; exact ⟨hu, hb⟩
    · rw [setEvictable_change s f bv rec hfr hbe]
      constructor
      · unfold UniqIds
        show ((setRec s.history_list f { rec with evictable := bv } ++
          setRec s.buffer_list f { rec with evictable := bv }).map
            (fun r => r.frame_id)).Nodup
        rw [List.map_append,
          map_setRec _ f _ (show ({ rec with evictable := bv } : FrameRec).frame_id = f from hfid),
          map_setRec _ f _ (show ({ rec with evictable := bv } : FrameRec).frame_id = f from hfid),
          ← List.map_append]
        exact hu
      · intro r hr
        show s.k ≤ r.visit_cnt
        rcases mem_setRec _ f _ r hr with h2 | h2
        · exact hb r h2
        · rcases List.mem_append.mp hmem with h3 | h3
          · exfalso
            have hnom : ∀ r0 ∈ s.buffer_list, r0.frame_id ≠ f := by
              intro r0 hr0
              exact fun hc => uniq_disjoint s hu rec r0 h3 hr0 (hfid.trans hc.symm)
            rw [setRec_eq_of_no_match _ f _ hnom] at hr
            exact (hnom r hr) (by rw [h2]; exact hfid)
          · have := hb rec h3
            rw [h2]
            exact this

/-- A successful `EvictInternal` only removes a record: invariants are
preserved and no frame becomes evictable. -/
theorem evictInternal_inv (s : Replacer) (r : Option Nat) (s2 : Replacer)
    (h : evictInternal s = some (r, s2)) :
    (UniqIds s → UniqIds s2) ∧ (BufWF s → BufWF s2) ∧
      (∀ j, evictableIn s2 j → evictableIn s j) := by
  unfold evictInternal at h
  by_cases h0 : s.evictable_cnt = 0
  · rw [if_pos h0] at h
    have : s2 = s := by
      have := (Prod.mk.injEq _ _ _ _).mp (Option.some_injective _ h)
      exact this.2.symm
    subst this
    exact ⟨id, id, fun _ => id⟩
  · rw [if_neg h0] at h
    cases hh : s.history_list.find? (fun r => r.evictable) with
    | some rr =>
      rw [hh] at h
      have hs2 : s2 = { s with history_list := s.history_list.eraseP (fun x => x.evictable), evictable_cnt := s.evictable_cnt - 1 } := by
        have := (Prod.mk.injEq _ _ _ _).mp (Option.some_injective _ h)
        exact this.2.symm
      subst hs2
      refine ⟨?_, ?_, ?_⟩
      · intro hu
        unfold UniqIds
        show ((s.history_list.eraseP (fun x => x.evictable) ++ s.buffer_list).map
          (fun r => r.frame_id)).Nodup
        exact List.Nodup.sublist
          (List.Sublist.map _ (List.Sublist.append (List.eraseP_sublist _) (List.Sublist.refl _)))
          hu
      · intro hb q hq
        exact hb q hq
      · rintro j ⟨q, hq, hjq, he⟩
        rcases List.mem_append.mp hq with h2 | h2
        · exact ⟨q, List.mem_append.mpr (Or.inl (List.mem_of_mem_eraseP h2)), hjq, he⟩
        · exact ⟨q, List.mem_append.mpr (Or.inr h2), hjq, he⟩
    | none =>
      rw [hh] at h
      cases hb2 : s.buffer_list.find? (fun r => r.evictable) with
      | some rr =>
        rw [hb2] at h
        have hs2 : s2 = { s with buffer_list := s.buffer_list.eraseP (fun x => x.evictable), evictable_cnt := s.evictable_cnt - 1 } := by
          have := (Prod.mk.injEq _ _ _ _).mp (Option.some_injective _ h)
          exact this.2.symm
        subst hs2
        refine ⟨?_, ?_, ?_⟩
        · intro hu
          unfold UniqIds
          show ((s.history_list ++ s.buffer_list.eraseP (fun x => x.evictable)).map
            (fun r => r.frame_id)).Nodup
          exact List.Nodup.sublist
            (List.Sublist.map _
              (List.Sublist.append (List.Sublist.refl _) (List.eraseP_sublist _)))
            hu
        · intro hb q hq
          exact hb q (List.mem_of_mem_eraseP hq)
        · rintro j ⟨q, hq, hjq, he⟩
          rcases List.mem_append.mp hq with h2 | h2
          · exact ⟨q, List.mem_append.mpr (Or.inl h2), hjq, he⟩
          · exact ⟨q, List.mem_append.mpr (Or.inr (List.mem_of_mem_eraseP h2)), hjq, he⟩
      | none =>
        rw [hb2] at h
        exact absurd h (by simp)

/-- `Remove` only erases a record: invariants preserved, no frame becomes
evictable. -/
theorem removeRec_inv (s : Replacer) (f : Nat) :
    (UniqIds s → UniqIds (removeRec s f)) ∧ (BufWF s → BufWF (removeRec s f)) ∧
      (∀ j, evictableIn (removeRec s f) j → evictableIn s j) := by
  cases hfr : findRec s f with
  | none => rw [removeRec_notfound s f hfr]; exact ⟨id, id, fun _ => id⟩
  | some rec =>
    by_cases hv : rec.visit_cnt < s.k
    · rw [removeRec_hist s f rec hfr hv]
      refine ⟨?_, ?_, ?_⟩
      · intro hu
        unfold UniqIds
        show ((eraseFid s.history_list f ++ s.buffer_list).map (fun r => r.frame_id)).Nodup
        exact List.Nodup.sublist
          (List.Sublist.map _ (List.Sublist.append (List.eraseP_sublist _) (List.Sublist.refl _)))
          hu
      · intro hb q hq
        exact hb q hq
      · rintro j ⟨q, hq, hjq, he⟩
        rcases List.mem_append.mp hq with h2 | h2
        · exact ⟨q, List.mem_append.mpr (Or.inl (List.mem_of_mem_eraseP h2)), hjq, he⟩
        · exact ⟨q, List.mem_append.mpr (Or.inr h2), hjq, he⟩
    · rw [removeRec_buf s f rec hfr hv]
      refine ⟨?_, ?_, ?_⟩
      · intro hu
        unfold UniqIds
        show ((s.history_list ++ eraseFid s.buffer_list f).map (fun r => r.frame_id)).Nodup
        exact List.Nodup.sublist
          (List.Sublist.map _ (List.Sublist.append (List.Sublist.refl _) (List.eraseP_sublist _)))
          hu
      · intro hb q hq
        exact hb q (List.mem_of_mem_eraseP hq)
      · rintro j ⟨q, hq, hjq, he⟩
        rcases List.mem_append.mp hq with h2 | h2
        · exact ⟨q, List.mem_append.mpr (Or.inl h2), hjq, he⟩
        · exact ⟨q, List.mem_append.mpr (Or.inr (List.mem_of_mem_eraseP h2)), hjq, he⟩

/-- With full list placement, `Remove(f)` leaves `f` untracked. -/
theorem removeRec_untracked (s : Replacer) (f : Nat) (hw : ListWF s) :
    findRec (removeRec s f) f = none := by
  obtain ⟨hu, hh, hbw⟩ := hw
  cases hfr : findRec s f with
  | none => rw [removeRec_notfound s f hfr]; exact hfr
  | some rec =>
    have hmem := (findRec_some s f rec hfr).1
    have hfid := (findRec_some s f rec hfr).2
    by_cases hv : rec.visit_cnt < s.k
    · rw [removeRec_hist s f rec hfr hv]
      have hrh : rec ∈ s.history_list := by
        rcases List.mem_append.mp hmem with h2 | h2
        · exact h2
        · exact absurd (hbw rec h2) (by omega)
      unfold findRec
      have h1 : (eraseFid s.history_list f).find? (fun r => r.frame_id == f) = none := by
        rw [List.find?_eq_none]
        intro q hq
        simpa using no_fid_eraseFid s.history_list f (nodup_map_hist s hu) q hq
      have h2 : s.buffer_list.find? (fun r => r.frame_id == f) = none := by
        rw [List.find?_eq_none]
        intro q hq
        simpa using fun hc => uniq_disjoint s hu rec q hrh hq (hfid.trans hc.symm)
      show (match (eraseFid s.history_list f).find? (fun r => r.frame_id == f) with
        | some r => some r
        | none => s.buffer_list.find? (fun r => r.frame_id == f)) = none
      rw [h1, h2]
    · rw [removeRec_buf s f rec hfr hv]
      have hrb : rec ∈ s.buffer_list := by
        rcases List.mem_append.mp hmem with h2 | h2
        · exact absurd (hh rec h2) hv
        · exact h2
      unfold findRec
      have h1 : s.history_list.find? (fun r => r.frame_id == f) = none := by
        rw [List.find?_eq_none]
        intro q hq
        simpa using fun hc => uniq_disjoint s hu q rec hq hrb (hc.trans hfid.symm)
      have h2 : (eraseFid s.buffer_list f).find? (fun r => r.frame_id == f) = none := by
        rw [List.find?_eq_none]
        intro q hq
        simpa using no_fid_eraseFid s.buffer_list f (nodup_map_buf s hu) q hq
      show (match s.history_list.find? (fun r => r.frame_id == f) with
        | some r => some r
        | none => (eraseFid s.buffer_list f).find? (fun r => r.frame_id == f)) = none
      rw [h1, h2]

end LRUK

namespace BPM

theorem pidHash_lt (p : Int) : pidHash p < 2 ^ 64 := by
  unfold pidHash
  have h0 : (0 : Int) ≤ p % (2 : Int) ^ 64 := Int.emod_nonneg p (by positivity)
  have h1 : p % (2 : Int) ^ 64 < (2 : Int) ^ 64 := Int.emod_lt_of_pos p (by positivity)
  have h2 : ((2 : Int) ^ 64) = (18446744073709551616 : Int) := by norm_num
  rw [h2] at h1
  show (p % (2 : Int) ^ 64).toNat < 18446744073709551616
  omega

theorem diskWrite_any (disk : List (Int × Nat)) (p : Int) (d : Nat) :
    (diskWrite disk p d).any (fun e => e.1 == p) = true := by
  unfold diskWrite
  by_cases hP : disk.any (fun e => e.1 == p) = true
  · rw [if_pos hP]
    rcases List.any_eq_true.mp hP with ⟨e, he, hep⟩
    apply List.any_eq_true.mpr
    refine ⟨(p, d), List.mem_map.mpr ⟨e, he, ?_⟩, by simp⟩
    rw [if_pos (by simpa using hep)]
  · rw [if_neg hP]
    apply List.any_eq_true.mpr
    exact ⟨(p, d), List.mem_append.mpr (Or.inr (List.mem_cons_self _ _)), by simp⟩


theorem diskWrite_eq_map (disk : List (Int × Nat)) (p : Int) (d : Nat)
    (hP : disk.any (fun e => e.1 == p) = true) :
    diskWrite disk p d = disk.map (fun e => if e.1 = p then (p, d) else e) := by
  unfold diskWrite
  rw [if_pos hP]

theorem diskWrite_eq_append (disk : List (Int × Nat)) (p : Int) (d : Nat)
    (hP : ¬ disk.any (fun e => e.1 == p) = true) :
    diskWrite disk p d = disk ++ [(p, d)] := by
  unfold diskWrite
  rw [if_neg hP]

theorem diskWrite_diskWrite (disk : List (Int × Nat)) (p : Int) (d : Nat) :
    diskWrite (diskWrite disk p d) p d = diskWrite disk p d := by
  by_cases hP : disk.any (fun e => e.1 == p) = true
  · rw [diskWrite_eq_map disk p d hP]
    have hany2 : (disk.map (fun e => if e.1 = p then ((p, d) : Int × Nat) else e)).any
        (fun e => e.1 == p) = true := by
      rcases List.any_eq_true.mp hP with ⟨e, he, hep⟩
      apply List.any_eq_true.mpr
      refine ⟨(p, d), List.mem_map.mpr ⟨e, he, ?_⟩, by simp⟩
      rw [if_pos (by simpa using hep)]
    rw [diskWrite_eq_map _ p d hany2, List.map_map]
    apply List.map_congr_left
    intro e _
    show (if (if e.1 = p then ((p, d) : Int × Nat) else e).1 = p then ((p, d) : Int × Nat)
      else if e.1 = p then (p, d) else e) = if e.1 = p then (p, d) else e
    by_cases hep : e.1 = p
    · rw [if_pos hep, if_pos rfl]
    · rw [if_neg hep, if_neg hep]
  · rw [diskWrite_eq_append disk p d hP]
    have hany2 : ((disk ++ [(p, d)]).any (fun e => e.1 == p)) = true := by
      apply List.any_eq_true.mpr
      exact ⟨(p, d), List.mem_append.mpr (Or.inr (List.mem_cons_self _ _)), by simp⟩
    rw [diskWrite_eq_map _ p d hany2, List.map_append]
    have hdisk : disk.map (fun e => if e.1 = p then ((p, d) : Int × Nat) else e) = disk := by
      have h1 : ∀ e ∈ disk, (if e.1 = p then ((p, d) : Int × Nat) else e) = e := by
        intro e he
        rw [if_neg]
        intro hc
        exact hP (List.any_eq_true.mpr ⟨e, he, by simpa using hc⟩)
      calc disk.map (fun e => if e.1 = p then ((p, d) : Int × Nat) else e)
          = disk.map id := List.map_congr_left h1
        _ = disk := List.map_id disk
    rw [hdisk]
    show disk ++ [if (p : Int) = p then ((p, d) : Int × Nat) else (p, d)] = disk ++ [(p, d)]
    rw [if_pos rfl]

theorem frame_clear_dirty_eq (fr : Frame) (h : fr.is_dirty = false) :
    { fr with is_dirty := false } = fr := by
  cases fr with
  | mk pid pc dirty data =>
    have h2 : dirty = false := h
    show Frame.mk pid pc false data = Frame.mk pid pc dirty data
    rw [h2]

end BPM

namespace Util

theorem getD_set {α : Type} (v d : α) (l : List α) (i : Nat) :
    (l.set i v).getD i d = if i < l.length then v else d := by
  by_cases h : i < l.length
  · rw [if_pos h]
    exact getD_set_self v d l i h
  · rw [if_neg h]
    have h2 : (l.set i v).length ≤ i := by rw [length_set_eq]; omega
    rw [List.getD_eq_default _ _ h2]


end Util

namespace BPM

/-- The pool after `FlushPgImpInternal` finds `page_id` resident at frame
`fid`: disk updated with the frame's bytes, dirty flag cleared. -/
def flushedPool (s : Pool) (p : Int) (fid : Nat) : Pool :=
  { s with disk := diskWrite s.disk p (getFrame s fid).data,
           pages := s.pages.set fid { getFrame s fid with is_dirty := false } }

theorem flushPage_resident (s : Pool) (p : Int) (fid : Nat)
    (hp : p ≠ INVALID_PAGE_ID) (hf : ptFind s.page_table p = some fid) :
    flushPage s p = some (true, flushedPool s p fid) := by
  unfold flushPage flushedPool
  rw [if_neg hp, hf]

theorem flushedPool_dirty (s : Pool) (p : Int) (fid : Nat) :
    (getFrame (flushedPool s p fid) fid).is_dirty = false := by
  show (((s.pages.set fid { getFrame s fid with is_dirty := false }).getD fid
    ({} : Frame)).is_dirty) = false
  rw [Util.getD_set]
  by_cases hlt : fid < s.pages.length
  · rw [if_pos hlt]
  · rw [if_neg hlt]

theorem flushedPool_data (s : Pool) (p : Int) (fid : Nat) :
    (getFrame (flushedPool s p fid) fid).data = (getFrame s fid).data := by
  show (((s.pages.set fid { getFrame s fid with is_dirty := false }).getD fid
    ({} : Frame)).data) = (getFrame s fid).data
  rw [Util.getD_set]
  by_cases hlt : fid < s.pages.length
  · rw [if_pos hlt]
  · rw [if_neg hlt]
    show (({} : Frame)).data = (s.pages.getD fid ({} : Frame)).data
    rw [List.getD_eq_default _ _ (by omega : s.pages.length ≤ fid)]

theorem flushedPool_idem (s : Pool) (p : Int) (fid : Nat) :
    flushedPool (flushedPool s p fid) p fid = flushedPool s p fid := by
  show { flushedPool s p fid with
      disk := diskWrite (flushedPool s p fid).disk p
        (getFrame (flushedPool s p fid) fid).data,
      pages := (flushedPool s p fid).pages.set fid
        { getFrame (flushedPool s p fid) fid with is_dirty := false } }
    = flushedPool s p fid
  rw [frame_clear_dirty_eq _ (flushedPool_dirty s p fid)]
  rw [flushedPool_data]
  rw [show getFrame (flushedPool s p fid) fid
    = (flushedPool s p fid).pages.getD fid ({} : Frame) from rfl]
  rw [Util.set_getD_eq_self]
  rw [show (flushedPool s p fid).disk = diskWrite s.disk p (getFrame s fid).data from rfl]
  rw [diskWrite_diskWrite]
  rfl

end BPM

/-- C10: `flush_page` on a non-`INVALID` page id returns whether the page is
resident; when resident it writes the frame's bytes to disk unconditionally
and clears the dirty flag; an immediately repeated `flush_page` returns the
same boolean, the identical pool state, and the same disk contents. -/
theorem C10_flush_idempotent (s : BPM.Pool) (p : Int) (hp : p ≠ BPM.INVALID_PAGE_ID) :
    ∃ b s1, BPM.flushPage s p = some (b, s1) ∧
      (b = true ↔ (BPM.ptFind s.page_table p).isSome = true) ∧
      (∀ fid, BPM.ptFind s.page_table p = some fid →
        s1.disk = BPM.diskWrite s.disk p (BPM.getFrame s fid).data ∧
        (BPM.getFrame s1 fid).is_dirty = false) ∧
      BPM.flushPage s1 p = some (b, s1) := by
  cases hf : BPM.ptFind s.page_table p with
  | none =>
    have hres : BPM.flushPage s p = some (false, s) := by
      unfold BPM.flushPage
      rw [if_neg hp, hf]
    refine ⟨false, s, hres, by simp, ?_, hres⟩
    intro fid hfid
    exact absurd hfid (by simp)
  | some fid =>
    refine ⟨true, BPM.flushedPool s p fid, BPM.flushPage_resident s p fid hp hf,
      by simp, ?_, ?_⟩
    · intro fid2 hfid2
      have hfe : fid2 = fid := (Option.some_injective _ hfid2.symm)
      subst hfe
      exact ⟨rfl, BPM.flushedPool_dirty s p fid2⟩
    · have hf2 : BPM.ptFind (BPM.flushedPool s p fid).page_table p = some fid := hf
      have := BPM.flushPage_resident (BPM.flushedPool s p fid) p fid hp hf2
      rw [BPM.flushedPool_idem] at this
      exact this

namespace LRUK

/-- After `SetEvictable(f, true)` on a tracked frame, `f` is evictable. -/
theorem evictableIn_setEvictable_true (s : Replacer) (f : Nat) (rec : FrameRec)
    (hfr : findRec s f = some rec) : evictableIn (setEvictable s f true) f := by
  have hmem := (findRec_some s f rec hfr).1
  have hfid := (findRec_some s f rec hfr).2
  by_cases hbe : (true : Bool) = rec.evictable
  · rw [setEvictable_nochange s f true rec hfr hbe]
    exact ⟨rec, hmem, hfid, hbe.symm⟩
  · rw [setEvictable_change s f true rec hfr hbe]
    refine ⟨{ rec with evictable := true }, ?_, hfid, rfl⟩
    rcases List.mem_append.mp hmem with h2 | h2
    · exact List.mem_append.mpr (Or.inl (mem_setRec_self _ f _ rec h2 hfid))
    · exact List.mem_append.mpr (Or.inr (mem_setRec_self _ f _ rec h2 hfid))

end LRUK

namespace BPM

theorem getFrame_default_of_ge (s : Pool) (i : Nat) (h : s.pages.length ≤ i) :
    getFrame s i = {} := List.getD_eq_default _ _ h

theorem pin_pos_lt (s : Pool) (i : Nat) (h : 0 < (getFrame s i).pin_count) :
    i < s.pages.length := by
  by_contra hc
  rw [getFrame_default_of_ge s i (by omega)] at h
  exact absurd h (by simp)

theorem unpin_notfound (s : Pool) (p : Int) (d : Bool)
    (hf : ptFind s.page_table p = none) : unpinPage s p d = (false, s) := by
  unfold unpinPage
  rw [hf]

theorem unpin_zero (s : Pool) (p : Int) (d : Bool) (fid : Nat)
    (hf : ptFind s.page_table p = some fid) (h0 : (getFrame s fid).pin_count = 0) :
    unpinPage s p d = (false, s) := by
  unfold unpinPage
  rw [hf]
  dsimp only
  rw [if_pos h0]

theorem unpin_pos (s : Pool) (p : Int) (d : Bool) (fid : Nat)
    (hf : ptFind s.page_table p = some fid) (h0 : ¬ (getFrame s fid).pin_count = 0) :
    unpinPage s p d = (true, { s with
      replacer := if (getFrame s fid).pin_count - 1 = 0
        then LRUK.setEvictable s.replacer fid true else s.replacer,
      pages := s.pages.set fid { getFrame s fid with
        pin_count := (getFrame s fid).pin_count - 1,
        is_dirty := (getFrame s fid).is_dirty || d } }) := by
  unfold unpinPage
  rw [hf]
  dsimp only
  rw [if_neg h0]

end BPM

/-- C1: `unpin_page(p, d)` returns `false` when `p` is not resident or the
frame's pin count is already 0, leaving the state unchanged; otherwise it
returns `true`, decrements the pin count, ORs `d` into the dirty flag, and
calls `SetEvictable(fid, true)` on the replacer exactly when the decremented
pin count is 0 (making a tracked frame evictable). -/
theorem C1_unpin_contract (s : BPM.Pool) (p : Int) (d : Bool) :
    (BPM.ptFind s.page_table p = none → BPM.unpinPage s p d = (false, s)) ∧
    (∀ fid, BPM.ptFind s.page_table p = some fid →
      ((BPM.getFrame s fid).pin_count = 0 → BPM.unpinPage s p d = (false, s)) ∧
      (0 < (BPM.getFrame s fid).pin_count →
        (BPM.unpinPage s p d).1 = true ∧
        (BPM.getFrame (BPM.unpinPage s p d).2 fid).pin_count
          = (BPM.getFrame s fid).pin_count - 1 ∧
        (BPM.getFrame (BPM.unpinPage s p d).2 fid).is_dirty
          = ((BPM.getFrame s fid).is_dirty || d) ∧
        (BPM.getFrame (BPM.unpinPage s p d).2 fid).page_id
          = (BPM.getFrame s fid).page_id ∧
        ((BPM.getFrame s fid).pin_count - 1 = 0 →
          (BPM.unpinPage s p d).2.replacer = LRUK.setEvictable s.replacer fid true ∧
          (∀ rec, LRUK.findRec s.replacer fid = some rec →
            LRUK.evictableIn (BPM.unpinPage s p d).2.replacer fid)) ∧
        (¬ (BPM.getFrame s fid).pin_count - 1 = 0 →
          (BPM.unpinPage s p d).2.replacer = s.replacer))) := by
  constructor
  · intro hf
    exact BPM.unpin_notfound s p d hf
  · intro fid hf
    constructor
    · intro h0
      exact BPM.unpin_zero s p d fid hf h0
    · intro hpos
      have h0 : ¬ (BPM.getFrame s fid).pin_count = 0 := by omega
      have hlt : fid < s.pages.length := BPM.pin_pos_lt s fid hpos
      rw [BPM.unpin_pos s p d fid hf h0]
      have hget : BPM.getFrame ({ s with
          replacer := if (BPM.getFrame s fid).pin_count - 1 = 0
            then LRUK.setEvictable s.replacer fid true else s.replacer,
          pages := s.pages.set fid { BPM.getFrame s fid with
            pin_count := (BPM.getFrame s fid).pin_count - 1,
            is_dirty := (BPM.getFrame s fid).is_dirty || d } } : BPM.Pool) fid
          = { BPM.getFrame s fid with
            pin_count := (BPM.getFrame s fid).pin_count - 1,
            is_dirty := (BPM.getFrame s fid).is_dirty || d } := by
        show (s.pages.set fid { BPM.getFrame s fid with
            pin_count := (BPM.getFrame s fid).pin_count - 1,
            is_dirty := (BPM.getFrame s fid).is_dirty || d }).getD fid ({} : BPM.Frame)
          = { BPM.getFrame s fid with
            pin_count := (BPM.getFrame s fid).pin_count - 1,
            is_dirty := (BPM.getFrame s fid).is_dirty || d }
        rw [Util.getD_set, if_pos hlt]
      refine ⟨rfl, by rw [hget], by rw [hget], by rw [hget], ?_, ?_⟩
      · intro hpc0
        constructor
        · show (if (BPM.getFrame s fid).pin_count - 1 = 0
            then LRUK.setEvictable s.replacer fid true else s.replacer)
              = LRUK.setEvictable s.replacer fid true
          rw [if_pos hpc0]
        · intro rec hrec
          show LRUK.evictableIn (if (BPM.getFrame s fid).pin_count - 1 = 0
            then LRUK.setEvictable s.replacer fid true else s.replacer) fid
          rw [if_pos hpc0]
          exact LRUK.evictableIn_setEvictable_true s.replacer fid rec hrec
      · intro hpc0
        show (if (BPM.getFrame s fid).pin_count - 1 = 0
          then LRUK.setEvictable s.replacer fid true else s.replacer) = s.replacer
        rw [if_neg hpc0]

/-- A small reachable pool: `mkPool 2 4 2` after one `new_page`, which pins
page 0 in frame 1. -/
def poolA : BPM.Pool := ((BPM.newPage (BPM.mkPool 2 4 2)).getD (none, 0, BPM.mkPool 2 4 2)).2.2

/-- Witness for C1 at a concrete pool: page 0 is resident in frame 1 with
positive pin count, and unpinning returns `true`. -/
theorem C1_unpin_contract_witness :
    BPM.ptFind poolA.page_table 0 = some 1 ∧ 0 < (BPM.getFrame poolA 1).pin_count ∧
    (BPM.unpinPage poolA 0 true).1 = true :=
  ⟨by decide, by decide, (((C1_unpin_contract poolA 0 true).2 1 (by decide)).2 (by decide)).1⟩

/-- Witness for C10 at a concrete pool: page 0 is a valid page id, and the
flush contract (including idempotence) holds for it. -/
theorem C10_flush_idempotent_witness :
    (0 : Int) ≠ BPM.INVALID_PAGE_ID ∧
    (∃ b s1, BPM.flushPage poolA 0 = some (b, s1) ∧
      (b = true ↔ (BPM.ptFind poolA.page_table 0).isSome = true) ∧
      (∀ fid, BPM.ptFind poolA.page_table 0 = some fid →
        s1.disk = BPM.diskWrite poolA.disk 0 (BPM.getFrame poolA fid).data ∧
        (BPM.getFrame s1 fid).is_dirty = false) ∧
      BPM.flushPage s1 0 = some (b, s1)) :=
  ⟨by decide, C10_flush_idempotent poolA 0 (by decide)⟩

/-- C2: when `p` is not resident, `UnpinPgImp` still write-latches
`pages_[fid]` with `fid` read uninitialized (modelled by the `junk`
parameter of `unpinLatchIndex`), so the frame-array access is NOT confined
to `[0, pool_size)`: with indeterminate value 3 on a pool of size 3 the
accessed index is out of range.  The modelled state itself is returned
unchanged. -/
theorem C2_unpin_nonresident_oob :
    BPM.ptFind (BPM.mkPool 3 4 2).page_table 7 = none ∧
    BPM.unpinLatchIndex (BPM.mkPool 3 4 2) 7 3 = 3 ∧
    ¬ 3 < (BPM.mkPool 3 4 2).pool_size ∧
    BPM.unpinPage (BPM.mkPool 3 4 2) 7 false = (false, BPM.mkPool 3 4 2) := by
  decide

namespace BPM

theorem delete_notfound (s : Pool) (p : Int)
    (hf : ptFind s.page_table p = none) : deletePage s p = (true, s) := by
  unfold deletePage
  rw [hf]

theorem delete_pinned (s : Pool) (p : Int) (fid : Nat)
    (hf : ptFind s.page_table p = some fid)
    (hpin : (getFrame s fid).pin_count > 0) : deletePage s p = (false, s) := by
  unfold deletePage
  rw [hf]
  dsimp only
  rw [if_pos hpin]

theorem delete_free (s : Pool) (p : Int) (fid : Nat)
    (hf : ptFind s.page_table p = some fid)
    (hpin : ¬ (getFrame s fid).pin_count > 0) :
    deletePage s p = (true, { s with
      replacer := LRUK.removeRec s.replacer fid,
      disk := if (getFrame s fid).is_dirty
        then diskWrite s.disk p (getFrame s fid).data else s.disk,
      page_table := (ptRemove s.page_table p).1,
      pages := s.pages.set fid { getFrame s fid with
        page_id := INVALID_PAGE_ID, pin_count := 0, is_dirty := false },
      free_list := s.free_list ++ [fid] }) := by
  unfold deletePage
  rw [hf]
  dsimp only
  rw [if_neg hpin]

end BPM

/-- C7: `delete_page(p)` returns `true` with no state change when `p` is not
resident; returns `false` with no state change when the resident frame is
still pinned; otherwise it flushes the frame to disk iff dirty, removes `p`
from the page table, removes the frame from the replacer, resets the frame
to `INVALID_PAGE_ID` / pin 0 / clean, appends the frame to the free list,
and returns `true`. -/
theorem C7_delete_page (s : BPM.Pool) (p : Int)
    (hwf : EHT.WF BPM.pidHash s.page_table) (hlw : LRUK.ListWF s.replacer) :
    (BPM.ptFind s.page_table p = none → BPM.deletePage s p = (true, s)) ∧
    (∀ fid, BPM.ptFind s.page_table p = some fid →
      (0 < (BPM.getFrame s fid).pin_count → BPM.deletePage s p = (false, s)) ∧
      ((BPM.getFrame s fid).pin_count = 0 →
        (BPM.deletePage s p).1 = true ∧
        ((BPM.deletePage s p).2.disk = if (BPM.getFrame s fid).is_dirty = true
          then BPM.diskWrite s.disk p (BPM.getFrame s fid).data else s.disk) ∧
        BPM.ptFind (BPM.deletePage s p).2.page_table p = none ∧
        LRUK.findRec (BPM.deletePage s p).2.replacer fid = none ∧
        (fid < s.pages.length →
          BPM.getFrame (BPM.deletePage s p).2 fid
            = { page_id := BPM.INVALID_PAGE_ID, pin_count := 0, is_dirty := false,
                data := (BPM.getFrame s fid).data }) ∧
        (BPM.deletePage s p).2.free_list = s.free_list ++ [fid])) := by
  constructor
  · intro hf
    exact BPM.delete_notfound s p hf
  · intro fid hf
    constructor
    · intro hpin
      exact BPM.delete_pinned s p fid hf hpin
    · intro hpin0
      have hpin : ¬ (BPM.getFrame s fid).pin_count > 0 := by omega
      rw [BPM.delete_free s p fid hf hpin]
      refine ⟨rfl, rfl, ?_, ?_, ?_, rfl⟩
      · exact (EHT.remove_spec BPM.pidHash s.page_table p hwf).2.1
      · exact LRUK.removeRec_untracked s.replacer fid hlw
      · intro hlt
        show (s.pages.set fid { BPM.getFrame s fid with
            page_id := BPM.INVALID_PAGE_ID, pin_count := 0, is_dirty := false }).getD fid
            ({} : BPM.Frame)
          = { page_id := BPM.INVALID_PAGE_ID, pin_count := 0, is_dirty := false,
              data := (BPM.getFrame s fid).data }
        rw [Util.getD_set, if_pos hlt]

/-- The pool `poolA` after unpinning page 0: frame 1 has pin count 0 and is
evictable. -/
def poolB : BPM.Pool := (BPM.unpinPage poolA 0 false).2

/-- Witness for C7 at a concrete pool: the hypotheses hold and deleting the
unpinned resident page 0 succeeds, removing it from the page table. -/
theorem C7_delete_page_witness :
    EHT.WF BPM.pidHash poolB.page_table ∧ LRUK.ListWF poolB.replacer ∧
    BPM.ptFind poolB.page_table 0 = some 1 ∧ (BPM.getFrame poolB 1).pin_count = 0 ∧
    (BPM.deletePage poolB 0).1 = true ∧
    BPM.ptFind (BPM.deletePage poolB 0).2.page_table 0 = none :=
  ⟨by decide, by decide, by decide, by decide,
   (((C7_delete_page poolB 0 (by decide) (by decide)).2 1 (by decide)).2 (by decide)).1,
   (((C7_delete_page poolB 0 (by decide) (by decide)).2 1 (by decide)).2 (by decide)).2.2.1⟩

namespace LRUK

/-- With correct bookkeeping and a nonzero evictable count, the
spec-ordered victim exists. -/
theorem specVictim_some (s : Replacer) (hcnt : WFcnt s) (h : s.evictable_cnt ≠ 0) :
    ∃ v, specVictim s = some v := by
  unfold WFcnt at hcnt
  have hne : ((s.history_list ++ s.buffer_list).filter (fun r => r.evictable)).length ≠ 0 := by
    omega
  obtain ⟨r, hr⟩ : ∃ r, r ∈ (s.history_list ++ s.buffer_list).filter (fun r => r.evictable) := by
    cases hfl : (s.history_list ++ s.buffer_list).filter (fun r => r.evictable) with
    | nil => exact absurd (by rw [hfl]; rfl) hne
    | cons a l => exact ⟨a, List.mem_cons_self a l⟩
  have hmem := (List.mem_filter.mp hr).1
  have hev := (List.mem_filter.mp hr).2
  unfold specVictim
  cases hh : s.history_list.find? (fun r => r.evictable) with
  | some rr => exact ⟨rr.frame_id, rfl⟩
  | none =>
    have hrb : r ∈ s.buffer_list := by
      rcases List.mem_append.mp hmem with h2 | h2
      · exact absurd hev (by simpa using List.find?_eq_none.mp hh r h2)
      · exact h2
    cases hb : s.buffer_list.find? (fun r => r.evictable) with
    | some rr => exact ⟨rr.frame_id, rfl⟩
    | none => exact absurd hev (by simpa using List.find?_eq_none.mp hb r hrb)

/-- The spec-ordered victim is evictable in the replacer. -/
theorem specVictim_evictableIn (s : Replacer) (v : Nat) (h : specVictim s = some v) :
    evictableIn s v := by
  unfold specVictim at h
  cases hh : s.history_list.find? (fun r => r.evictable) with
  | some rr =>
    rw [hh] at h
    have hv : rr.frame_id = v := Option.some_injective _ h
    exact ⟨rr, List.mem_append.mpr (Or.inl (List.mem_of_find?_eq_some hh)), hv,
      by simpa using List.find?_some hh⟩
  | none =>
    rw [hh] at h
    cases hb : s.buffer_list.find? (fun r => r.evictable) with
    | some rr =>
      rw [hb] at h
      have hv : rr.frame_id = v := Option.some_injective _ (by simpa using h)
      exact ⟨rr, List.mem_append.mpr (Or.inr (List.mem_of_find?_eq_some hb)), hv,
        by simpa using List.find?_some hb⟩
    | none => exact absurd h (by rw [hb]; simp)

end LRUK

namespace EHT

variable {K V : Type} [DecidableEq K]

/-- `Remove` reports `true` whenever the key is found. -/
theorem remove_ret (hash : K → Nat) (t : Table K V) (key : K) (v : V)
    (h : find hash t key = some v) : (remove hash t key).2 = true := by
  unfold find Bucket.find at h
  rcases Option.map_eq_some'.mp h with ⟨pr, hpr, _⟩
  have hany : ((getBkt t (dirAt t (indexOf hash t key))).list.any
      (fun p => p.1 == key)) = true :=
    List.any_eq_true.mpr ⟨pr, List.mem_of_find?_eq_some hpr, by simpa using List.find?_some hpr⟩
  show (Bucket.remove (getBkt t (dirAt t (indexOf hash t key))) key).2 = true
  unfold Bucket.remove
  rw [if_pos hany]

end EHT

namespace Util

theorem getLastD_mem : ∀ (l : List Nat) (d : Nat), l ≠ [] → l.getLastD d ∈ l := by
  intro l
  induction l with
  | nil => intro d h; exact absurd rfl h
  | cons a as ih =>
    intro d h
    cases as with
    | nil => simp [List.getLastD]
    | cons b bs =>
      have h2 := ih a (by simp)
      rw [List.getLastD_cons]
      exact List.mem_cons_of_mem a (by rw [List.getLastD_cons] at h2 ⊢; exact h2)

end Util

namespace BPM

theorem alloc_fail (s : Pool)
    (h : s.free_list.isEmpty = true ∧ s.replacer.evictable_cnt = 0) :
    allocFrameId s = some (none, s) := by
  unfold allocFrameId
  rw [if_pos h]

theorem alloc_free (s : Pool)
    (hA : ¬ (s.free_list.isEmpty = true ∧ s.replacer.evictable_cnt = 0))
    (hfe : ¬ s.free_list.isEmpty = true) :
    allocFrameId s = some (some (s.free_list.getLastD 0),
      { s with free_list := s.free_list.dropLast }) := by
  unfold allocFrameId
  rw [if_neg hA, if_neg hfe]

theorem alloc_evict_clean (s : Pool) (vfid : Nat) (repl2 : LRUK.Replacer)
    (hA : ¬ (s.free_list.isEmpty = true ∧ s.replacer.evictable_cnt = 0))
    (hfe : s.free_list.isEmpty = true)
    (hev : LRUK.evictInternal s.replacer = some (some vfid, repl2))
    (hnd : (getFrame s vfid).is_dirty = false)
    (hrm : (ptRemove s.page_table ((getFrame s vfid).page_id)).2 = true) :
    allocFrameId s = some (some vfid, { s with
      replacer := repl2,
      page_table := (ptRemove s.page_table ((getFrame s vfid).page_id)).1 }) := by
  unfold allocFrameId
  rw [if_neg hA, if_pos hfe, hev]
  dsimp only
  rw [if_neg (show ¬ ((getFrame s vfid).is_dirty = true) from by rw [hnd]; simp)]
  rw [if_neg (show ¬ ((getFrame s vfid).is_dirty = true ∧
    (getFrame s vfid).page_id = INVALID_PAGE_ID) from fun hc => by rw [hnd] at hc; simp at hc)]
  dsimp only
  rw [if_pos hrm]

theorem alloc_evict_dirty (s : Pool) (vfid : Nat) (repl2 : LRUK.Replacer)
    (hA : ¬ (s.free_list.isEmpty = true ∧ s.replacer.evictable_cnt = 0))
    (hfe : s.free_list.isEmpty = true)
    (hev : LRUK.evictInternal s.replacer = some (some vfid, repl2))
    (hd : (getFrame s vfid).is_dirty = true)
    (hpid : (getFrame s vfid).page_id ≠ INVALID_PAGE_ID)
    (hfind : ptFind s.page_table ((getFrame s vfid).page_id) = some vfid)
    (hrm : (ptRemove s.page_table ((getFrame s vfid).page_id)).2 = true) :
    allocFrameId s = some (some vfid, { s with
      replacer := repl2,
      disk := diskWrite s.disk ((getFrame s vfid).page_id) ((getFrame s vfid).data),
      pages := s.pages.set vfid { getFrame s vfid with is_dirty := false },
      page_table := (ptRemove s.page_table ((getFrame s vfid).page_id)).1 }) := by
  unfold allocFrameId
  rw [if_neg hA, if_pos hfe, hev]
  dsimp only
  rw [if_pos hd, hfind]
  rw [if_neg (show ¬ ((getFrame s vfid).is_dirty = true ∧
    (getFrame s vfid).page_id = INVALID_PAGE_ID) from fun hc => hpid hc.2)]
  dsimp only
  rw [if_pos hrm, Option.getD_some]

theorem newPage_fail (s s1 : Pool) (h : allocFrameId s = some (none, s1)) :
    newPage s = some (none, INVALID_PAGE_ID, s1) := by
  unfold newPage
  rw [h]

theorem newPage_succ (s s1 : Pool) (fid : Nat) (t2 : EHT.Table Int Nat)
    (h : allocFrameId s = some (some fid, s1))
    (hins : ptInsert s1.page_table s1.next_page_id fid = some t2) :
    newPage s = some (some fid, s1.next_page_id, { s1 with
      replacer := LRUK.setEvictable (LRUK.recordAccess s1.replacer fid) fid false,
      next_page_id := s1.next_page_id + 1,
      page_table := t2,
      pages := s1.pages.set fid { getFrame s1 fid with
        page_id := s1.next_page_id, pin_count := 1, is_dirty := false } }) := by
  unfold newPage
  rw [h]
  dsimp only
  rw [hins]
  rfl

end BPM

namespace BPM

/-- The pool after `AllocFrameIdInternal` evicts the dirty victim frame `v`
(replacer advanced to `r2`): the victim's bytes are written back, its dirty
flag cleared, and its page-table mapping removed. -/
def evictedPoolDirty (s : Pool) (v : Nat) (r2 : LRUK.Replacer) : Pool :=
  { s with
    replacer := r2,
    disk := diskWrite s.disk ((getFrame s v).page_id) ((getFrame s v).data),
    pages := s.pages.set v { getFrame s v with is_dirty := false },
    page_table := (ptRemove s.page_table ((getFrame s v).page_id)).1 }

/-- The pool after `AllocFrameIdInternal` evicts the clean victim frame `v`. -/
def evictedPoolClean (s : Pool) (v : Nat) (r2 : LRUK.Replacer) : Pool :=
  { s with
    replacer := r2,
    page_table := (ptRemove s.page_table ((getFrame s v).page_id)).1 }

/-- The pool after `AllocFrameIdInternal` pops the free-list tail. -/
def freedPool (s : Pool) : Pool := { s with free_list := s.free_list.dropLast }

/-- The pool `NewPgImpInternal` hands back on success, built over the state
`s1` left by frame allocation. -/
def newPagePool (s1 : Pool) (fid : Nat) (t2 : EHT.Table Int Nat) : Pool :=
  { s1 with
    replacer := LRUK.setEvictable (LRUK.recordAccess s1.replacer fid) fid false,
    next_page_id := s1.next_page_id + 1,
    page_table := t2,
    pages := s1.pages.set fid { getFrame s1 fid with
      page_id := s1.next_page_id, pin_count := 1, is_dirty := false } }

theorem newPagePool_getFrame (s1 : Pool) (fid : Nat) (t2 : EHT.Table Int Nat)
    (h : fid < s1.pages.length) :
    getFrame (newPagePool s1 fid t2) fid = { getFrame s1 fid with
      page_id := s1.next_page_id, pin_count := 1, is_dirty := false } := by
  show (s1.pages.set fid { getFrame s1 fid with
      page_id := s1.next_page_id, pin_count := 1, is_dirty := false }).getD fid ({} : Frame)
    = { getFrame s1 fid with page_id := s1.next_page_id, pin_count := 1, is_dirty := false }
  rw [Util.getD_set, if_pos h]

theorem evictedPoolDirty_pages_length (s : Pool) (v : Nat) (r2 : LRUK.Replacer) :
    (evictedPoolDirty s v r2).pages.length = s.pages.length := by
  show (s.pages.set v { getFrame s v with is_dirty := false }).length = s.pages.length
  rw [Util.length_set_eq]

end BPM

/-- C3: `new_page` fails (returning no frame and writing `INVALID_PAGE_ID`)
exactly when the free list is empty and the replacer has no evictable frame;
otherwise it allocates the fresh page id `next_page_id_`, installs it in the
page table, and returns a pinned frame with that page id, pin count 1 and a
clean dirty flag; when the frame comes from eviction the victim was
evictable, a dirty victim's bytes are written to disk, and the victim's old
page-table mapping is gone afterwards. -/
theorem C3_new_page (s : BPM.Pool)
    (hwf : EHT.WF BPM.pidHash s.page_table)
    (hcnt : LRUK.WFcnt s.replacer)
    (hvict : ∀ j ∈ (s.replacer.history_list ++ s.replacer.buffer_list).map
        (fun r => r.frame_id), LRUK.evictableIn s.replacer j →
      j < s.pages.length ∧ (BPM.getFrame s j).page_id ≠ BPM.INVALID_PAGE_ID ∧
      BPM.ptFind s.page_table ((BPM.getFrame s j).page_id) = some j)
    (hfl : ∀ j ∈ s.free_list, j < s.pages.length)
    (hfresh : ∀ k2, EHT.InTable s.page_table k2 →
      BPM.pidHash k2 = BPM.pidHash s.next_page_id → k2 = s.next_page_id) :
    (s.free_list.isEmpty = true ∧ s.replacer.evictable_cnt = 0 →
      BPM.newPage s = some (none, BPM.INVALID_PAGE_ID, s)) ∧
    (¬ (s.free_list.isEmpty = true ∧ s.replacer.evictable_cnt = 0) →
      ∃ fid s2, BPM.newPage s = some (some fid, s.next_page_id, s2) ∧
        s2.next_page_id = s.next_page_id + 1 ∧
        BPM.ptFind s2.page_table s.next_page_id = some fid ∧
        (BPM.getFrame s2 fid).page_id = s.next_page_id ∧
        (BPM.getFrame s2 fid).pin_count = 1 ∧
        (BPM.getFrame s2 fid).is_dirty = false ∧
        (¬ s.free_list.isEmpty = true → s2.disk = s.disk) ∧
        (s.free_list.isEmpty = true →
          LRUK.evictableIn s.replacer fid ∧
          ((BPM.getFrame s fid).is_dirty = true →
            s2.disk = BPM.diskWrite s.disk ((BPM.getFrame s fid).page_id)
              ((BPM.getFrame s fid).data)) ∧
          ((BPM.getFrame s fid).is_dirty = false → s2.disk = s.disk) ∧
          ((BPM.getFrame s fid).page_id ≠ s.next_page_id →
            BPM.ptFind s2.page_table ((BPM.getFrame s fid).page_id) = none))) := by
  constructor
  · intro hA
    rw [BPM.newPage_fail s s (BPM.alloc_fail s hA)]
  · intro hA
    by_cases hfe : s.free_list.isEmpty = true
    · -- eviction path
      have hcne : s.replacer.evictable_cnt ≠ 0 := fun hc => hA ⟨hfe, hc⟩
      obtain ⟨v, hv⟩ := LRUK.specVictim_some s.replacer hcnt hcne
      obtain ⟨r2, hr2⟩ := LRUK.evict_matches_spec s.replacer hcnt
      rw [hv] at hr2
      have hveI : LRUK.evictableIn s.replacer v := LRUK.specVictim_evictableIn s.replacer v hv
      have hmemv : v ∈ (s.replacer.history_list ++ s.replacer.buffer_list).map
          (fun r => r.frame_id) := by
        obtain ⟨r, hr, hfidr, _⟩ := hveI
        exact List.mem_map.mpr ⟨r, hr, hfidr⟩
      obtain ⟨hvlt, hvpid, hvfind⟩ := hvict v hmemv hveI
      have hvfind2 : EHT.find BPM.pidHash s.page_table ((BPM.getFrame s v).page_id)
          = some v := hvfind
      have hrm : (BPM.ptRemove s.page_table ((BPM.getFrame s v).page_id)).2 = true :=
        EHT.remove_ret BPM.pidHash s.page_table _ v hvfind2
      obtain ⟨hwf1, hfn1, hpres1⟩ :=
        EHT.remove_spec BPM.pidHash s.page_table ((BPM.getFrame s v).page_id) hwf
      have hfresh1 : ∀ k2, EHT.InTable
          (EHT.remove BPM.pidHash s.page_table ((BPM.getFrame s v).page_id)).1 k2 →
          BPM.pidHash k2 = BPM.pidHash s.next_page_id → k2 = s.next_page_id := by
        intro k2 hk2 hh
        refine hfresh k2 ?_ hh
        rw [EHT.inTable_iff BPM.pidHash s.page_table hwf]
        rw [EHT.inTable_iff BPM.pidHash _ hwf1] at hk2
        by_cases hk2p : k2 = (BPM.getFrame s v).page_id
        · rw [hk2p, hfn1] at hk2
          simp at hk2
        · rw [hpres1 k2 hk2p] at hk2
          exact hk2
      obtain ⟨t2, hloop, hwf2, hfind2, hpres2⟩ :=
        EHT.insertLoop_spec BPM.pidHash 129
          (EHT.remove BPM.pidHash s.page_table ((BPM.getFrame s v).page_id)).1
          s.next_page_id v hwf1 (fun x => BPM.pidHash_lt x) hfresh1 (Nat.sub_le _ _)
      by_cases hd : (BPM.getFrame s v).is_dirty = true
      · -- dirty victim
        have halloc : BPM.allocFrameId s = some (some v, BPM.evictedPoolDirty s v r2) :=
          BPM.alloc_evict_dirty s v r2 hA hfe hr2 hd hvpid hvfind hrm
        have hins : BPM.ptInsert (BPM.evictedPoolDirty s v r2).page_table
            (BPM.evictedPoolDirty s v r2).next_page_id v = some t2 := hloop
        have hNP : BPM.newPage s = some (some v, s.next_page_id,
            BPM.newPagePool (BPM.evictedPoolDirty s v r2) v t2) :=
          BPM.newPage_succ s (BPM.evictedPoolDirty s v r2) v t2 halloc hins
        have hvlt2 : v < (BPM.evictedPoolDirty s v r2).pages.length := by
          rw [BPM.evictedPoolDirty_pages_length]
          exact hvlt
        have hgf := BPM.newPagePool_getFrame (BPM.evictedPoolDirty s v r2) v t2 hvlt2
        refine ⟨v, BPM.newPagePool (BPM.evictedPoolDirty s v r2) v t2, hNP, rfl, hfind2,
          by rw [hgf]; rfl, by rw [hgf], by rw [hgf], fun hc => absurd hfe hc, ?_⟩
        intro _
        refine ⟨hveI, fun _ => rfl, ?_, ?_⟩
        · intro hc
          rw [hc] at hd
          exact absurd hd (by simp)
        · intro hne
          show EHT.find BPM.pidHash t2 ((BPM.getFrame s v).page_id) = none
          rw [hpres2 _ hne]
          exact hfn1
      · -- clean victim
        have hnd : (BPM.getFrame s v).is_dirty = false := by
          cases hb : (BPM.getFrame s v).is_dirty
          · rfl
          · exact absurd hb hd
        have halloc : BPM.allocFrameId s = some (some v, BPM.evictedPoolClean s v r2) :=
          BPM.alloc_evict_clean s v r2 hA hfe hr2 hnd hrm
        have hins : BPM.ptInsert (BPM.evictedPoolClean s v r2).page_table
            (BPM.evictedPoolClean s v r2).next_page_id v = some t2 := hloop
        have hNP : BPM.newPage s = some (some v, s.next_page_id,
            BPM.newPagePool (BPM.evictedPoolClean s v r2) v t2) :=
          BPM.newPage_succ s (BPM.evictedPoolClean s v r2) v t2 halloc hins
        have hvlt2 : v < (BPM.evictedPoolClean s v r2).pages.length := hvlt
        have hgf := BPM.newPagePool_getFrame (BPM.evictedPoolClean s v r2) v t2 hvlt2
        refine ⟨v, BPM.newPagePool (BPM.evictedPoolClean s v r2) v t2, hNP, rfl, hfind2,
          by rw [hgf]; rfl, by rw [hgf], by rw [hgf], fun hc => absurd hfe hc, ?_⟩
        intro _
        refine ⟨hveI, ?_, fun _ => rfl, ?_⟩
        · intro hc
          rw [hc] at hnd
          exact absurd hnd (by simp)
        · intro hne
          show EHT.find BPM.pidHash t2 ((BPM.getFrame s v).page_id) = none
          rw [hpres2 _ hne]
          exact hfn1
    · -- free-list path
      have halloc : BPM.allocFrameId s
          = some (some (s.free_list.getLastD 0), BPM.freedPool s) :=
        BPM.alloc_free s hA hfe
      have hne : s.free_list ≠ [] := fun hc => hfe (by rw [hc]; rfl)
      have hflt : s.free_list.getLastD 0 < s.pages.length :=
        hfl _ (Util.getLastD_mem s.free_list 0 hne)
      obtain ⟨t2, hloop, hwf2, hfind2, hpres2⟩ :=
        EHT.insertLoop_spec BPM.pidHash 129 s.page_table s.next_page_id
          (s.free_list.getLastD 0) hwf (fun x => BPM.pidHash_lt x) hfresh (Nat.sub_le _ _)
      have hins : BPM.ptInsert (BPM.freedPool s).page_table
          (BPM.freedPool s).next_page_id (s.free_list.getLastD 0) = some t2 := hloop
      have hNP : BPM.newPage s = some (some (s.free_list.getLastD 0), s.next_page_id,
          BPM.newPagePool (BPM.freedPool s) (s.free_list.getLastD 0) t2) :=
        BPM.newPage_succ s (BPM.freedPool s) (s.free_list.getLastD 0) t2 halloc hins
      have hflt2 : s.free_list.getLastD 0 < (BPM.freedPool s).pages.length := hflt
      have hgf := BPM.newPagePool_getFrame (BPM.freedPool s) (s.free_list.getLastD 0) t2 hflt2
      refine ⟨s.free_list.getLastD 0,
        BPM.newPagePool (BPM.freedPool s) (s.free_list.getLastD 0) t2, hNP, rfl, hfind2,
        by rw [hgf]; rfl, by rw [hgf], by rw [hgf], fun _ => rfl, fun hc => absurd hc hfe⟩

/-- A freshly constructed table holds no key. -/
theorem EHT.inTable_mkTable_false {K V : Type} [DecidableEq K] (bsz : Nat) (k : K) :
    ¬ EHT.InTable (EHT.mkTable K V bsz) k := by
  rintro ⟨i, hi, p, hp, _⟩
  have hi1 : i < 1 := hi
  have hi0 : i = 0 := by omega
  subst hi0
  exact absurd hp (List.not_mem_nil p)

/-- Witness for C3 at a concrete pool: a fresh pool of size 3 has free
frames, and `new_page` returns a pinned frame carrying the fresh page id. -/
theorem C3_new_page_witness :
    ¬ ((BPM.mkPool 3 4 2).free_list.isEmpty = true ∧
       (BPM.mkPool 3 4 2).replacer.evictable_cnt = 0) ∧
    ∃ fid s2, BPM.newPage (BPM.mkPool 3 4 2)
        = some (some fid, (BPM.mkPool 3 4 2).next_page_id, s2) ∧
      (BPM.getFrame s2 fid).pin_count = 1 :=
  ⟨by decide, by
    obtain ⟨fid, s2, h1, _, _, _, h5, _⟩ :=
      (C3_new_page (BPM.mkPool 3 4 2) (by decide) (by decide) (by decide) (by decide)
        (fun k2 hk _ => absurd hk (EHT.inTable_mkTable_false 4 k2))).2 (by decide)
    exact ⟨fid, s2, h1, h5⟩⟩

namespace Util

theorem getD_replicate {α : Type} (a : α) : ∀ (n i : Nat), (List.replicate n a).getD i a = a := by
  intro n
  induction n with
  | zero => intro i; rfl
  | succ n ih =>
    intro i
    cases i with
    | zero => rfl
    | succ j => exact ih j

end Util

namespace BPM

/-- The pool invariant behind C9: the replacer's record map is well formed
and every pinned frame is not evictable. -/
def PoolInv (s : Pool) : Prop :=
  LRUK.UniqIds s.replacer ∧ LRUK.BufWF s.replacer ∧
    ∀ i, 0 < (getFrame s i).pin_count → ¬ LRUK.evictableIn s.replacer i

/-- Pool states reachable from a fresh pool through the public operations. -/
inductive Reach : Pool → Prop where
  | init (psz bsz k : Nat) (h : 0 < bsz) : Reach (mkPool psz bsz k)
  | newp (s : Pool) (r : Option Nat × Int × Pool) (h : Reach s)
      (he : newPage s = some r) : Reach r.2.2
  | fetch (s : Pool) (p : Int) (r : Option Nat × Pool) (h : Reach s)
      (he : fetchPage s p = some r) : Reach r.2
  | unpin (s : Pool) (p : Int) (d : Bool) (h : Reach s) : Reach (unpinPage s p d).2
  | flush (s : Pool) (p : Int) (r : Bool × Pool) (h : Reach s)
      (he : flushPage s p = some r) : Reach r.2
  | flushall (s : Pool) (h : Reach s) : Reach (flushAll s)
  | del (s : Pool) (p : Int) (h : Reach s) : Reach (deletePage s p).2

theorem mkPool_PoolInv (psz bsz k : Nat) : PoolInv (mkPool psz bsz k) := by
  refine ⟨List.nodup_nil, fun r hr => absurd hr (List.not_mem_nil r), ?_⟩
  intro i hpin
  exfalso
  have : getFrame (mkPool psz bsz k) i = {} := by
    show (List.replicate psz ({} : Frame)).getD i ({} : Frame) = ({} : Frame)
    exact Util.getD_replicate _ psz i
  rw [this] at hpin
  exact absurd hpin (by simp)

theorem pin_set_dirty_clear (l : List Frame) (f i : Nat) (fr : Frame)
    (hpin : fr.pin_count = (l.getD f ({} : Frame)).pin_count) :
    ((l.set f fr).getD i ({} : Frame)).pin_count = (l.getD i ({} : Frame)).pin_count := by
  by_cases hif : i = f
  · subst hif
    rw [Util.getD_set]
    by_cases hlt : i < l.length
    · rw [if_pos hlt, hpin]
    · rw [if_neg hlt]
      rw [List.getD_eq_default _ _ (by omega : l.length ≤ i)]
  · rw [Util.getD_set_ne _ _ _ _ _ (fun hc => hif hc.symm)]

theorem unpin_PoolInv (s : Pool) (p : Int) (d : Bool) (hinv : PoolInv s) :
    PoolInv (unpinPage s p d).2 := by
  obtain ⟨hu, hb, hpi⟩ := hinv
  cases hf : ptFind s.page_table p with
  | none => rw [unpin_notfound s p d hf]; exact ⟨hu, hb, hpi⟩
  | some fid =>
    by_cases h0 : (getFrame s fid).pin_count = 0
    · rw [unpin_zero s p d fid hf h0]; exact ⟨hu, hb, hpi⟩
    · rw [unpin_pos s p d fid hf h0]
      have hlt : fid < s.pages.length := pin_pos_lt s fid (by omega)
      by_cases hpc : (getFrame s fid).pin_count - 1 = 0
      · rw [if_pos hpc]
        obtain ⟨hu2, hb2⟩ := LRUK.setEvictable_inv s.replacer fid true hu hb
        refine ⟨hu2, hb2, ?_⟩
        intro i hpin
        by_cases hif : i = fid
        · subst hif
          exfalso
          have : (getFrame ({ s with
              replacer := LRUK.setEvictable s.replacer i true,
              pages := s.pages.set i { getFrame s i with
                pin_count := (getFrame s i).pin_count - 1,
                is_dirty := (getFrame s i).is_dirty || d } } : Pool) i).pin_count
              = (getFrame s i).pin_count - 1 := by
            show ((s.pages.set i { getFrame s i with
              pin_count := (getFrame s i).pin_count - 1,
              is_dirty := (getFrame s i).is_dirty || d }).getD i ({} : Frame)).pin_count
              = (getFrame s i).pin_count - 1
            rw [Util.getD_set, if_pos hlt]
          rw [this] at hpin
          omega
        · have hpin2 : 0 < (getFrame s i).pin_count := by
            have : (getFrame ({ s with
                replacer := LRUK.setEvictable s.replacer fid true,
                pages := s.pages.set fid { getFrame s fid with
                  pin_count := (getFrame s fid).pin_count - 1,
                  is_dirty := (getFrame s fid).is_dirty || d } } : Pool) i).pin_count
                = (getFrame s i).pin_count := by
              show ((s.pages.set fid { getFrame s fid with
                pin_count := (getFrame s fid).pin_count - 1,
                is_dirty := (getFrame s fid).is_dirty || d }).getD i ({} : Frame)).pin_count
                = (s.pages.getD i ({} : Frame)).pin_count
              rw [Util.getD_set_ne _ _ _ _ _ (fun hc => hif hc.symm)]
            rw [this] at hpin
            exact hpin
          intro hev
          exact hpi i hpin2 ((LRUK.evictableIn_setEvictable_ne s.replacer fid true i hif).mp hev)
      · rw [if_neg hpc]
        refine ⟨hu, hb, ?_⟩
        intro i hpin
        by_cases hif : i = fid
        · subst hif
          exact hpi i (by omega)
        · have hpin2 : 0 < (getFrame s i).pin_count := by
            have : (getFrame ({ s with
                replacer := s.replacer,
                pages := s.pages.set fid { getFrame s fid with
                  pin_count := (getFrame s fid).pin_count - 1,
                  is_dirty := (getFrame s fid).is_dirty || d } } : Pool) i).pin_count
                = (getFrame s i).pin_count := by
              show ((s.pages.set fid { getFrame s fid with
                pin_count := (getFrame s fid).pin_count - 1,
                is_dirty := (getFrame s fid).is_dirty || d }).getD i ({} : Frame)).pin_count
                = (s.pages.getD i ({} : Frame)).pin_count
              rw [Util.getD_set_ne _ _ _ _ _ (fun hc => hif hc.symm)]
            rw [this] at hpin
            exact hpin
          exact hpi i hpin2

end BPM

namespace BPM

theorem flush_PoolInv (s : Pool) (p : Int) (r : Bool × Pool)
    (he : flushPage s p = some r) (hinv : PoolInv s) : PoolInv r.2 := by
  obtain ⟨hu, hb, hpi⟩ := hinv
  by_cases hp : p = INVALID_PAGE_ID
  · exfalso
    unfold flushPage at he
    rw [if_pos hp] at he
    exact absurd he (by simp)
  · cases hf : ptFind s.page_table p with
    | none =>
      unfold flushPage at he
      rw [if_neg hp, hf] at he
      have hr : r = (false, s) := (Option.some_injective _ he).symm
      rw [hr]
      exact ⟨hu, hb, hpi⟩
    | some fid =>
      rw [flushPage_resident s p fid hp hf] at he
      have hr : r = (true, flushedPool s p fid) := (Option.some_injective _ he).symm
      rw [hr]
      refine ⟨hu, hb, ?_⟩
      intro i hpin
      show ¬ LRUK.evictableIn s.replacer i
      apply hpi i
      have hpin2 : 0 < ((s.pages.set fid { getFrame s fid with is_dirty := false }).getD i
          ({} : Frame)).pin_count := hpin
      rw [pin_set_dirty_clear s.pages fid i { getFrame s fid with is_dirty := false } rfl]
        at hpin2
      exact hpin2

theorem flushAll_go (l : List Nat) : ∀ (acc : Pool),
    ((l.foldl
      (fun acc i =>
        if (getFrame acc i).page_id ≠ INVALID_PAGE_ID ∧ (getFrame acc i).is_dirty then
          { acc with disk := diskWrite acc.disk (getFrame acc i).page_id (getFrame acc i).data
                     pages := acc.pages.set i { getFrame acc i with is_dirty := false } }
        else acc)
      acc).replacer = acc.replacer)
    ∧ (∀ i, (getFrame (l.foldl
      (fun acc i =>
        if (getFrame acc i).page_id ≠ INVALID_PAGE_ID ∧ (getFrame acc i).is_dirty then
          { acc with disk := diskWrite acc.disk (getFrame acc i).page_id (getFrame acc i).data
                     pages := acc.pages.set i { getFrame acc i with is_dirty := false } }
        else acc)
      acc) i).pin_count = (getFrame acc i).pin_count) := by
  induction l with
  | nil => intro acc; exact ⟨rfl, fun i => rfl⟩
  | cons a as ih =>
    intro acc
    rw [List.foldl_cons]
    by_cases hc : (getFrame acc a).page_id ≠ INVALID_PAGE_ID ∧ (getFrame acc a).is_dirty = true
    · rw [if_pos hc]
      obtain ⟨h1, h2⟩ := ih { acc with
        disk := diskWrite acc.disk (getFrame acc a).page_id (getFrame acc a).data
        pages := acc.pages.set a { getFrame acc a with is_dirty := false } }
      refine ⟨h1.trans rfl, fun i => (h2 i).trans ?_⟩
      have : ((acc.pages.set a { getFrame acc a with is_dirty := false }).getD i
          ({} : Frame)).pin_count = (acc.pages.getD i ({} : Frame)).pin_count :=
        pin_set_dirty_clear acc.pages a i _ rfl
      exact this
    · rw [if_neg hc]
      exact ih acc

theorem flushAll_PoolInv (s : Pool) (hinv : PoolInv s) : PoolInv (flushAll s) := by
  obtain ⟨hu, hb, hpi⟩ := hinv
  obtain ⟨h1, h2⟩ := flushAll_go (List.range s.pool_size) s
  have hrep : (flushAll s).replacer = s.replacer := h1
  have hpin : ∀ i, (getFrame (flushAll s) i).pin_count = (getFrame s i).pin_count := h2
  refine ⟨?_, ?_, ?_⟩
  · rw [hrep]; exact hu
  · rw [hrep]; exact hb
  · intro i hp
    rw [hrep]
    rw [hpin i] at hp
    exact hpi i hp

theorem delete_PoolInv (s : Pool) (p : Int) (hinv : PoolInv s) :
    PoolInv (deletePage s p).2 := by
  obtain ⟨hu, hb, hpi⟩ := hinv
  cases hf : ptFind s.page_table p with
  | none => rw [delete_notfound s p hf]; exact ⟨hu, hb, hpi⟩
  | some fid =>
    by_cases hpin : (getFrame s fid).pin_count > 0
    · rw [delete_pinned s p fid hf hpin]; exact ⟨hu, hb, hpi⟩
    · rw [delete_free s p fid hf hpin]
      obtain ⟨hu2, hb2, hsh⟩ := LRUK.removeRec_inv s.replacer fid
      refine ⟨hu2 hu, hb2 hb, ?_⟩
      intro i hpin2
      show ¬ LRUK.evictableIn (LRUK.removeRec s.replacer fid) i
      intro hev
      have hev0 : LRUK.evictableIn s.replacer i := hsh i hev
      have hpin3 : 0 < ((s.pages.set fid { getFrame s fid with
          page_id := INVALID_PAGE_ID, pin_count := 0, is_dirty := false }).getD i
          ({} : Frame)).pin_count := hpin2
      by_cases hif : i = fid
      · subst hif
        rw [Util.getD_set] at hpin3
        by_cases hlt : i < s.pages.length
        · rw [if_pos hlt] at hpin3
          exact absurd hpin3 (by simp)
        · rw [if_neg hlt] at hpin3
          exact absurd hpin3 (by simp)
      · rw [Util.getD_set_ne _ _ _ _ _ (fun hc => hif hc.symm)] at hpin3
        exact hpi i hpin3 hev0

end BPM

namespace BPM

theorem alloc_PoolInv (s : Pool) (ofid : Option Nat) (s1 : Pool)
    (h : allocFrameId s = some (ofid, s1)) (hinv : PoolInv s) :
    PoolInv s1 ∧ (∀ i, (getFrame s1 i).pin_count = (getFrame s i).pin_count) ∧
      (∀ j, LRUK.evictableIn s1.replacer j → LRUK.evictableIn s.replacer j) := by
  obtain ⟨hu, hb, hpi⟩ := hinv
  unfold allocFrameId at h
  by_cases hA : s.free_list.isEmpty = true ∧ s.replacer.evictable_cnt = 0
  · rw [if_pos hA] at h
    have h2 : s = s1 := congrArg Prod.snd (Option.some_injective _ h)
    rw [← h2]
    exact ⟨⟨hu, hb, hpi⟩, fun i => rfl, fun j hj => hj⟩
  · rw [if_neg hA] at h
    by_cases hfe : s.free_list.isEmpty = true
    · rw [if_pos hfe] at h
      cases hev : LRUK.evictInternal s.replacer with
      | none => rw [hev] at h; exact absurd h (by simp)
      | some pr =>
        obtain ⟨ov, repl2⟩ := pr
        cases ov with
        | none => rw [hev] at h; exact absurd h (by simp)
        | some vfid =>
          rw [hev] at h
          dsimp only at h
          obtain ⟨huE, hbE, hsE⟩ := LRUK.evictInternal_inv s.replacer (some vfid) repl2 hev
          by_cases hd : (getFrame s vfid).is_dirty = true
          · rw [if_pos hd] at h
            by_cases hpidI : (getFrame s vfid).page_id = INVALID_PAGE_ID
            · rw [if_pos (And.intro hd hpidI)] at h
              exact absurd h (by simp)
            · rw [if_neg (fun hc => hpidI hc.2)] at h
              dsimp only at h
              by_cases hrm : (ptRemove s.page_table ((getFrame s vfid).page_id)).2 = true
              · rw [if_pos hrm] at h
                have h2 := Option.some_injective _ h
                have hs1 : s1 = { s with
                    replacer := repl2,
                    disk := diskWrite s.disk ((getFrame s vfid).page_id)
                      ((getFrame s ((ptFind s.page_table
                        ((getFrame s vfid).page_id)).getD 0)).data),
                    pages := s.pages.set ((ptFind s.page_table
                        ((getFrame s vfid).page_id)).getD 0)
                      { getFrame s ((ptFind s.page_table
                          ((getFrame s vfid).page_id)).getD 0) with is_dirty := false },
                    page_table := (ptRemove s.page_table
                      ((getFrame s vfid).page_id)).1 } := (congrArg Prod.snd h2).symm
                have hpins : ∀ i, (getFrame s1 i).pin_count = (getFrame s i).pin_count := by
                  intro i
                  rw [hs1]
                  exact pin_set_dirty_clear s.pages _ i
                    { getFrame s ((ptFind s.page_table
                        ((getFrame s vfid).page_id)).getD 0) with is_dirty := false } rfl
                have hrep : s1.replacer = repl2 := by rw [hs1]
                refine ⟨⟨?_, ?_, ?_⟩, hpins, ?_⟩
                · rw [hrep]; exact huE hu
                · rw [hrep]; exact hbE hb
                · intro i hp
                  rw [hrep]
                  intro hev2
                  rw [hpins i] at hp
                  exact hpi i hp (hsE i hev2)
                · intro j hj
                  rw [hrep] at hj
                  exact hsE j hj
              · rw [if_neg hrm] at h
                exact absurd h (by simp)
          · rw [if_neg hd] at h
            rw [if_neg (fun hc => hd hc.1)] at h
            dsimp only at h
            by_cases hrm : (ptRemove s.page_table ((getFrame s vfid).page_id)).2 = true
            · rw [if_pos hrm] at h
              have h2 := Option.some_injective _ h
              have hs1 : s1 = { s with
                  replacer := repl2,
                  page_table := (ptRemove s.page_table
                    ((getFrame s vfid).page_id)).1 } := (congrArg Prod.snd h2).symm
              have hpins : ∀ i, (getFrame s1 i).pin_count = (getFrame s i).pin_count := by
                intro i
                rw [hs1]
                rfl
              have hrep : s1.replacer = repl2 := by rw [hs1]
              refine ⟨⟨?_, ?_, ?_⟩, hpins, ?_⟩
              · rw [hrep]; exact huE hu
              · rw [hrep]; exact hbE hb
              · intro i hp
                rw [hrep]
                intro hev2
                rw [hpins i] at hp
                exact hpi i hp (hsE i hev2)
              · intro j hj
                rw [hrep] at hj
                exact hsE j hj
            · rw [if_neg hrm] at h
              exact absurd h (by simp)
    · rw [if_neg hfe] at h
      have h2 := Option.some_injective _ h
      have hs1 : s1 = { s with free_list := s.free_list.dropLast } :=
        (congrArg Prod.snd h2).symm
      have hpins : ∀ i, (getFrame s1 i).pin_count = (getFrame s i).pin_count := by
        intro i
        rw [hs1]
        rfl
      have hrep : s1.replacer = s.replacer := by rw [hs1]
      refine ⟨⟨?_, ?_, ?_⟩, hpins, ?_⟩
      · rw [hrep]; exact hu
      · rw [hrep]; exact hb
      · intro i hp
        rw [hrep]
        rw [hpins i] at hp
        exact hpi i hp
      · intro j hj
        rw [hrep] at hj
        exact hj

end BPM

namespace BPM

theorem newPage_PoolInv (s : Pool) (r : Option Nat × Int × Pool)
    (he : newPage s = some r) (hinv : PoolInv s) : PoolInv r.2.2 := by
  unfold newPage at he
  cases halloc : allocFrameId s with
  | none => rw [halloc] at he; exact absurd he (by simp)
  | some pr =>
    obtain ⟨ofid, s1⟩ := pr
    obtain ⟨hinv1, hpins, hsh⟩ := alloc_PoolInv s ofid s1 halloc hinv
    cases ofid with
    | none =>
      rw [halloc] at he
      have hr : r = (none, INVALID_PAGE_ID, s1) := (Option.some_injective _ he).symm
      rw [hr]
      exact hinv1
    | some fid =>
      rw [halloc] at he
      dsimp only at he
      cases hins : ptInsert s1.page_table s1.next_page_id fid with
      | none => rw [hins] at he; exact absurd he (by simp)
      | some t2 =>
        rw [hins] at he
        have hr : r = (some fid, s1.next_page_id, newPagePool s1 fid t2) :=
          (Option.some_injective _ he).symm
        rw [hr]
        obtain ⟨hu1, hb1, hpi1⟩ := hinv1
        obtain ⟨huR, hbR, hiffR⟩ := LRUK.recordAccess_inv s1.replacer fid hu1 hb1
        obtain ⟨huS, hbS⟩ :=
          LRUK.setEvictable_inv (LRUK.recordAccess s1.replacer fid) fid false huR hbR
        refine ⟨huS, hbS, ?_⟩
        intro i hpin
        show ¬ LRUK.evictableIn
          (LRUK.setEvictable (LRUK.recordAccess s1.replacer fid) fid false) i
        by_cases hif : i = fid
        · subst hif
          exact LRUK.not_evictableIn_setEvictable_false (LRUK.recordAccess s1.replacer i) i huR
        · intro hev
          have hev2 : LRUK.evictableIn (LRUK.recordAccess s1.replacer fid) i :=
            (LRUK.evictableIn_setEvictable_ne _ fid false i hif).mp hev
          have hev3 : LRUK.evictableIn s1.replacer i := (hiffR i).mp hev2
          have hpin1 : 0 < ((s1.pages.set fid { getFrame s1 fid with
              page_id := s1.next_page_id, pin_count := 1, is_dirty := false }).getD i
              ({} : Frame)).pin_count := hpin
          rw [Util.getD_set_ne _ _ _ _ _ (fun hc => hif hc.symm)] at hpin1
          have hpin2 : 0 < (getFrame s1 i).pin_count := hpin1
          exact hpi1 i hpin2 hev3

theorem fetch_PoolInv (s : Pool) (p : Int) (r : Option Nat × Pool)
    (he : fetchPage s p = some r) (hinv : PoolInv s) : PoolInv r.2 := by
  unfold fetchPage at he
  cases hf : ptFind s.page_table p with
  | some fid =>
    obtain ⟨hu, hb, hpi⟩ := hinv
    rw [hf] at he
    dsimp only at he
    have hr : r = (some fid, { s with
        replacer := LRUK.setEvictable (LRUK.recordAccess s.replacer fid) fid false,
        pages := s.pages.set fid { getFrame s fid with
          pin_count := (getFrame s fid).pin_count + 1 } }) :=
      (Option.some_injective _ he).symm
    rw [hr]
    obtain ⟨huR, hbR, hiffR⟩ := LRUK.recordAccess_inv s.replacer fid hu hb
    obtain ⟨huS, hbS⟩ :=
      LRUK.setEvictable_inv (LRUK.recordAccess s.replacer fid) fid false huR hbR
    refine ⟨huS, hbS, ?_⟩
    intro i hpin
    show ¬ LRUK.evictableIn
      (LRUK.setEvictable (LRUK.recordAccess s.replacer fid) fid false) i
    by_cases hif : i = fid
    · subst hif
      exact LRUK.not_evictableIn_setEvictable_false (LRUK.recordAccess s.replacer i) i huR
    · intro hev
      have hev2 : LRUK.evictableIn (LRUK.recordAccess s.replacer fid) i :=
        (LRUK.evictableIn_setEvictable_ne _ fid false i hif).mp hev
      have hev3 : LRUK.evictableIn s.replacer i := (hiffR i).mp hev2
      have hpin1 : 0 < ((s.pages.set fid { getFrame s fid with
          pin_count := (getFrame s fid).pin_count + 1 }).getD i
          ({} : Frame)).pin_count := hpin
      rw [Util.getD_set_ne _ _ _ _ _ (fun hc => hif hc.symm)] at hpin1
      have hpin2 : 0 < (getFrame s i).pin_count := hpin1
      exact hpi i hpin2 hev3
  | none =>
    rw [hf] at he
    cases halloc : allocFrameId s with
    | none => rw [halloc] at he; exact absurd he (by simp)
    | some pr =>
      obtain ⟨ofid, s1⟩ := pr
      obtain ⟨hinv1, hpins, hsh⟩ := alloc_PoolInv s ofid s1 halloc hinv
      cases ofid with
      | none =>
        rw [halloc] at he
        have hr : r = (none, s1) := (Option.some_injective _ he).symm
        rw [hr]
        exact hinv1
      | some fid =>
        rw [halloc] at he
        dsimp only at he
        cases hins : ptInsert s1.page_table p fid with
        | none => rw [hins] at he; exact absurd he (by simp)
        | some t2 =>
          rw [hins] at he
          have hr : r = (some fid, { s1 with
              replacer := LRUK.setEvictable (LRUK.recordAccess s1.replacer fid) fid false,
              page_table := t2,
              pages := s1.pages.set fid { getFrame s1 fid with
                page_id := p, pin_count := 1, is_dirty := false,
                data := diskRead s1.disk p } }) :=
            (Option.some_injective _ he).symm
          rw [hr]
          obtain ⟨hu1, hb1, hpi1⟩ := hinv1
          obtain ⟨huR, hbR, hiffR⟩ := LRUK.recordAccess_inv s1.replacer fid hu1 hb1
          obtain ⟨huS, hbS⟩ :=
            LRUK.setEvictable_inv (LRUK.recordAccess s1.replacer fid) fid false huR hbR
          refine ⟨huS, hbS, ?_⟩
          intro i hpin
          show ¬ LRUK.evictableIn
            (LRUK.setEvictable (LRUK.recordAccess s1.replacer fid) fid false) i
          by_cases hif : i = fid
          · subst hif
            exact LRUK.not_evictableIn_setEvictable_false
              (LRUK.recordAccess s1.replacer i) i huR
          · intro hev
            have hev2 : LRUK.evictableIn (LRUK.recordAccess s1.replacer fid) i :=
              (LRUK.evictableIn_setEvictable_ne _ fid false i hif).mp hev
            have hev3 : LRUK.evictableIn s1.replacer i := (hiffR i).mp hev2
            have hpin1 : 0 < ((s1.pages.set fid { getFrame s1 fid with
                page_id := p, pin_count := 1, is_dirty := false,
                data := diskRead s1.disk p }).getD i
                ({} : Frame)).pin_count := hpin
            rw [Util.getD_set_ne _ _ _ _ _ (fun hc => hif hc.symm)] at hpin1
            have hpin2 : 0 < (getFrame s1 i).pin_count := hpin1
            exact hpi1 i hpin2 hev3

theorem reach_PoolInv (s : Pool) (h : Reach s) : PoolInv s := by
  induction h with
  | init psz bsz k h0 => exact mkPool_PoolInv psz bsz k
  | newp s r h he ih => exact newPage_PoolInv s r he ih
  | fetch s p r h he ih => exact fetch_PoolInv s p r he ih
  | unpin s p d h ih => exact unpin_PoolInv s p d ih
  | flush s p r h he ih => exact flush_PoolInv s p r he ih
  | flushall s h ih => exact flushAll_PoolInv s ih
  | del s p h ih => exact delete_PoolInv s p ih

end BPM

/-- C9: in every pool state reachable by any sequence of `new_page`,
`fetch_page`, `unpin_page`, `flush_page`, `flush_all_pages` and
`delete_page` from a fresh pool, every frame with a positive pin count is
not evictable in the replacer, so `evict` can never return a pinned
frame. -/
theorem C9_pinned_not_evictable (s : BPM.Pool) (h : BPM.Reach s) :
    ∀ i, 0 < (BPM.getFrame s i).pin_count → ¬ LRUK.evictableIn s.replacer i :=
  (BPM.reach_PoolInv s h).2.2

/-- Witness for C9: the concrete pool reached by one `new_page` from a fresh
pool of size 2 is reachable, its frame 1 is pinned, and frame 1 is not
evictable. -/
theorem C9_pinned_not_evictable_witness :
    BPM.Reach poolA ∧ 0 < (BPM.getFrame poolA 1).pin_count ∧
    ¬ LRUK.evictableIn poolA.replacer 1 := by
  have h0 : BPM.Reach (BPM.mkPool 2 4 2) := BPM.Reach.init 2 4 2 (by decide)
  have he : BPM.newPage (BPM.mkPool 2 4 2) = some (some 1, 0, poolA) := by decide
  have h1 : BPM.Reach poolA := BPM.Reach.newp (BPM.mkPool 2 4 2) (some 1, 0, poolA) h0 he
  exact ⟨h1, by decide, C9_pinned_not_evictable poolA h1 1 (by decide)⟩
